import Mathlib

/-!
The maildir search and the mbox export of aerc.

A shallow embedding of `worker/maildir/search.go` and of the export loop of
`commands/account/export-mbox.go`, with the properties of the search engine
and of the export pipeline proved over it.

Conventions of the embedding.

* A Go `string` holding valid UTF-8 is a `List Char` (one `Char` per rune). A
  byte-level `strings.Contains` on valid UTF-8 agrees with the rune-level infix
  test, because UTF-8 is self-synchronising.
* A Go slice or map is a `List`; `nil` and the empty slice are both `[]`, which
  is sound here because the source only takes `len` of them and ranges over
  them.
* `time.Time` is an `Int`: the nanoseconds elapsed since the zero instant
  (January 1, year 1, 00:00:00 UTC), so that `IsZero`, `Before` and `After`
  are `= 0`, `<` and `>`.
* A function returning `(T, error)` returns `Except Err T`.
* Library functions that are not part of the repository (`unicode.IsUpper`,
  `unicode.ToLower`, `lib.FindFirstNonMultipart`, the backend) are parameters.
-/

namespace Aerc

/-! ## Strings -/

/-- A Go string holding valid UTF-8, rune by rune. -/
abbrev GoString := List Char

/-- The error values of the embedding carry their message only. -/
abbrev Err := String

/-- The two functions of Go's `unicode` package that `search.go` calls. They
belong to the standard library, so the embedding takes them as parameters. -/
structure Unicode where
  /-- Go's `unicode.IsUpper`. -/
  IsUpper : Char → Bool
  /-- Go's `unicode.ToLower`. -/
  ToLower : Char → Char

/-- The ASCII fragment of the `unicode` tables: `A`..`Z` are the upper-case
letters and map to `a`..`z`, every other character is left alone. -/
def asciiUnicode : Unicode where
  IsUpper := Char.isUpper
  ToLower := Char.toLower

/-- A `Unicode` instance that behaves like Go's tables on the ASCII range. -/
def AgreesOnASCII (U : Unicode) : Prop :=
  ∀ c : Char, c.toNat < 128 → U.IsUpper c = c.isUpper ∧ U.ToLower c = c.toLower

/-- Go's `strings.ToLower`: the rune-wise image under `unicode.ToLower`. -/
def stringsToLower (U : Unicode) (s : GoString) : GoString :=
  s.map U.ToLower

/-- Go's `strings.Contains(s, substr)`: `substr` occurs in `s` at some offset. -/
def stringsContains : GoString → GoString → Bool
  | [], substr => substr.isPrefixOf []
  | c :: s, substr => substr.isPrefixOf (c :: s) || stringsContains s substr

/-- The source's `hasUpper`: some rune of `s` is upper case. -/
def hasUpper (U : Unicode) : GoString → Bool
  | [] => false
  | r :: s => if U.IsUpper r then true else hasUpper U s

/-- The source's `containsSmartCase`: case-insensitive unless `substr` has an
upper-case rune. -/
def containsSmartCase (U : Unicode) (s substr : GoString) : Bool :=
  if hasUpper U substr then stringsContains s substr
  else stringsContains (stringsToLower U s) (stringsToLower U substr)

/-! ## Search criteria and the required-parts bitmask -/

/-- The type `maildir.Flag` is a rune. -/
abbrev Flag := Char

/-- The constant `maildir.FlagSeen`. -/
def FlagSeen : Flag := 'S'

/-- The constant `maildir.FlagReplied`. -/
def FlagReplied : Flag := 'R'

/-- The constant `maildir.FlagFlagged`. -/
def FlagFlagged : Flag := 'F'

/-- Go's `time.Time`, as nanoseconds since the zero instant. -/
abbrev Time := Int

/-- Go's `Time.IsZero`. -/
def Time.IsZero (t : Time) : Bool := decide (t = 0)

/-- Go's `Time.Before`. -/
def Time.Before (t u : Time) : Bool := decide (t < u)

/-- Go's `Time.After`. -/
def Time.After (t u : Time) : Bool := decide (t > u)

/-- Go's `textproto.MIMEHeader`, a `map[string][]string`, as an association
list with one entry per key. -/
abbrev MIMEHeader := List (GoString × List GoString)

/-- Go's `MIMEHeader.Add` on a canonical key: appends `value` to the values of
`key`, creating the entry when the key is new. -/
def MIMEHeader.Add : MIMEHeader → GoString → GoString → MIMEHeader
  | [], key, value => [(key, [value])]
  | (k, vs) :: rest, key, value =>
    if k = key then (k, vs ++ [value]) :: rest
    else (k, vs) :: MIMEHeader.Add rest key value

/-- The source's `searchCriteria`. -/
structure searchCriteria where
  Header : MIMEHeader
  Body : List GoString
  Text : List GoString
  WithFlags : List Flag
  WithoutFlags : List Flag
  startDate : Time
  endDate : Time

/-- The criteria that `parseSearch` starts from: nothing is asked. -/
def searchCriteria.empty : searchCriteria :=
  ⟨[], [], [], [], [], 0, 0⟩

/-- The source's `MsgParts`, an `int` used as a bitmask. -/
abbrev MsgParts := Nat

def NONE : MsgParts := 0
def FLAGS : MsgParts := 1 <<< 0
def HEADER : MsgParts := 1 <<< 1
def DATE : MsgParts := 1 <<< 2
def BODY : MsgParts := 1 <<< 3
def ALL : MsgParts := 1 <<< 4

/-- The source's `getRequiredParts`: the bitmask of the parts of a message that
have to be loaded for `criteria`. -/
def getRequiredParts (criteria : searchCriteria) : MsgParts :=
  let required := NONE
  let required := if criteria.Header.length > 0 then required ||| HEADER else required
  let required :=
    if !criteria.startDate.IsZero || !criteria.endDate.IsZero then required ||| DATE
    else required
  let required := if criteria.Body.length > 0 then required ||| BODY else required
  let required := if criteria.Text.length > 0 then required ||| ALL else required
  let required := if criteria.WithFlags.length > 0 then required ||| FLAGS else required
  let required := if criteria.WithoutFlags.length > 0 then required ||| FLAGS else required
  required

/-- The bitmask as a function of the five facts it depends on. -/
def partsOfShape (header date body text flags : Bool) : MsgParts :=
  (if header then HEADER else 0) ||| (if date then DATE else 0) |||
    (if body then BODY else 0) ||| (if text then ALL else 0) |||
    (if flags then FLAGS else 0)

/-- One criterion is added to `c`, giving `c'`: a header term, a body term, a
text term, a required or a forbidden flag, or a start or end date where there
was none. -/
inductive AddsCriterion : searchCriteria → searchCriteria → Prop
  | header (c : searchCriteria) (key value : GoString) :
      AddsCriterion c { c with Header := c.Header.Add key value }
  | body (c : searchCriteria) (pre post : List GoString) (term : GoString) :
      c.Body = pre ++ post → AddsCriterion c { c with Body := pre ++ term :: post }
  | text (c : searchCriteria) (pre post : List GoString) (term : GoString) :
      c.Text = pre ++ post → AddsCriterion c { c with Text := pre ++ term :: post }
  | withFlag (c : searchCriteria) (f : Flag) :
      AddsCriterion c { c with WithFlags := c.WithFlags ++ [f] }
  | withoutFlag (c : searchCriteria) (f : Flag) :
      AddsCriterion c { c with WithoutFlags := c.WithoutFlags ++ [f] }
  | startDate (c : searchCriteria) (d : Time) :
      c.startDate = 0 → d ≠ 0 → AddsCriterion c { c with startDate := d }
  | endDate (c : searchCriteria) (d : Time) :
      c.endDate = 0 → d ≠ 0 → AddsCriterion c { c with endDate := d }

/-! ## The message parts a search reads -/

/-- A message UID (`uint32` in the source; only compared, never computed on). -/
abbrev UID := Nat

/-- The result of a Go call that may fail or panic: a value, a returned
error, or a run-time panic (a nil-pointer dereference). -/
inductive Result (α : Type) where
  | ok (v : α)
  | err (e : Err)
  | panic
  deriving DecidableEq

/-- The type `models.BodyStructure`: a MIME type and the sub-parts. -/
inductive BodyStructure where
  | mk (MIMEType : GoString) (Parts : List BodyStructure)

/-- The methods of `mail.Header` that `searchKey` calls. -/
structure MailHeader where
  /-- The first value of the header field `key`, empty when absent. -/
  Get : GoString → GoString
  /-- The parsed `Date` field, or the parse error. -/
  Date : Except Err Time

/-- The fields of `models.MessageInfo` that `searchKey` uses. -/
structure MessageInfo where
  RFC822Headers : MailHeader
  BodyStructure : BodyStructure

/-- An opened reader, given by what `io.ReadAll` returns on it. -/
abbrev Reader := Except Err GoString

/-- The maildir message handle, given by the outcome of each of its reads. -/
structure Message where
  Flags : Except Err (List Flag)
  MessageInfo : Except Err MessageInfo
  NewBodyPartReader : List Nat → Except Err Reader
  NewReader : Except Err Reader

/-- The backend of the selected directory: the UID listing and the message
lookup of the maildir container. -/
structure Worker where
  UIDs : Except Err (List UID)
  Message : UID → Except Err Message

/-- The library functions the search depends on. -/
structure Lib where
  unicode : Unicode
  /-- The function `lib.FindFirstNonMultipart`. -/
  FindFirstNonMultipart : BodyStructure → List Nat → List Nat

/-- A backend read performed on one message. -/
inductive ReadOp where
  | Flags
  | MessageInfo
  | NewBodyPartReader (path : List Nat)
  | NewReader
  deriving DecidableEq

/-- A computation that records the backend reads it performs. -/
abbrev Traced (α : Type) := List ReadOp × Except Err α

/-- Sequencing of traced reads: the second does not run when the first fails. -/
def Traced.andThen {α β : Type} (a : Traced α) (f : α → Traced β) : Traced β :=
  match a.2 with
  | .error e => (a.1, .error e)
  | .ok v => (a.1 ++ (f v).1, (f v).2)

/-- Lines 159-164 of `searchKey`: the flags are read when `FLAGS` is asked. -/
def loadFlags (message : Message) (parts : MsgParts) : Traced (List Flag) :=
  if parts &&& FLAGS > 0 then ([ReadOp.Flags], message.Flags) else ([], .ok [])

/-- Lines 165-170 of `searchKey`: the header is read when `HEADER` or `DATE`
is asked; it stays `nil` otherwise. -/
def loadHeader (message : Message) (parts : MsgParts) : Traced (Option MessageInfo) :=
  if parts &&& HEADER > 0 || parts &&& DATE > 0 then
    ([ReadOp.MessageInfo], message.MessageInfo.map some)
  else ([], .ok none)

/-- Lines 171-187 of `searchKey`: when `BODY` is asked the message info is read
for its body structure, then the first non-multipart part is opened and read. -/
def loadBody (L : Lib) (message : Message) (parts : MsgParts) : Traced GoString :=
  if parts &&& BODY > 0 then
    match message.MessageInfo with
    | .error e => ([ReadOp.MessageInfo], .error e)
    | .ok mi =>
      let path := L.FindFirstNonMultipart mi.BodyStructure []
      match message.NewBodyPartReader path with
      | .error e => ([ReadOp.MessageInfo, ReadOp.NewBodyPartReader path], .error e)
      | .ok reader => ([ReadOp.MessageInfo, ReadOp.NewBodyPartReader path], reader)
  else ([], .ok [])

/-- Lines 188-199 of `searchKey`: the raw message is read when `ALL` is asked. -/
def loadAll (message : Message) (parts : MsgParts) : Traced GoString :=
  if parts &&& ALL > 0 then
    match message.NewReader with
    | .error e => ([ReadOp.NewReader], .error e)
    | .ok reader => ([ReadOp.NewReader], reader)
  else ([], .ok [])

/-- The local variables of `searchKey` once the parts are loaded. -/
structure Loaded where
  flags : List Flag
  header : Option MessageInfo
  body : GoString
  all : GoString

/-- Lines 150-199 of `searchKey`: the four loads in source order. -/
def loadParts (L : Lib) (message : Message) (parts : MsgParts) : Traced Loaded :=
  (loadFlags message parts).andThen fun flags =>
  (loadHeader message parts).andThen fun header =>
  (loadBody L message parts).andThen fun body =>
  (loadAll message parts).andThen fun all =>
  ([], .ok ⟨flags, header, body, all⟩)

/-- The source's `containsFlag`: `searchFlag` appears in `flags`. -/
def containsFlag (flags : List Flag) (searchFlag : Flag) : Bool :=
  flags.foldl (fun acc flag => if searchFlag = flag then true else acc) false

/-- Lines 203-212 of `searchKey`: every term of every header field of the
criteria matches the value of that field; a `nil` header panics on the first
field. -/
def matchHeader (U : Unicode) (header : Option MessageInfo) : MIMEHeader → Result Bool
  | [] => .ok true
  | (k, v) :: rest =>
    match header with
    | none => .panic
    | some h =>
      if v.all (fun text => containsSmartCase U (h.RFC822Headers.Get k) text) then
        matchHeader U header rest
      else .ok false

/-- Lines 241-256 of `searchKey`: the date range, checked when `DATE` is asked
and the `Date` field parses. -/
def matchDate (header : Option MessageInfo) (criteria : searchCriteria)
    (parts : MsgParts) : Result Bool :=
  if parts &&& DATE > 0 then
    match header with
    | none => .panic
    | some h =>
      match h.RFC822Headers.Date with
      | .error _ => .ok true
      | .ok date =>
        if !criteria.startDate.IsZero && date.Before criteria.startDate then .ok false
        else if !criteria.endDate.IsZero && date.After criteria.endDate then .ok false
        else .ok true
  else .ok true

/-- Lines 201-257 of `searchKey`: the conjunction of the constraints, in source
order, failing fast. -/
def matchCriteria (U : Unicode) (l : Loaded) (criteria : searchCriteria)
    (parts : MsgParts) : Result Bool :=
  match matchHeader U l.header criteria.Header with
  | .panic => .panic
  | .err e => .err e
  | .ok false => .ok false
  | .ok true =>
    if !criteria.Body.all (fun searchTerm => containsSmartCase U l.body searchTerm) then
      .ok false
    else if !criteria.Text.all (fun searchTerm => containsSmartCase U l.all searchTerm) then
      .ok false
    else if !criteria.WithFlags.all (fun searchFlag => containsFlag l.flags searchFlag) then
      .ok false
    else if criteria.WithoutFlags.any (fun searchFlag => containsFlag l.flags searchFlag) then
      .ok false
    else matchDate l.header criteria parts

/-- The source's `Worker.searchKey`, together with the backend reads it
performed on the message. -/
def searchKey (L : Lib) (w : Worker) (key : UID) (criteria : searchCriteria)
    (parts : MsgParts) : List ReadOp × Result Bool :=
  match w.Message key with
  | .error e => ([], .err e)
  | .ok message =>
    match loadParts L message parts with
    | (trace, .error e) => (trace, .err e)
    | (trace, .ok l) => (trace, matchCriteria L.unicode l criteria parts)

/-! ## The bounded worker pool of `Worker.search` -/

/-- The state of the loop of `Worker.search`: the keys the `for` loop has not
reached, the goroutines that hold a slot of `limit` and have not finished their
`searchKey` and append, those that have and have not yet given the slot back,
the shared result, and whether a goroutine panicked. -/
structure PoolState where
  pending : List UID
  evaluating : List UID
  releasing : List UID
  matchedUids : List UID
  crashed : Bool
  deriving DecidableEq

/-- The atomic steps of the pool. -/
inductive PoolEvent where
  /-- The main loop puts a token in `limit` and starts a goroutine. -/
  | spawn
  /-- The `i`-th evaluating goroutine runs `searchKey` and appends under `mu`. -/
  | evaluate (i : Nat)
  /-- The `i`-th releasing goroutine takes its token back out of `limit`. -/
  | release (i : Nat)
  deriving DecidableEq

/-- The steps that can fire in `st` when `limit` has capacity `max`. -/
def poolEnabled (max : Nat) (st : PoolState) : List PoolEvent :=
  if st.crashed then []
  else
    (if st.pending ≠ [] ∧ st.evaluating.length + st.releasing.length < max
      then [PoolEvent.spawn] else [])
    ++ (List.range st.evaluating.length).map PoolEvent.evaluate
    ++ (List.range st.releasing.length).map PoolEvent.release

/-- The effect of one step. -/
def poolApply (outcome : UID → Result Bool) (st : PoolState) : PoolEvent → PoolState
  | .spawn =>
    match st.pending with
    | [] => st
    | key :: rest => { st with pending := rest, evaluating := st.evaluating ++ [key] }
  | .evaluate i =>
    match st.evaluating.get? i with
    | none => st
    | some key =>
      match outcome key with
      | .panic => { st with crashed := true }
      | .err _ =>
        { st with evaluating := st.evaluating.eraseIdx i, releasing := st.releasing ++ [key] }
      | .ok success =>
        { st with
          evaluating := st.evaluating.eraseIdx i
          releasing := st.releasing ++ [key]
          matchedUids := if success then st.matchedUids ++ [key] else st.matchedUids }
  | .release i => { st with releasing := st.releasing.eraseIdx i }

/-- The pool run under a schedule: at each step the next number of the schedule
picks one of the enabled steps; the run stops when none is enabled. -/
def poolRun (max : Nat) (outcome : UID → Result Bool) :
    Nat → List Nat → PoolState → PoolState
  | 0, _, st => st
  | fuel + 1, sched, st =>
    match poolEnabled max st with
    | [] => st
    | e :: es =>
      let ev := (e :: es).getD (sched.headD 0 % (es.length + 1)) e
      poolRun max outcome fuel sched.tail (poolApply outcome st ev)

/-- What `Worker.search` returns from a pool state: a panic, the matched UIDs
once `wg.Wait` is through, or nothing when goroutines are still outstanding. -/
def poolResult (st : PoolState) : Option (Result (List UID)) :=
  if st.crashed then some .panic
  else if st.pending = [] ∧ st.evaluating = [] ∧ st.releasing = [] then
    some (.ok st.matchedUids)
  else none

/-- Lines 113-138 of `Worker.search`: the scan of `keys` by the pool of
capacity `max` under the schedule `sched`. Three steps per key suffice. -/
def poolSearch (max : Nat) (outcome : UID → Result Bool) (sched : List Nat)
    (keys : List UID) : Option (Result (List UID)) :=
  poolResult (poolRun max outcome (3 * keys.length) sched ⟨keys, [], [], [], false⟩)

/-- A strictly sequential scan: the keys whose evaluation succeeds with a
match, in the order of the listing. -/
def sequentialScan (outcome : UID → Result Bool) (keys : List UID) : List UID :=
  keys.filter fun key => decide (outcome key = .ok true)

/-- The source's `Worker.search` on a machine with `numCPU` processors, under
the goroutine schedule `sched`. `none` means the call does not return. -/
def search (L : Lib) (w : Worker) (numCPU : Nat) (sched : List Nat)
    (criteria : searchCriteria) : Option (Result (List UID)) :=
  let requiredParts := getRequiredParts criteria
  match w.UIDs with
  | .error e => some (.err e)
  | .ok keys =>
    poolSearch (numCPU * 2) (fun key => (searchKey L w key criteria requiredParts).2)
      sched keys

/-- A per-key outcome without panic (match, no match, I/O failure) as a
`Result`. -/
def Result.ofExcept {α : Type} : Except Err α → Result α
  | .ok v => .ok v
  | .error e => .err e

/-- The number of pool steps still to come: three per pending key, two per
evaluating goroutine, one per releasing goroutine. -/
def poolMeasure (st : PoolState) : Nat :=
  3 * st.pending.length + 2 * st.evaluating.length + st.releasing.length

/-- The invariant of the pool over `keys`: no goroutine has panicked, and the
matches collected so far, with the matches among the keys still evaluating or
pending, are the matches of `keys`, each as often. -/
def PoolInv (outcome : UID → Result Bool) (keys : List UID) (st : PoolState) : Prop :=
  st.crashed = false ∧
  (st.matchedUids ++ sequentialScan outcome (st.evaluating ++ st.pending)).Perm
    (sequentialScan outcome keys)

/-! ## The export loop of `ExportMbox.Execute` -/

/-- A streamed worker message, as the callback of the export sees it: a
`FullMessage` for `uid`, with whether `mboxer.Write` succeeds on it, or a
message of a type the callback ignores. -/
inductive StreamMessage where
  | FullMessage (uid : UID) (writeOk : Bool)
  | Other
  deriving DecidableEq

/-- The message that ends an action. `Unsupported` stands for every terminal
message that the callback of the export ignores. -/
inductive Terminal where
  | Done
  | Error (e : Err)
  | Unsupported
  deriving DecidableEq

/-- What the worker sends back for one `FetchFullMessages` action. -/
structure Response where
  streamed : List StreamMessage
  terminal : Terminal

/-- A backend behaviour: the response to the fetch issued while the retry
counter is `n` (the `n+1`-th fetch of the run), given the UIDs it carries. -/
abbrev Backend := Nat → List UID → Response

/-- What one export run does, in order. -/
inductive ExportEvent where
  | Sleep (nanoseconds : Int)
  | Fetch (uids : List UID)
  | Write (uid : UID) (ok : Bool)
  | PushErrorFetch (e : Err)
  | PushErrorTooManyRetries (retries : Nat)
  | PushStatus (exported total : Nat)
  deriving DecidableEq

/-- The variables of the goroutine of `Execute`, and the events so far. -/
structure ExportState where
  uids : List UID
  ctr : Nat
  retries : Nat
  log : List ExportEvent
  deriving DecidableEq

/-- Lines 104-109: the first occurrence of `target` is cut out of `uids`. -/
def removeUid : List UID → UID → List UID
  | [], _ => []
  | uid :: rest, target => if uid = target then rest else uid :: removeUid rest target

/-- The callback on a streamed message (lines 98-111): a `FullMessage` is
written to the file, its UID leaves the working set and `ctr` (a `uint32`)
counts it. -/
def onStreamMessage (st : ExportState) : StreamMessage → ExportState
  | .FullMessage uid writeOk =>
    { st with
      uids := removeUid st.uids uid
      ctr := (st.ctr + 1) % 2 ^ 32
      log := st.log ++ [ExportEvent.Write uid writeOk] }
  | .Other => st

/-- A 64-bit `int` product reinterpreted as a `time.Duration`. -/
def wrapInt64 (n : Int) : Int := (n + 2 ^ 63) % 2 ^ 64 - 2 ^ 63

/-- How a run of the export loop ends: the loop is left and the status line
follows, or the goroutine waits on `done` for ever. -/
inductive LoopEnd where
  | Finished
  | Blocked
  deriving DecidableEq

/-- Lines 82-84: before a retry the goroutine sleeps `retries * 1e9 * 2`
nanoseconds. -/
def sleepBeforeRetry (st : ExportState) : ExportState :=
  if st.retries > 0 then
    { st with
      log := st.log ++ [ExportEvent.Sleep (wrapInt64 (st.retries * 1000000000 * 2))] }
  else st

/-- Lines 87-113: one `FetchFullMessages` for the working set, and the callback
on every streamed message of the response; with the terminal message. -/
def fetchRound (B : Backend) (st : ExportState) : ExportState × Terminal :=
  let response := B st.retries st.uids
  (response.streamed.foldl onStreamMessage
      { st with log := st.log ++ [ExportEvent.Fetch st.uids] },
    response.terminal)

/-- Lines 74-118: the `for len(uids) > 0` loop. `none` is fuel exhaustion. -/
def exportLoop (B : Backend) : Nat → ExportState → Option (ExportState × LoopEnd)
  | 0, _ => none
  | fuel + 1, st =>
    if st.uids.length > 0 then
      if st.retries > 0 ∧ st.retries > 10 then
        some ({ st with log := st.log ++ [ExportEvent.PushErrorTooManyRetries st.retries] },
          LoopEnd.Finished)
      else
        match fetchRound B (sleepBeforeRetry st) with
        | (st, .Done) => some (st, LoopEnd.Finished)
        | (st, .Error e) =>
          exportLoop B fuel
            { st with
              log := st.log ++ [ExportEvent.PushErrorFetch e]
              retries := st.retries + 1 }
        | (st, .Unsupported) => some (st, LoopEnd.Blocked)
    else some (st, LoopEnd.Finished)

/-- The goroutine of `Execute` from line 65 on: the loop over a copy of the
UIDs of the store, then the status line with `ctr` and the number of UIDs the
store holds at that moment. Twelve rounds of the loop always suffice. -/
def exportRun (B : Backend) (storeUids : List UID) (storeLenAtEnd : Nat) :
    Option (ExportState × LoopEnd) :=
  match exportLoop B 12 ⟨storeUids, 0, 0, []⟩ with
  | none => none
  | some (st, LoopEnd.Blocked) => some (st, LoopEnd.Blocked)
  | some (st, LoopEnd.Finished) =>
    some ({ st with log := st.log ++ [ExportEvent.PushStatus st.ctr storeLenAtEnd] },
      LoopEnd.Finished)

/-- The UIDs of the fetches a log issued, oldest first. -/
def fetchesOf (log : List ExportEvent) : List (List UID) :=
  log.filterMap fun | .Fetch uids => some uids | _ => none

/-- The UIDs a log wrote to the sink, oldest first. -/
def writesOf (log : List ExportEvent) : List UID :=
  log.filterMap fun | .Write uid _ => some uid | _ => none

/-- The UIDs of the `FullMessage`s of a stream, in order. -/
def fullMessageUids (streamed : List StreamMessage) : List UID :=
  streamed.filterMap fun | .FullMessage uid _ => some uid | .Other => none

/-- The assumption on the backend: every fetch streams at most one
`FullMessage` per requested UID, and only requested UIDs. -/
def WellBehaved (B : Backend) : Prop :=
  ∀ n uids, (fullMessageUids (B n uids).streamed).Nodup ∧
    ∀ uid ∈ fullMessageUids (B n uids).streamed, uid ∈ uids

/-! ## What a search asks of a message -/

/-- The header, body, text and flag constraints of `c`, on the header, body, raw
text and flags of a message. -/
def ConstraintsHold (U : Unicode) (c : searchCriteria) (flags : List Flag)
    (mi : MessageInfo) (body all : GoString) : Prop :=
  (∀ kv ∈ c.Header, ∀ text ∈ kv.2,
    containsSmartCase U (mi.RFC822Headers.Get kv.1) text = true) ∧
  (∀ term ∈ c.Body, containsSmartCase U body term = true) ∧
  (∀ term ∈ c.Text, containsSmartCase U all term = true) ∧
  (∀ f ∈ c.WithFlags, f ∈ flags) ∧
  (∀ f ∈ c.WithoutFlags, f ∉ flags)

/-- The date `date` is not before a non-zero start date and not after a
non-zero end date of `c`. -/
def DateInRange (c : searchCriteria) (date : Time) : Prop :=
  (c.startDate ≠ 0 → ¬ date < c.startDate) ∧ (c.endDate ≠ 0 → ¬ date > c.endDate)

/-- The date constraint read strictly: when `c` bounds the date, the message
has a date and it lies in the range. -/
def DateConstraintStrict (c : searchCriteria) (mi : MessageInfo) : Prop :=
  (c.startDate ≠ 0 ∨ c.endDate ≠ 0) →
    ∃ date, mi.RFC822Headers.Date = .ok date ∧ DateInRange c date

/-- The date constraint as `searchKey` applies it: a date that parses lies in
the range, and a `Date` field that does not parse passes. -/
def DateConstraintLenient (c : searchCriteria) (mi : MessageInfo) : Prop :=
  ∀ date, mi.RFC822Headers.Date = .ok date → DateInRange c date

/-! ## Sample data -/

/-- A library instance for the examples: the ASCII tables, and a body
structure whose first non-multipart part is the path it is given. -/
def sampleLib : Lib := ⟨asciiUnicode, fun _ path => path⟩

/-- A message info with a subject; its `Date` field parses to `date`, or fails
to parse when `date` is `none`. -/
def sampleInfo (date : Option Time) : MessageInfo where
  RFC822Headers :=
    { Get := fun key => if key = "Subject".toList then "Hello World".toList else []
      Date := match date with
        | some d => .ok d
        | none => .error "parsing time: cannot parse" }
  BodyStructure := .mk "text/plain".toList []

/-- A message all of whose parts load, with the flags `flags`. -/
def sampleMessage (flags : List Flag) (date : Option Time) : Message where
  Flags := .ok flags
  MessageInfo := .ok (sampleInfo date)
  NewBodyPartReader := fun _ => .ok (.ok "body text".toList)
  NewReader := .ok (.ok "Subject: Hello World\n\nbody text".toList)

/-- A mailbox with the UIDs 1, 2, 3, where only UID 2 has the flag `Seen` and
UID 3 has a `Date` field that does not parse. -/
def sampleWorker : Worker where
  UIDs := .ok [1, 2, 3]
  Message := fun key =>
    if key = 2 then .ok (sampleMessage [FlagSeen] (some 10))
    else if key = 3 then .ok (sampleMessage [] none)
    else .ok (sampleMessage [] (some 10))

/-- The criteria "date not before instant 5". -/
def sinceFive : searchCriteria := { searchCriteria.empty with startDate := 5 }

/-- The criteria "seen, subject contains hello, date not before instant 5". -/
def seenHelloSinceFive : searchCriteria :=
  { searchCriteria.empty with
    Header := [("Subject".toList, ["hello".toList])]
    WithFlags := [FlagSeen]
    startDate := 5 }

/-- The criteria "body contains text". -/
def bodyHasText : searchCriteria := { searchCriteria.empty with Body := ["text".toList] }

/-- The criteria whose only criterion is the required flag `f`. -/
def withFlagOnly (f : Flag) : searchCriteria :=
  { searchCriteria.empty with WithFlags := [f] }

/-- Per-key outcomes for the examples: even keys match, key 3 fails with an I/O
error, the other keys do not match. -/
def sampleOutcome (key : UID) : Except Err Bool :=
  if key = 3 then .error "input/output error" else .ok (key % 2 == 0)

/-- A worker whose UID listing fails. -/
def unlistableWorker : Worker where
  UIDs := .error "no such directory"
  Message := fun _ => .error "no such directory"

/-- A backend that delivers nothing and ends every fetch with an error. -/
def failingBackend : Backend := fun _ _ => ⟨[], .Error "connection reset"⟩

/-- A backend that delivers the first requested message only and then ends the
fetch with an error, so that every retry makes progress by one message. -/
def oneAtATimeBackend : Backend := fun _ uids =>
  ⟨(uids.take 1).map fun uid => StreamMessage.FullMessage uid true,
    .Error "connection reset"⟩

/-- The invariant of the export on the writes: the working set has no
duplicate, no UID was written twice, and no written UID is in the working set. -/
def WriteInv (st : ExportState) : Prop :=
  st.uids.Nodup ∧ (writesOf st.log).Nodup ∧ ∀ uid ∈ writesOf st.log, uid ∉ st.uids

/-- The invariant of the export on the fetches: the UID lists of the fetches
issued so far only shrink, down to the current working set. -/
def FetchInv (st : ExportState) : Prop :=
  (∀ uids ∈ fetchesOf st.log, st.uids.Sublist uids) ∧
  (fetchesOf st.log).Pairwise fun earlier later => later.Sublist earlier

/-! ## Counting the export -/

/-- The number of messages a log wrote to the sink without error. -/
def successfulWritesOf (log : List ExportEvent) : Nat :=
  (log.filter fun | .Write _ ok => ok | _ => false).length

/-- The write events the callback logs for a stream, in order. -/
def writeEvents (streamed : List StreamMessage) : List ExportEvent :=
  streamed.filterMap fun | .FullMessage uid ok => some (.Write uid ok) | .Other => none

/-- A backend that delivers message 1, whose write to the file then fails, and
ends the fetch with `Done`. -/
def unwritableBackend : Backend := fun _ _ =>
  ⟨[StreamMessage.FullMessage 1 false], .Done⟩

/-- A backend that delivers nothing and ends every fetch with `Done`. -/
def emptyDoneBackend : Backend := fun _ _ => ⟨[], .Done⟩

/-! ## The pacing of the export -/

/-- The pacing of a log over the UIDs `S` of the start: every fetch carries the
UIDs that the writes before it left of `S`; the first fetch is the first event
of the log, and any later fetch comes right after the error of the fetch before
it and a sleep of two seconds per fetch already issued. -/
def Paced (S : List UID) (log : List ExportEvent) : Prop :=
  ∀ pre uids post, log = pre ++ ExportEvent.Fetch uids :: post →
    uids = (writesOf pre).foldl removeUid S ∧
    ((fetchesOf pre).length = 0 → pre = []) ∧
    (0 < (fetchesOf pre).length →
      ∃ pre' e, pre = pre' ++ [ExportEvent.PushErrorFetch e,
        ExportEvent.Sleep (2 * 10 ^ 9 * ((fetchesOf pre).length : Int))])

/-- What holds each time the export loop tests `len(uids) > 0`: the log so far
is paced, every fetch so far ended with `Error`, and there were as many
fetches as the retry counter says. -/
def LoopHead (B : Backend) (S : List UID) (st : ExportState) : Prop :=
  Paced S st.log ∧
  (∀ k uids, (fetchesOf st.log)[k]? = some uids → ∃ e, (B k uids).terminal = .Error e) ∧
  (fetchesOf st.log).length = st.retries ∧
  st.uids = (writesOf st.log).foldl removeUid S ∧
  (st.retries = 0 → st.log = []) ∧
  (0 < st.retries → ∃ pre' e, st.log = pre' ++ [ExportEvent.PushErrorFetch e])

/-- What holds when the export loop is left: the log is paced, the working set
is what the writes left of `S`, and a fetch that ended with `Done` is the last
fetch, leaves the retry counter at its own number and ends the loop. -/
def RunSpec (B : Backend) (S : List UID) (r : ExportState × LoopEnd) : Prop :=
  Paced S r.1.log ∧
  r.1.uids = (writesOf r.1.log).foldl removeUid S ∧
  ∀ k uids, (fetchesOf r.1.log)[k]? = some uids → (B k uids).terminal = .Done →
    (fetchesOf r.1.log).length = k + 1 ∧ r.1.retries = k ∧ r.2 = .Finished

/-! ## The slice shared by the working set and the action in flight -/

/-- The backing array that `uids` and the `Uids` field of a submitted
`FetchFullMessages` share (line 89 copies the slice header only), with the
current length of `uids`. -/
structure SharedUids where
  array : List UID
  len : Nat
  deriving DecidableEq

/-- The working set: the slice `uids`. -/
def SharedUids.uids (s : SharedUids) : List UID := s.array.take s.len

/-- The `Uids` of an action submitted when `uids` had `n` elements, as the
worker reads them now. -/
def SharedUids.actionUids (s : SharedUids) (n : Nat) : List UID := s.array.take n

/-- The slice expression `append(uids[:i], uids[i+1:]...)` of line 106: the
elements after `i` move one place down inside the backing array, whose last
used place keeps its old value, and `uids` gets one element shorter. -/
def SharedUids.spliceOut (s : SharedUids) (i : Nat) : SharedUids where
  array := s.array.take i ++ (s.array.take s.len).drop (i + 1) ++ s.array.drop (s.len - 1)
  len := s.len - 1

/-- Lines 104-109 on the shared array: the first occurrence of `target` in
`uids` is spliced out. -/
def SharedUids.remove (s : SharedUids) (target : UID) : SharedUids :=
  match s.uids.indexOf? target with
  | some i => s.spliceOut i
  | none => s

/-! ## The message store and the delete command -/

/-- A `*models.MessageInfo` held by the store: the place of the list it lives
in (two pointers are equal when the places are) and the UID it carries. -/
structure MessageRef where
  slot : Nat
  Uid : UID
  deriving DecidableEq

/-- Modelled from the spec: the message store is an ordered message list with a
cursor (the selection, which may be empty) and a pending-deletion set. -/
structure MessageStore where
  uids : List UID
  cursor : Option Nat
  Deleted : List UID
  deriving DecidableEq

/-- Modelled from the spec: `store.Selected()` is the message under the cursor,
`nil` when the selection is empty. -/
def MessageStore.Selected (store : MessageStore) : Option MessageRef :=
  match store.cursor with
  | none => none
  | some i => (store.uids.get? i).map fun uid => ⟨i, uid⟩

/-- Modelled from the spec: `store.Next()` moves the cursor one message forward
and stops at the last message. -/
def MessageStore.Next (store : MessageStore) : MessageStore :=
  match store.cursor with
  | none => store
  | some i => if i + 1 < store.uids.length then { store with cursor := some (i + 1) } else store

/-- Modelled from the spec: `store.Prev()` moves the cursor one message
backward and stops at the first message. -/
def MessageStore.Prev (store : MessageStore) : MessageStore :=
  match store.cursor with
  | none => store
  | some i => { store with cursor := some (i - 1) }

/-- Modelled from the spec: `store.Select(uid)` puts the cursor on the message
with that UID; the selection is empty when the store has no such message. -/
def MessageStore.Select (store : MessageStore) (uid : UID) : MessageStore :=
  { store with cursor := store.uids.indexOf? uid }

/-- The source's `contains`. -/
def contains : List UID → UID → Bool
  | [], _ => false
  | item :: rest, uid => if item = uid then true else contains rest uid

/-- Lines 105-120 of `findNextNonDeleted`: the loop of one stepper. The result
is the message the function returns from inside the loop, or `none` when the
loop is left by `break`; the outer `none` is fuel exhaustion. -/
def scanLoop (deleted : List UID) (stepFn : MessageStore → MessageStore) :
    Nat → Option MessageRef → MessageStore → Option (Option MessageRef × MessageStore)
  | 0, _, _ => none
  | fuel + 1, previous, store =>
    match store.Selected with
    | none => some (none, store)
    | some next =>
      if !contains deleted next.Uid && !contains store.Deleted next.Uid then
        some (some next, store)
      else if previous = some next then some (none, store)
      else scanLoop deleted stepFn fuel (some next) (stepFn store)

/-- The source's `findNextNonDeleted`, with the store it leaves. After the two
loops `next` is `nil`, so the `store.Select` of line 124 never runs. One round
per message and one more suffice for each loop. -/
def findNextNonDeleted (deleted : List UID) (store : MessageStore) :
    Option (Option MessageRef × MessageStore) :=
  match scanLoop deleted MessageStore.Next (store.uids.length + 1) none store with
  | none => none
  | some (some next, store) => some (some next, store)
  | some (none, store) =>
    match scanLoop deleted MessageStore.Prev (store.uids.length + 1) none store with
    | none => none
    | some (some next, store) => some (some next, store)
    | some (none, store) => some (none, store)

/-- The message in place `j` of the store can be shown next: it is neither in
`deleted` nor pending deletion. -/
def eligible (deleted : List UID) (store : MessageStore) (j : Nat) : Bool :=
  match store.uids.get? j with
  | none => false
  | some uid => !contains deleted uid && !contains store.Deleted uid

/-- The first place among `c, c+1, .., c+n-1` that satisfies `ok`. -/
def firstFrom (ok : Nat → Bool) (c : Nat) : Nat → Option Nat
  | 0 => none
  | n + 1 => if ok c then some c else firstFrom ok (c + 1) n

/-- The first place among `c, c-1, .., 0` that satisfies `ok`. -/
def lastDownFrom (ok : Nat → Bool) : Nat → Option Nat
  | 0 => if ok 0 then some 0 else none
  | c + 1 => if ok (c + 1) then some (c + 1) else lastDownFrom ok c

/-- What `findNextNonDeleted` owes for the cursor `c`: a returned message is
under the new cursor, is neither in `deleted` nor pending deletion, and is the
first such message from `c` on, or else the nearest one before `c`; `nil` is
returned only when no message of the store is like that. -/
def NextNonDeletedSpec (deleted : List UID) (store : MessageStore) (c : Nat)
    (res : Option MessageRef) (store' : MessageStore) : Prop :=
  store'.uids = store.uids ∧ store'.Deleted = store.Deleted ∧
  (∀ m, res = some m →
    store'.Selected = some m ∧ store.uids.get? m.slot = some m.Uid ∧
    m.Uid ∉ deleted ∧ m.Uid ∉ store.Deleted ∧
    ((c ≤ m.slot ∧
        ∀ j uid, c ≤ j → j < m.slot → store.uids.get? j = some uid →
          uid ∈ deleted ∨ uid ∈ store.Deleted) ∨
      (m.slot < c ∧
        (∀ j uid, c ≤ j → store.uids.get? j = some uid →
          uid ∈ deleted ∨ uid ∈ store.Deleted) ∧
        ∀ j uid, m.slot < j → j < c → store.uids.get? j = some uid →
          uid ∈ deleted ∨ uid ∈ store.Deleted))) ∧
  (res = none →
    ∀ j uid, store.uids.get? j = some uid → uid ∈ deleted ∨ uid ∈ store.Deleted)

/-- Modelled from the spec: the first half of `store.Delete(uids, cb)`, which
marks `uids` as pending deletion before the `Delete` action is issued. -/
def MessageStore.markDeleted (store : MessageStore) (uids : List UID) : MessageStore :=
  { store with Deleted := store.Deleted ++ uids }

/-- Modelled from the spec: the second half of `store.Delete(uids, cb)`, run on
the terminal message before `cb`: on `Done` the UIDs are removed for good and
the selection stays on its message as long as the store still has it; on `Error`
and `Unsupported` the UIDs are un-marked. -/
def MessageStore.onDeleteTerminal (store : MessageStore) (uids : List UID) :
    Terminal → MessageStore
  | .Done =>
    let kept := store.uids.filter fun uid => !contains uids uid
    { uids := kept
      cursor := store.Selected.bind fun m => kept.indexOf? m.Uid
      Deleted := store.Deleted.filter fun uid => !contains uids uid }
  | _ => { store with Deleted := store.Deleted.filter fun uid => !contains uids uid }

/-- What the delete command does to the marker and to the user interface. -/
inductive DeleteEffect where
  | ClearVisualMark
  | Remark
  | PushStatus (text : String)
  | PushError (text : String)
  | RemoveTab
  | SelectMessage (index : Int)
  | Invalidate
  | NewMessageStoreView (next : MessageRef)
  deriving DecidableEq

/-- What `Delete.Execute` is called with: the number of arguments, what the
helper `h` finds (the store, the marked or selected UIDs, the account), whether
the command runs in a message viewer, and `config.Ui.NextMessageOnDelete`. -/
structure DeleteEnv where
  argc : Nat
  store : Except Err MessageStore
  uids : Except Err (List UID)
  account : Except Err Unit
  isMsgView : Bool
  NextMessageOnDelete : Bool

/-- How a run of the delete command ends: `Execute` returns an error, or the
callback runs to its end on the terminal message, or it panics. -/
inductive DeleteOutcome where
  | failed (e : Err)
  | completed (store : MessageStore) (effects : List DeleteEffect)
  | panicked (effects : List DeleteEffect)
  deriving DecidableEq

/-- Lines 52-96 of `Execute`: the callback of `store.Delete` on the terminal
message, with the variables `sel` and `next` it captured. In the `Error` and
`Unsupported` cases `marker.Remark()` runs first and `sel.Uid` is evaluated
next, which panics on a `nil` `sel`. -/
def deleteCallback (env : DeleteEnv) (store : MessageStore) (sel next : Option MessageRef)
    (effects : List DeleteEffect) : Terminal → DeleteOutcome
  | .Done =>
    let effects := effects ++ [DeleteEffect.PushStatus "Messages deleted."]
    if env.isMsgView then
      if !env.NextMessageOnDelete then .completed store (effects ++ [DeleteEffect.RemoveTab])
      else
        match next with
        | none =>
          .completed store (effects ++
            [DeleteEffect.RemoveTab, DeleteEffect.SelectMessage (-1), DeleteEffect.Invalidate])
        | some n => .completed store (effects ++ [DeleteEffect.NewMessageStoreView n])
    else
      match next with
      | none => .completed store (effects ++ [DeleteEffect.SelectMessage (-1)])
      | some _ => .completed store effects
  | .Error e =>
    match sel with
    | none => .panicked (effects ++ [DeleteEffect.Remark])
    | some s =>
      .completed (store.Select s.Uid)
        (effects ++ [DeleteEffect.Remark, DeleteEffect.PushError e])
  | .Unsupported =>
    match sel with
    | none => .panicked (effects ++ [DeleteEffect.Remark])
    | some s =>
      .completed (store.Select s.Uid)
        (effects ++ [DeleteEffect.Remark,
          DeleteEffect.PushError " error, unsupported for this worker"])

/-- The source's `Delete.Execute`, followed by the callback on the terminal
message `msg` of the `Delete` action. `none` is fuel exhaustion in
`findNextNonDeleted`. -/
def deleteExecute (env : DeleteEnv) (msg : Terminal) : Option DeleteOutcome :=
  if env.argc ≠ 1 then some (.failed "Usage: :delete")
  else
    match env.store with
    | .error e => some (.failed e)
    | .ok store =>
      match env.uids with
      | .error e => some (.failed e)
      | .ok uids =>
        match env.account with
        | .error e => some (.failed e)
        | .ok _ =>
          let sel := store.Selected
          match findNextNonDeleted uids store with
          | none => none
          | some (next, store) =>
            some (deleteCallback env ((store.markDeleted uids).onDeleteTerminal uids msg)
              sel next [DeleteEffect.ClearVisualMark] msg)

/-- A delete of the marked message 2 in the store `[1, 2, 3]` while no message
is selected. -/
def markedWithoutSelection : DeleteEnv where
  argc := 1
  store := .ok ⟨[1, 2, 3], none, []⟩
  uids := .ok [2]
  account := .ok ()
  isMsgView := false
  NextMessageOnDelete := false

/-- A delete of the selected message 2 in the store `[1, 2, 3]`. -/
def deleteSelected : DeleteEnv where
  argc := 1
  store := .ok ⟨[1, 2, 3], some 1, []⟩
  uids := .ok [2]
  account := .ok ()
  isMsgView := false
  NextMessageOnDelete := false

/-! ## The directory list -/

/-- Go's `regexp` package, as `folderMatches` uses it: `Match expr folder` is
`none` when `regexp.Compile(expr)` fails and the result of `r.Match` on the
folder name otherwise. -/
structure Regexp where
  Match : GoString → GoString → Option Bool

/-- The source's `folderMatches`: an empty pattern matches nothing, a pattern
that starts with `~` is a regular expression, any other pattern matches the
folder of that name. -/
def folderMatches (R : Regexp) (folder pattern : GoString) : Bool :=
  match pattern with
  | [] => false
  | c :: expr =>
    if c = '~' then
      match R.Match expr folder with
      | none => false
      | some matched => matched
    else decide (pattern = folder)

/-- Lines 455-463 of `FilterDirs`: the value of `include` for one folder, after
the loop over the filters with its `break`. -/
def filterInclude (R : Regexp) (folder : GoString) (exclude : Bool) : List GoString → Bool
  | [] => exclude
  | f :: rest => if folderMatches R folder f then !exclude else filterInclude R folder exclude rest

/-- The source's `FilterDirs`. -/
def FilterDirs (R : Regexp) (orig filters : List GoString) (exclude : Bool) : List GoString :=
  if filters.length = 0 then orig
  else
    orig.foldl
      (fun dest folder => if filterInclude R folder exclude filters then dest ++ [folder] else dest)
      []

/-- The source's `findString`: the first index of `str` in `slice`, from index
`i` on, or -1. -/
def findStringFrom (str : GoString) : List GoString → Nat → Int
  | [], _ => -1
  | s :: rest, i => if str = s then (i : Int) else findStringFrom str rest (i + 1)

/-- The source's `findString`. -/
def findString (slice : List GoString) (str : GoString) : Int :=
  findStringFrom str slice 0

/-- Go's `<` on strings: the lexicographic order of the runes. -/
def stringLess : GoString → GoString → Bool
  | [], [] => false
  | [], _ :: _ => true
  | _ :: _, [] => false
  | a :: s, b :: t =>
    if a.toNat < b.toNat then true
    else if b.toNat < a.toNat then false
    else stringLess s t

/-- Go's `sort.Slice` and `sort.Strings`, given by the sorted list: the source
sorts folder names with orders under which two names that compare equal are the
same name, so the sorted list does not depend on the sorting algorithm. -/
def sortSlice (less : GoString → GoString → Bool) (dirs : List GoString) : List GoString :=
  dirs.insertionSort fun a b => less b a = false

/-- Lines 413-427: the `less` function of `sortDirsByFoldersSortConfig`. -/
def foldersSortLess (foldersSort : List GoString) (a b : GoString) : Bool :=
  let iInFoldersSort := findString foldersSort a
  let jInFoldersSort := findString foldersSort b
  if iInFoldersSort ≥ 0 ∧ jInFoldersSort ≥ 0 then decide (iInFoldersSort < jInFoldersSort)
  else if iInFoldersSort ≥ 0 then true
  else if jInFoldersSort ≥ 0 then false
  else stringLess a b

/-- The fields of `config.AccountConfig` that the directory list reads. -/
structure AccountConfig where
  Folders : List GoString
  FoldersExclude : List GoString
  EnableFoldersSort : Bool
  FoldersSort : List GoString

/-- What the directory list is configured with: the regular expressions, the
account configuration, and `UiConfig(dir).DirListDelay` in nanoseconds. -/
structure DirlistEnv where
  regexp : Regexp
  acctConf : AccountConfig
  DirListDelay : GoString → Nat

/-- The source's `DirectoryList`, with the clock and what `Select` leaves
behind it: `store` is `dirlist.store.List()`, `waiting` is the goroutine of the
last `Select` while it is parked in its `select` statement (the directory it
will open and the instant its timer fires; earlier goroutines have returned
through `ctx.Done()`), and `posted` lists the `OpenDirectory` actions posted so
far. -/
structure DirectoryList where
  dirs : List GoString
  selecting : GoString
  selected : GoString
  store : List GoString
  waiting : Option (GoString × Nat)
  now : Nat
  posted : List GoString

/-- The delay of `Select(name)`: `UiConfig(name).DirListDelay`, where
`UiConfig` falls back on the selected directory for the empty name. -/
def DirectoryList.delayFor (E : DirlistEnv) (d : DirectoryList) (name : GoString) : Nat :=
  E.DirListDelay (if name = [] then d.selected else name)

/-- The source's `DirectoryList.Select` up to the start of the goroutine: the
name is recorded, the context of the previous call is cancelled, so that its
goroutine returns without posting, and a new goroutine waits for the delay. -/
def DirectoryList.Select (E : DirlistEnv) (d : DirectoryList) (name : GoString) :
    DirectoryList :=
  { d with selecting := name, waiting := some (name, d.now + d.delayFor E name) }

/-- The passing of `dt` nanoseconds: a waiting goroutine whose timer fires in
that time posts its `OpenDirectory` action (line 144). -/
def DirectoryList.elapse (d : DirectoryList) (dt : Nat) : DirectoryList :=
  match d.waiting with
  | some (name, deadline) =>
    if deadline ≤ d.now + dt then
      { d with now := d.now + dt, waiting := none, posted := d.posted ++ [name] }
    else { d with now := d.now + dt }
  | none => { d with now := d.now + dt }

/-- A series of `Select` calls, each followed by the time that passes before
the next call. -/
def DirectoryList.selects (E : DirlistEnv) : DirectoryList → List (GoString × Nat) →
    DirectoryList
  | d, [] => d
  | d, (name, gap) :: rest => DirectoryList.selects E ((d.Select E name).elapse gap) rest

/-- The source's `filterDirsByFoldersConfig`. -/
def DirectoryList.filterDirsByFoldersConfig (E : DirlistEnv) (d : DirectoryList) :
    DirectoryList :=
  let dirs := d.store
  let dirs := FilterDirs E.regexp dirs E.acctConf.Folders false
  let dirs := FilterDirs E.regexp dirs E.acctConf.FoldersExclude true
  { d with dirs := dirs }

/-- The source's `sortDirsByFoldersSortConfig`. -/
def DirectoryList.sortDirsByFoldersSortConfig (E : DirlistEnv) (d : DirectoryList) :
    DirectoryList :=
  if !E.acctConf.EnableFoldersSort then d
  else { d with dirs := sortSlice (foldersSortLess E.acctConf.FoldersSort) d.dirs }

/-- Lines 153-159 of `Select`: whether the selected directory is listed. -/
def hasSelected (dirs : List GoString) (selected : GoString) : Bool :=
  match dirs with
  | [] => false
  | d :: rest => if d = selected then true else hasSelected rest selected

/-- Lines 145-169 of `Select`: the callback of the `OpenDirectory` action on
its terminal message. -/
def DirectoryList.onOpenDirectory (E : DirlistEnv) (d : DirectoryList) :
    Terminal → DirectoryList
  | .Error _ => { d with selecting := [], selected := [] }
  | .Done =>
    let d := { d with selected := d.selecting }
    let d := d.filterDirsByFoldersConfig E
    let d :=
      if !hasSelected d.dirs d.selected && d.selected ≠ [] then
        { d with dirs := d.dirs ++ [d.selected] }
      else d
    let d :=
      if E.acctConf.EnableFoldersSort then { d with dirs := sortSlice stringLess d.dirs }
      else d
    d.sortDirsByFoldersSortConfig E
  | .Unsupported => d

/-- Regular expressions for the examples: an expression matches the folders
that it is a substring of. -/
def substringRegexp : Regexp := ⟨fun expr folder => some (stringsContains folder expr)⟩

/-- A configuration for the examples: no filter, no sorting, and a delay of 200
milliseconds for every directory. -/
def sampleDirlistEnv : DirlistEnv where
  regexp := substringRegexp
  acctConf := ⟨[], [], false, []⟩
  DirListDelay := fun _ => 200000000

/-- A directory list for the examples, at rest on `INBOX`. -/
def sampleDirlist : DirectoryList where
  dirs := ["INBOX".toList, "Drafts".toList, "Sent".toList]
  selecting := "INBOX".toList
  selected := "INBOX".toList
  store := ["INBOX".toList, "Drafts".toList, "Sent".toList]
  waiting := none
  now := 0
  posted := []

/-- The messages that the callback of `UpdateList` tells apart: a listed
directory, the terminal `Done`, and any other message, which it ignores. -/
inductive ListMessage where
  | Directory (name : GoString)
  | Done
  | Other
  deriving DecidableEq

/-- Lines 103-118 of `UpdateList`: the callback of the `ListDirectories`
action, on the directory list and the local slice `dirs` of the listed names.
The directory store `lib.DirStore` lies outside `dirlist.go`: `Update dirs`
stands for what `store.List()` returns after `store.Update(dirs)`. -/
def DirectoryList.onListDirectories (E : DirlistEnv) (Update : List GoString → List GoString)
    (st : DirectoryList × List GoString) : ListMessage → DirectoryList × List GoString
  | .Directory name => (st.1, st.2 ++ [name])
  | .Done =>
    let d := { st.1 with store := Update st.2 }
    let d := d.filterDirsByFoldersConfig E
    let d := d.sortDirsByFoldersSortConfig E
    let d := { d with store := Update d.dirs }
    (d, st.2)
  | .Other => st

/-- The source's `UpdateList`, with the messages that the worker answers to
its `ListDirectories` action. -/
def DirectoryList.UpdateList (E : DirlistEnv) (Update : List GoString → List GoString)
    (d : DirectoryList) (msgs : List ListMessage) : DirectoryList :=
  (msgs.foldl (DirectoryList.onListDirectories E Update) (d, [])).1

/-- A configuration for the examples: `folders = INBOX`, no exclusion, no
sorting. -/
def inboxOnlyEnv : DirlistEnv where
  regexp := substringRegexp
  acctConf := ⟨["INBOX".toList], [], false, []⟩
  DirListDelay := fun _ => 200000000

/-- A directory list for the examples: the store lists `INBOX` and `Archive`,
and `Select("Archive")` has posted its action. -/
def selectingArchive : DirectoryList where
  dirs := ["INBOX".toList]
  selecting := "Archive".toList
  selected := "INBOX".toList
  store := ["INBOX".toList, "Archive".toList]
  waiting := none
  now := 200000000
  posted := ["Archive".toList]

/-- A configuration for the examples: no filter, sorting enabled with
`folders-sort = INBOX, Sent`. -/
def sortedDirlistEnv : DirlistEnv where
  regexp := substringRegexp
  acctConf := ⟨[], [], true, ["INBOX".toList, "Sent".toList]⟩
  DirListDelay := fun _ => 200000000

/-! ## The split command (`commands/account/split.go`) -/

/-- What `Split.Execute` reads of the selected account: `SplitSize()` and the
height and width of `Messages()`. -/
structure SplitAccount where
  SplitSize : Int
  Height : Int
  Width : Int

/-- The call by which `Split.Execute` hands a size to the account. -/
inductive SplitCall where
  | SetSplitSize (n : Int)
  | Split (n : Int)
  | Vsplit (n : Int)
  deriving DecidableEq

/-- The size that a call hands to the account. -/
def SplitCall.size : SplitCall → Int
  | .SetSplitSize n => n
  | .Split n => n
  | .Vsplit n => n

/-- Lines 59-73 of `Split.Execute`: the toggle, the guard against a negative
size, and the call selected by the command name. -/
def splitFinish (acct : SplitAccount) (cmd : GoString) (n : Int) : Result (Option SplitCall) :=
  let n := if n = acct.SplitSize then 0 else n
  let n := if n < 0 then 1 else n
  if cmd = "split".toList then .ok (some (.Split n))
  else if cmd = "vsplit".toList then .ok (some (.Vsplit n))
  else .ok none

/-- The source's `Split.Execute`, by the call it makes on the account:
`strconv.Atoi` belongs to the standard library and is a parameter, `acct` is
`aerc.SelectedAccount()`, and `int` is 64 bits wide. The value is the call
made, if any; indexing `args[0]` of an empty argument list panics. -/
def splitExecute (Atoi : GoString → Option Int) (acct : Option SplitAccount)
    (args : List GoString) : Result (Option SplitCall) :=
  if args.length > 2 then .err "Usage: [v]split n"
  else
    match acct with
    | none => .err "No account selected"
    | some acct =>
      match args with
      | [] => .panic
      | cmd :: rest =>
        let n : Int :=
          if acct.SplitSize = 0 then
            if cmd = "split".toList then acct.Height.tdiv 4 else acct.Width.tdiv 2
          else 0
        match rest with
        | [] => splitFinish acct cmd n
        | arg :: _ =>
          let delta := "+".toList.isPrefixOf arg || "-".toList.isPrefixOf arg
          match Atoi arg with
          | none => .err "Usage: [v]split n"
          | some n =>
            if delta then .ok (some (.SetSplitSize (wrapInt64 (acct.SplitSize + n))))
            else splitFinish acct cmd n

/-- The decimal digits of Go's `strconv.Atoi`, most significant first. -/
def atoiDigits : List Char → Nat → Option Nat
  | [], acc => some acc
  | c :: cs, acc =>
    if 48 ≤ c.toNat ∧ c.toNat ≤ 57 then atoiDigits cs (acc * 10 + (c.toNat - 48)) else none

/-- Go's `strconv.Atoi` for a 64-bit `int`: an optional sign and one or more
decimal digits whose value fits. -/
def strconvAtoi (s : GoString) : Option Int :=
  let signed : Bool × List Char :=
    match s with
    | '-' :: r => (true, r)
    | '+' :: r => (false, r)
    | _ => (false, s)
  if signed.2 = [] then none
  else
    match atoiDigits signed.2 0 with
    | none => none
    | some v =>
      if signed.1 then (if v ≤ 2 ^ 63 then some (-(v : Int)) else none)
      else (if v < 2 ^ 63 then some (v : Int) else none)

/-! ## Contextual UI configuration (`config/ui.go`) -/

/-- The source's `uiContextType`. -/
inductive uiContextType where
  | uiContextFolder
  | uiContextAccount
  | uiContextSubject
  deriving DecidableEq

/-- The source's `uiContextKey`. -/
structure uiContextKey where
  ctxType : uiContextType
  value : GoString
  deriving DecidableEq

/-- What `mergeContextual` takes from outside `ui.go`: the exported fields of a
`UIConfig` as one value, the type `StyleSet`, the result of
`mergo.Merge(&ui, src, mergo.WithOverride)` on the exported fields (mergo leaves
unexported fields alone), and the field `StyleSetName`. -/
structure UiLib where
  Fields : Type
  Style : Type
  Merge : Fields → Fields → Fields
  StyleSetName : Fields → GoString

/-- The source's `UiConfigContext`: `Regex` is `Regex.Match`, and `fields` and
`style` are the exported fields and the style of `UiConfig`, which is all that
`mergeContextual` reads of it. -/
structure UiConfigContext (T : UiLib) where
  ContextType : uiContextType
  Regex : GoString → Bool
  fields : T.Fields
  style : T.Style

/-- A pointer to a `UIConfig`. -/
abbrev UiAddr := Nat

/-- The source's `UIConfig`: the exported fields, and the private ones. A map
that is `nil` reads as the empty map: `contextualCounts` is given by its reads,
`contextualCache` is `none` when it is `nil`. -/
structure UIConfig (T : UiLib) where
  fields : T.Fields
  style : T.Style
  contextualUis : List (UiConfigContext T)
  contextualCounts : uiContextType → Int
  contextualCache : Option (uiContextKey → Option UiAddr)

/-- The `UIConfig` values that pointers refer to, and the next free address. -/
structure UiHeap (T : UiLib) where
  cell : UiAddr → Option (UIConfig T)
  next : UiAddr

/-- The allocation of `&ui`. -/
def UiHeap.alloc {T : UiLib} (H : UiHeap T) (ui : UIConfig T) : UiHeap T × UiAddr :=
  ({ cell := fun a => if a = H.next then some ui else H.cell a, next := H.next + 1 }, H.next)

/-- Line 534: `base.contextualCache[key] = c` on a map that is not `nil`. -/
def UiHeap.setCache {T : UiLib} (H : UiHeap T) (base : UiAddr) (key : uiContextKey)
    (c : UiAddr) : UiHeap T :=
  { H with
    cell := fun a =>
      if a = base then
        (H.cell base).map fun b =>
          { b with
            contextualCache :=
              b.contextualCache.map fun cache k => if k = key then some c else cache k }
      else H.cell a }

/-- Lines 477-483 of `mergeContextual`: the first contextual configuration of
the type whose expression matches. -/
def matchingContext {T : UiLib} (base : UIConfig T) (contextType : uiContextType)
    (s : GoString) : Option (UiConfigContext T) :=
  base.contextualUis.find? fun contextualUi =>
    decide (contextualUi.ContextType = contextType) && contextualUi.Regex s

/-- Lines 486-494 of `mergeContextual`: the copy of the base with the
contextual configuration merged into it, a new empty cache, and the style of
the contextual configuration when that names a style set. -/
def mergedConfig {T : UiLib} (base : UIConfig T) (contextualUi : UiConfigContext T) :
    UIConfig T :=
  { base with
    fields := T.Merge base.fields contextualUi.fields
    contextualCache := some fun _ => none
    style :=
      if T.StyleSetName contextualUi.fields ≠ [] then contextualUi.style else base.style }

/-- The source's `mergeContextual`: the base itself when nothing matches, a new
configuration otherwise. -/
def mergeContextual {T : UiLib} (H : UiHeap T) (base : UiAddr) (contextType : uiContextType)
    (s : GoString) : Result (UiHeap T × UiAddr) :=
  match H.cell base with
  | none => .panic
  | some b =>
    match matchingContext b contextType s with
    | none => .ok (H, base)
    | some contextualUi => .ok (H.alloc (mergedConfig b contextualUi))

/-- The source's `contextual`. Writing to a `nil` map panics. -/
def contextual {T : UiLib} (H : UiHeap T) (base : UiAddr) (ctxType : uiContextType)
    (value : GoString) (useCache : Bool) : Result (UiHeap T × UiAddr) :=
  match H.cell base with
  | none => .panic
  | some b =>
    if b.contextualCounts ctxType = 0 then .ok (H, base)
    else if !useCache then mergeContextual H base ctxType value
    else
      let key : uiContextKey := ⟨ctxType, value⟩
      match b.contextualCache.bind fun cache => cache key with
      | some c => .ok (H, c)
      | none =>
        match mergeContextual H base ctxType value with
        | .ok (H1, c) =>
          match b.contextualCache with
          | none => .panic
          | some _ => .ok (H1.setCache base key c, c)
        | .err e => .err e
        | .panic => .panic

/-- The source's `ForAccount`. -/
def ForAccount {T : UiLib} (H : UiHeap T) (base : UiAddr) (account : GoString) :
    Result (UiHeap T × UiAddr) :=
  contextual H base .uiContextAccount account true

/-- The source's `ForFolder`. -/
def ForFolder {T : UiLib} (H : UiHeap T) (base : UiAddr) (folder : GoString) :
    Result (UiHeap T × UiAddr) :=
  contextual H base .uiContextFolder folder true

/-- The source's `ForSubject`. -/
def ForSubject {T : UiLib} (H : UiHeap T) (base : UiAddr) (subject : GoString) :
    Result (UiHeap T × UiAddr) :=
  contextual H base .uiContextSubject subject false

/-- Two configurations agree on everything but the cache. -/
def sameSettings {T : UiLib} (x y : UIConfig T) : Prop :=
  x.fields = y.fields ∧ x.style = y.style ∧ x.contextualUis = y.contextualUis ∧
    x.contextualCounts = y.contextualCounts

/-- The uncached resolution as a value, following the words of the claim: the
base itself (`none`) when no contextual configuration of the type is
registered, and what `mergeContextual` gives otherwise, which is again the base
itself when none of them matches. -/
def contextualSpec {T : UiLib} (base : UIConfig T) (ctxType : uiContextType)
    (value : GoString) : Option (UIConfig T) :=
  if base.contextualUis.all fun contextualUi => decide (contextualUi.ContextType ≠ ctxType) then
    none
  else (matchingContext base ctxType value).map (mergedConfig base)

/-- The pointer `r` is a resolution of the base `b` at address `a`: the base
itself, or a configuration with the settings of the merged one. -/
def Resolves {T : UiLib} (H : UiHeap T) (a : UiAddr) (b : UIConfig T)
    (ctxType : uiContextType) (value : GoString) (r : UiAddr) : Prop :=
  match contextualSpec b ctxType value with
  | none => r = a
  | some merged => ∃ cfg, H.cell r = some cfg ∧ sameSettings cfg merged

/-- No cached entry is stale: every entry of every cache resolves its key. -/
def CacheCoherent {T : UiLib} (H : UiHeap T) : Prop :=
  ∀ a b cache key c, H.cell a = some b → b.contextualCache = some cache →
    cache key = some c → Resolves H a b key.ctxType key.value c

/-- The addresses from `next` on are free. -/
def UiHeap.Fresh {T : UiLib} (H : UiHeap T) : Prop :=
  ∀ a, H.next ≤ a → H.cell a = none

/-- Every configuration of `H'` that `H` has too keeps its settings. -/
def UiHeap.Extends {T : UiLib} (H H' : UiHeap T) : Prop :=
  ∀ r cfg, H.cell r = some cfg → ∃ cfg', H'.cell r = some cfg' ∧ sameSettings cfg' cfg

/-- Lines 233-234 of `parseUi` keep the counts in step with the registered
contextual configurations, and the configurations that count one are made by
`defaultUiConfig` or by `mergeContextual`, which give them a cache. -/
def UIConfig.WellFormed {T : UiLib} (b : UIConfig T) : Prop :=
  (∀ t, b.contextualCounts t =
    ((b.contextualUis.filter fun contextualUi => decide (contextualUi.ContextType = t)).length
      : Int)) ∧
  (∀ t, b.contextualCounts t ≠ 0 → b.contextualCache ≠ none)

/-- The state of the configurations between two calls: free addresses are
free, no cached entry is stale, and every configuration is well formed. -/
def UiHeap.Inv {T : UiLib} (H : UiHeap T) : Prop :=
  H.Fresh ∧ CacheCoherent H ∧ ∀ a b, H.cell a = some b → b.WellFormed

/-- Parameters for the examples: the exported fields are one string, and a
merge replaces it when the other one is not empty. -/
def sampleUiLib : UiLib where
  Fields := GoString
  Style := GoString
  Merge := fun dst src => if src = [] then dst else src
  StyleSetName := fun _ => []

/-- A configuration for the examples, with one contextual section,
`[ui:folder=Sent]`, and an empty cache. -/
def sampleUiConfig : UIConfig sampleUiLib where
  fields := "base".toList
  style := "default".toList
  contextualUis :=
    [{ ContextType := .uiContextFolder
       Regex := fun s => stringsContains s "Sent".toList
       fields := "sent".toList
       style := "default".toList }]
  contextualCounts := fun t => if t = .uiContextFolder then 1 else 0
  contextualCache := some fun _ => none

/-- A heap for the examples: `sampleUiConfig` at address 0 and nothing else. -/
def sampleUiHeap : UiHeap sampleUiLib where
  cell := fun a => if a = 0 then some sampleUiConfig else none
  next := 1

/-! ## Contextual sections of `parseUi` (`config/ui.go`)

Go indexes and slices a string by bytes: in this part a section name is the
list of its bytes. -/

/-- Go's `strings.Index`, counted from `i`: the position of the first
occurrence of `substr`, or -1. -/
def stringsIndexFrom (substr : GoString) : GoString → Nat → Int
  | [], i => if substr.isPrefixOf [] then (i : Int) else -1
  | c :: s, i => if substr.isPrefixOf (c :: s) then (i : Int) else stringsIndexFrom substr s (i + 1)

/-- Go's `strings.Index`. -/
def stringsIndex (s substr : GoString) : Int := stringsIndexFrom substr s 0

/-- Go's slice expression `s[lo:hi]`, which panics unless
`0 <= lo <= hi <= len(s)`. -/
def goSlice (s : GoString) (lo hi : Int) : Result GoString :=
  if 0 ≤ lo ∧ lo ≤ hi ∧ hi ≤ (s.length : Int) then .ok ((s.take hi.toNat).drop lo.toNat)
  else .panic

/-- What the loop of `parseUi` takes from outside: the error, if any, of
`file.GetSection` and `uiSubConfig.parse` on the section of a name, the error,
if any, of `regexp.Compile`, and `regexp.QuoteMeta`. -/
structure UiSectionEnv where
  parse : GoString → Option Err
  Compile : GoString → Option Err
  QuoteMeta : GoString → GoString

/-- Lines 223-232 of `parseUi`: the context type named between the prefix and
the separator. -/
def sectionContextType (sectionName : GoString) (index : Int) : Result uiContextType :=
  match goSlice sectionName 3 index with
  | .panic => .panic
  | .err e => .err e
  | .ok name =>
    if name = "account".toList then .ok .uiContextAccount
    else if name = "folder".toList then .ok .uiContextFolder
    else if name = "subject".toList then .ok .uiContextSubject
    else .err "Unknown Contextual Ui Section"

/-- Lines 186-232 of `parseUi`, for one section name: `none` when the name is
passed over, and otherwise the context type with the expression that was
compiled. -/
def parseUiSection (E : UiSectionEnv) (sectionName : GoString) :
    Result (Option (uiContextType × GoString)) :=
  if !stringsContains sectionName "ui:".toList then .ok none
  else
    match E.parse sectionName with
    | some e => .err e
    | none =>
      if stringsContains sectionName "~".toList then
        let index := stringsIndex sectionName "~".toList
        let regex := sectionName.drop (index + 1).toNat
        match E.Compile regex with
        | some e => .err e
        | none =>
          match sectionContextType sectionName index with
          | .panic => .panic
          | .err e => .err e
          | .ok t => .ok (some (t, regex))
      else if stringsContains sectionName "=".toList then
        let index := stringsIndex sectionName "=".toList
        let value := sectionName.drop (index + 1).toNat
        match E.Compile (E.QuoteMeta value) with
        | some e => .err e
        | none =>
          match sectionContextType sectionName index with
          | .panic => .panic
          | .err e => .err e
          | .ok t => .ok (some (t, E.QuoteMeta value))
      else .err "Invalid Ui Context regex"

/-- An environment for the examples: every section parses, every expression
compiles, and nothing needs quoting. -/
def sampleUiSectionEnv : UiSectionEnv where
  parse := fun _ => none
  Compile := fun _ => none
  QuoteMeta := fun s => s

/-! ## The message-view time formats of `UIConfig.parse` (`config/ui.go`) -/

/-- The time formats of `UIConfig` (lines 25-32), the fields that lines 309-320
of `parse` read and write. -/
structure UITimeFormats where
  TimestampFormat : GoString
  ThisDayTimeFormat : GoString
  ThisWeekTimeFormat : GoString
  ThisYearTimeFormat : GoString
  MessageViewTimestampFormat : GoString
  MessageViewThisDayTimeFormat : GoString
  MessageViewThisWeekTimeFormat : GoString
  MessageViewThisYearTimeFormat : GoString
  deriving DecidableEq

/-- What `parse` takes from the `ini` section: `section.MapTo(config)` on the
time formats, the error, if any, of lines 276-307 (border characters and
delays), and the error, if any, of lines 322-340 (index columns); neither of
these two parts touches a time format. -/
structure IniSection where
  MapTo : UITimeFormats → Except Err UITimeFormats
  bordersAndDelays : Option Err
  indexColumns : Option Err

/-- Lines 309-320 of `parse`, the four `if` statements in source order. -/
def defaultMessageViewFormats (config : UITimeFormats) : UITimeFormats :=
  let config :=
    if config.MessageViewTimestampFormat = [] then
      { config with MessageViewTimestampFormat := config.TimestampFormat }
    else config
  let config :=
    if config.MessageViewThisDayTimeFormat = [] then
      { config with MessageViewThisDayTimeFormat := config.TimestampFormat }
    else config
  let config :=
    if config.MessageViewThisWeekTimeFormat = [] then
      { config with MessageViewThisWeekTimeFormat := config.TimestampFormat }
    else config
  let config :=
    if config.MessageViewThisDayTimeFormat = [] then
      { config with MessageViewThisDayTimeFormat := config.TimestampFormat }
    else config
  config

/-- The source's `UIConfig.parse`, on the time formats. -/
def UIConfigParse (config : UITimeFormats) (section_ : IniSection) : Except Err UITimeFormats :=
  match section_.MapTo config with
  | .error e => .error e
  | .ok config =>
    match section_.bordersAndDelays with
    | some e => .error e
    | none =>
      let config := defaultMessageViewFormats config
      match section_.indexColumns with
      | some e => .error e
      | none => .ok config

/-- The time formats of `defaultUiConfig` (lines 134-137). -/
def defaultTimeFormats : UITimeFormats where
  TimestampFormat := "2006-01-02 03:04 PM".toList
  ThisDayTimeFormat := []
  ThisWeekTimeFormat := []
  ThisYearTimeFormat := []
  MessageViewTimestampFormat := []
  MessageViewThisDayTimeFormat := []
  MessageViewThisWeekTimeFormat := []
  MessageViewThisYearTimeFormat := []

/-- A section that sets no time format and parses without error. -/
def emptyIniSection : IniSection where
  MapTo := fun config => .ok config
  bordersAndDelays := none
  indexColumns := none

/-! ## The terminal widget (`widgets/terminal.go`) -/

/-- The methods of the virtual terminal that `terminal.go` calls. -/
inductive VtermMethod where
  | Unwatch
  | Close
  | SetView
  | Watch
  | StartWithAttrs
  | Draw
  | GetCursor
  | HandleEvent
  deriving DecidableEq

/-- What a method of the terminal widget does outside its own fields: a
callback, a method of the virtual terminal, a cursor call on the context, or a
redraw request. -/
inductive TermEffect where
  | OnClose (err : Option Err)
  | OnEvent
  | OnStart
  | OnTitle
  | vterm (method : VtermMethod)
  | HideCursor
  | SetCursor
  | SetCursorStyle
  | Invalidate
  | QueueRedraw
  deriving DecidableEq

/-- The source's `Terminal` of `widgets/terminal.go` (the name `Terminal` is
taken by the terminal messages of a worker): a pointer or callback field holds
whether it is not `nil`, and `effects` lists what the methods have done so
far. -/
structure TerminalWidget where
  closed : Bool
  cmd : Bool
  ctx : Bool
  destroyed : Bool
  focus : Bool
  vterm : Bool
  running : Bool
  OnClose : Bool
  OnEvent : Bool
  OnStart : Bool
  OnTitle : Bool
  effects : List TermEffect
  deriving DecidableEq

/-- One more effect. -/
def TerminalWidget.emit (term : TerminalWidget) (e : TermEffect) : TerminalWidget :=
  { term with effects := term.effects ++ [e] }

/-- A method call on `term.vterm`, which panics (`none`) on a `nil` pointer. -/
def TerminalWidget.callVterm (term : TerminalWidget) (method : VtermMethod) :
    Option TerminalWidget :=
  if term.vterm then some (term.emit (.vterm method)) else none

/-- The source's `NewTerminal`. -/
def NewTerminal (cmd : Bool) : TerminalWidget :=
  { closed := false, cmd := cmd, ctx := false, destroyed := false, focus := false,
    vterm := true, running := false, OnClose := false, OnEvent := false, OnStart := false,
    OnTitle := false, effects := [] }

/-- The source's `Terminal.Close`. -/
def TerminalWidget.Close (term : TerminalWidget) (err : Option Err) : TerminalWidget :=
  if term.closed then term
  else
    let term :=
      if term.vterm then (term.emit (.vterm .Unwatch)).emit (.vterm .Close) else term
    let term := if !term.closed && term.OnClose then term.emit (.OnClose err) else term
    let term := if term.ctx then term.emit .HideCursor else term
    { term with closed := true }

/-- The source's `Terminal.Destroy`. -/
def TerminalWidget.Destroy (term : TerminalWidget) : TerminalWidget :=
  if term.destroyed then term
  else
    let term := if term.ctx then term.emit .HideCursor else term
    let term := { term with OnClose := false }
    let term := term.Close none
    let term := { term with vterm := false }
    { term with destroyed := true }

/-- The source's `Terminal.draw`; `vis` is the visibility that `GetCursor`
reports. -/
def TerminalWidget.draw (term : TerminalWidget) (vis : Bool) : Option TerminalWidget :=
  match term.callVterm .Draw with
  | none => none
  | some term =>
    if term.focus && !term.closed && term.ctx then
      match term.callVterm .GetCursor with
      | none => none
      | some term =>
        if vis then some ((term.emit .SetCursor).emit .SetCursorStyle)
        else some (term.emit .HideCursor)
    else some term

/-- The source's `Terminal.Draw`, with a context that is not `nil`; `startErr`
is the error, if any, of `StartWithAttrs`. -/
def TerminalWidget.Draw (term : TerminalWidget) (startErr : Option Err) (vis : Bool) :
    Option TerminalWidget :=
  if term.destroyed then some term
  else
    match { term with ctx := true }.callVterm .SetView with
    | none => none
    | some term =>
      if !term.running && !term.closed && term.cmd then
        match term.callVterm .Watch with
        | none => none
        | some term =>
          match term.callVterm .StartWithAttrs with
          | none => none
          | some term =>
            match startErr with
            | some err => some (term.Close (some err))
            | none =>
              let term := { term with running := true }
              let term := if term.OnStart then term.emit .OnStart else term
              term.draw vis
      else term.draw vis

/-- The source's `Terminal.MouseEvent`; `isMouse` tells whether the event is a
`*tcell.EventMouse`. -/
def TerminalWidget.MouseEvent (term : TerminalWidget) (isMouse : Bool) :
    Option TerminalWidget :=
  if !isMouse then some term
  else
    let term := if term.OnEvent then term.emit .OnEvent else term
    if term.closed then some term
    else term.callVterm .HandleEvent

/-- The source's `Terminal.Focus`. -/
def TerminalWidget.Focus (term : TerminalWidget) (focus : Bool) : Option TerminalWidget :=
  if term.closed then some term
  else
    let term := { term with focus := focus }
    if term.ctx then
      if !term.focus then some (term.emit .HideCursor)
      else
        match term.callVterm .GetCursor with
        | none => none
        | some term =>
          some (((term.emit .SetCursor).emit .SetCursorStyle).emit .Invalidate)
    else some term

/-- The events that `Terminal.HandleEvent` tells apart. -/
inductive VtermEvent where
  | EventWidgetContent
  | EventTitle
  | EventClosed
  | Other
  deriving DecidableEq

/-- The source's `Terminal.HandleEvent`. -/
def TerminalWidget.HandleEvent (term : TerminalWidget) (ev : VtermEvent) : TerminalWidget :=
  if term.closed || term.destroyed then term
  else
    match ev with
    | .EventWidgetContent => term.emit .QueueRedraw
    | .EventTitle => if term.OnTitle then term.emit .OnTitle else term
    | .EventClosed => (term.Close none).emit .QueueRedraw
    | .Other => term

/-- The source's `Terminal.Event`; `handled` is what the `OnEvent` callback
returns. -/
def TerminalWidget.Event (term : TerminalWidget) (handled : Bool) : Option TerminalWidget :=
  let term := if term.OnEvent then term.emit .OnEvent else term
  if term.OnEvent && handled then some term
  else if term.closed then some term
  else term.callVterm .HandleEvent

/-- A call on a terminal by its owner or by the virtual terminal; the owner
may also assign the exported field `OnClose`. -/
inductive TermCall where
  | Close (err : Option Err)
  | Destroy
  | Draw (startErr : Option Err) (vis : Bool)
  | MouseEvent (isMouse : Bool)
  | Focus (focus : Bool)
  | HandleEvent (ev : VtermEvent)
  | Event (handled : Bool)
  | SetOnClose (callback : Bool)
  deriving DecidableEq

/-- One call; `none` is a nil-pointer panic. -/
def TerminalWidget.call (term : TerminalWidget) : TermCall → Option TerminalWidget
  | .Close err => some (term.Close err)
  | .Destroy => some term.Destroy
  | .Draw startErr vis => term.Draw startErr vis
  | .MouseEvent isMouse => term.MouseEvent isMouse
  | .Focus focus => term.Focus focus
  | .HandleEvent ev => some (term.HandleEvent ev)
  | .Event handled => term.Event handled
  | .SetOnClose callback => some { term with OnClose := callback }

/-- A sequence of calls. -/
def TerminalWidget.calls (term : TerminalWidget) : List TermCall → Option TerminalWidget
  | [] => some term
  | c :: rest =>
    match term.call c with
    | none => none
    | some term => term.calls rest

/-- A terminal for the examples: a new terminal with a command, to which the
owner has given an `OnClose` callback. -/
def sampleTerminal : TerminalWidget := { NewTerminal true with OnClose := true }

/-- Whether an effect is an invocation of `OnClose`. -/
def TermEffect.isOnClose : TermEffect → Bool
  | .OnClose _ => true
  | _ => false

/-- Whether an effect is a method call on the virtual terminal. -/
def TermEffect.isVterm : TermEffect → Bool
  | .vterm _ => true
  | _ => false

/-- The invocations of `OnClose` so far. -/
def TerminalWidget.onCloseCalls (term : TerminalWidget) : List TermEffect :=
  term.effects.filter TermEffect.isOnClose

/-- The uses of the virtual terminal so far. -/
def TerminalWidget.vtermUses (term : TerminalWidget) : List TermEffect :=
  term.effects.filter TermEffect.isVterm

/-- What holds of a terminal between two calls. -/
def TerminalWidget.Inv (term : TerminalWidget) : Prop :=
  term.onCloseCalls.length ≤ 1 ∧
  (term.closed = false → term.onCloseCalls = []) ∧
  (term.destroyed = true → term.closed = true ∧ term.vterm = false) ∧
  (term.destroyed = false → term.vterm = true)

/-- What one call keeps: the invariant, and, once closed, the invocations of
`OnClose`, and, once destroyed, the uses of the virtual terminal. -/
def TerminalWidget.Step (t t' : TerminalWidget) : Prop :=
  t'.Inv ∧
  (t.closed = true → t'.closed = true ∧ t'.onCloseCalls = t.onCloseCalls) ∧
  (t.destroyed = true → t'.destroyed = true ∧ t'.vtermUses = t.vtermUses) ∧
  t.effects <+: t'.effects

/-! ## Theorems -/

/-! ### Smart-case matching -/

theorem stringsContains_iff (s substr : GoString) :
    stringsContains s substr = true ↔ substr <:+: s := by
  induction s with
  | nil =>
    cases substr <;> simp [stringsContains, List.isPrefixOf]
  | cons c s ih =>
    rw [stringsContains, Bool.or_eq_true, ih, List.infix_cons_iff, List.isPrefixOf_iff_prefix]

theorem hasUpper_iff (U : Unicode) (s : GoString) :
    hasUpper U s = true ↔ ∃ r ∈ s, U.IsUpper r = true := by
  induction s with
  | nil => simp [hasUpper]
  | cons r s ih =>
    by_cases h : U.IsUpper r = true <;> simp [hasUpper, h, ih]

theorem hasUpper_ascii (U : Unicode) (hU : AgreesOnASCII U) (s : GoString)
    (hs : ∀ c ∈ s, c.toNat < 128) : hasUpper U s = hasUpper asciiUnicode s := by
  induction s with
  | nil => rfl
  | cons r s ih =>
    have hr := (hU r (hs r (List.mem_cons_self _ _))).1
    have := ih fun c hc => hs c (List.mem_cons_of_mem _ hc)
    simp [hasUpper, hr, this, asciiUnicode]

theorem stringsToLower_ascii (U : Unicode) (hU : AgreesOnASCII U) (s : GoString)
    (hs : ∀ c ∈ s, c.toNat < 128) : stringsToLower U s = stringsToLower asciiUnicode s := by
  unfold stringsToLower
  apply List.map_congr_left
  intro c hc
  exact (hU c (hs c hc)).2

theorem containsSmartCase_ascii (U : Unicode) (hU : AgreesOnASCII U) (s substr : GoString)
    (hs : ∀ c ∈ s, c.toNat < 128) (hsub : ∀ c ∈ substr, c.toNat < 128) :
    containsSmartCase U s substr = containsSmartCase asciiUnicode s substr := by
  unfold containsSmartCase
  rw [hasUpper_ascii U hU substr hsub, stringsToLower_ascii U hU s hs,
    stringsToLower_ascii U hU substr hsub]

/-- C1. `containsSmartCase s sub` is the case-sensitive substring test when `sub`
has an upper-case character, and the substring test on the lower-cased strings
otherwise; on tables that agree with Go's on ASCII, "Hello World" contains
"hello" and "Hello", and "hello world" does not contain "Hello". -/
theorem containsSmartCase_spec (U : Unicode) :
    (∀ s sub : GoString,
      ((∃ r ∈ sub, U.IsUpper r = true) →
        (containsSmartCase U s sub = true ↔ sub <:+: s)) ∧
      ((¬ ∃ r ∈ sub, U.IsUpper r = true) →
        (containsSmartCase U s sub = true ↔
          stringsToLower U sub <:+: stringsToLower U s))) ∧
    (AgreesOnASCII U →
      containsSmartCase U "Hello World".toList "hello".toList = true ∧
      containsSmartCase U "Hello World".toList "Hello".toList = true ∧
      containsSmartCase U "hello world".toList "Hello".toList = false) := by
  refine ⟨fun s sub => ⟨fun h => ?_, fun h => ?_⟩, fun hU => ?_⟩
  · have hup : hasUpper U sub = true := (hasUpper_iff U sub).2 h
    simp only [containsSmartCase, hup, if_true]
    exact stringsContains_iff s sub
  · have hup : hasUpper U sub = false := by
      rw [← Bool.not_eq_true, hasUpper_iff]; exact h
    simp only [containsSmartCase, hup]
    exact stringsContains_iff _ _
  · refine ⟨?_, ?_, ?_⟩
    · rw [containsSmartCase_ascii U hU _ _ (by decide) (by decide)]; decide
    · rw [containsSmartCase_ascii U hU _ _ (by decide) (by decide)]; decide
    · rw [containsSmartCase_ascii U hU _ _ (by decide) (by decide)]; decide

theorem asciiUnicode_agrees : AgreesOnASCII asciiUnicode :=
  fun _ _ => ⟨rfl, rfl⟩

/-- Witness of C1: with the ASCII tables, "Hello" has an upper-case character
and is not a case-sensitive substring of "hello world". -/
theorem containsSmartCase_spec_witness :
    (∃ r ∈ "Hello".toList, asciiUnicode.IsUpper r = true) ∧
    (containsSmartCase asciiUnicode "hello world".toList "Hello".toList = true ↔
      "Hello".toList <:+: "hello world".toList) ∧
    containsSmartCase asciiUnicode "hello world".toList "Hello".toList = false :=
  ⟨⟨'H', by decide, by decide⟩,
    ((containsSmartCase_spec asciiUnicode).1 _ _).1 ⟨'H', by decide, by decide⟩,
    ((containsSmartCase_spec asciiUnicode).2 asciiUnicode_agrees).2.2⟩

/-! ### The required-parts bitmask -/

theorem getRequiredParts_eq_shape (c : searchCriteria) :
    getRequiredParts c =
      partsOfShape (decide (c.Header ≠ [])) (decide (c.startDate ≠ 0 ∨ c.endDate ≠ 0))
        (decide (c.Body ≠ [])) (decide (c.Text ≠ []))
        (decide (c.WithFlags ≠ [] ∨ c.WithoutFlags ≠ [])) := by
  unfold getRequiredParts partsOfShape Time.IsZero
  by_cases h1 : c.Header = [] <;> by_cases h2 : c.startDate = 0 <;>
    by_cases h3 : c.endDate = 0 <;> by_cases h4 : c.Body = [] <;>
    by_cases h5 : c.Text = [] <;> by_cases h6 : c.WithFlags = [] <;>
    by_cases h7 : c.WithoutFlags = [] <;>
    simp [h1, h2, h3, h4, h5, h6, h7, List.length_pos, NONE, HEADER, DATE, BODY, ALL, FLAGS]

theorem partsOfShape_mono :
    ∀ h d b t f h' d' b' t' f' : Bool,
      (h → h') → (d → d') → (b → b') → (t → t') → (f → f') →
      partsOfShape h d b t f &&& partsOfShape h' d' b' t' f' = partsOfShape h d b t f := by
  decide

theorem testBit_of_and_eq {a b : Nat} (h : a &&& b = a) (i : Nat)
    (hi : a.testBit i = true) : b.testBit i = true := by
  have := congrArg (fun n => n.testBit i) h
  simp only [Nat.testBit_and, hi, Bool.true_and] at this
  exact this

theorem MIMEHeader.Add_ne_nil (h : MIMEHeader) (key value : GoString) :
    h.Add key value ≠ [] := by
  cases h with
  | nil => simp [MIMEHeader.Add]
  | cons p rest =>
    obtain ⟨k, vs⟩ := p
    by_cases hk : k = key <;> simp [MIMEHeader.Add, hk]

/-- C2. `getRequiredParts` is monotonic: when `c'` is `c` with one criterion
added, every bit set in `getRequiredParts c` is set in `getRequiredParts c'`. -/
theorem getRequiredParts_mono (c c' : searchCriteria) (h : AddsCriterion c c') (i : Nat)
    (hi : (getRequiredParts c).testBit i = true) :
    (getRequiredParts c').testBit i = true := by
  refine testBit_of_and_eq ?_ i hi
  rw [getRequiredParts_eq_shape c, getRequiredParts_eq_shape c']
  apply partsOfShape_mono
  all_goals
    cases h <;> simp_all [MIMEHeader.Add_ne_nil]

/-- Witness of C2: adding the required flag `Seen` to the criteria "subject
contains x" keeps the `HEADER` bit (bit 1). -/
theorem getRequiredParts_mono_witness :
    (getRequiredParts
      { Header := [("Subject".toList, ["x".toList])], Body := [], Text := [],
        WithFlags := [] ++ [FlagSeen], WithoutFlags := [],
        startDate := 0, endDate := 0 }).testBit 1 = true :=
  getRequiredParts_mono
    { Header := [("Subject".toList, ["x".toList])], Body := [], Text := [],
      WithFlags := [], WithoutFlags := [], startDate := 0, endDate := 0 }
    _ (AddsCriterion.withFlag _ FlagSeen) 1 (by decide)

theorem getRequiredParts_bits (c : searchCriteria) :
    (getRequiredParts c &&& HEADER ≠ 0 ↔ c.Header ≠ []) ∧
    (getRequiredParts c &&& DATE ≠ 0 ↔ (c.startDate ≠ 0 ∨ c.endDate ≠ 0)) ∧
    (getRequiredParts c &&& BODY ≠ 0 ↔ c.Body ≠ []) ∧
    (getRequiredParts c &&& ALL ≠ 0 ↔ c.Text ≠ []) ∧
    (getRequiredParts c &&& FLAGS ≠ 0 ↔ (c.WithFlags ≠ [] ∨ c.WithoutFlags ≠ [])) ∧
    getRequiredParts c =
      (if c.Header ≠ [] then HEADER else 0) +
      (if c.startDate ≠ 0 ∨ c.endDate ≠ 0 then DATE else 0) +
      (if c.Body ≠ [] then BODY else 0) +
      (if c.Text ≠ [] then ALL else 0) +
      (if c.WithFlags ≠ [] ∨ c.WithoutFlags ≠ [] then FLAGS else 0) := by
  rw [getRequiredParts_eq_shape c]
  have key : ∀ h d b t f : Bool,
      (partsOfShape h d b t f &&& HEADER ≠ 0 ↔ h = true) ∧
      (partsOfShape h d b t f &&& DATE ≠ 0 ↔ d = true) ∧
      (partsOfShape h d b t f &&& BODY ≠ 0 ↔ b = true) ∧
      (partsOfShape h d b t f &&& ALL ≠ 0 ↔ t = true) ∧
      (partsOfShape h d b t f &&& FLAGS ≠ 0 ↔ f = true) ∧
      partsOfShape h d b t f =
        (if h then HEADER else 0) + (if d then DATE else 0) + (if b then BODY else 0) +
        (if t then ALL else 0) + (if f then FLAGS else 0) := by decide
  obtain ⟨k1, k2, k3, k4, k5, k6⟩ := key (decide (c.Header ≠ []))
    (decide (c.startDate ≠ 0 ∨ c.endDate ≠ 0)) (decide (c.Body ≠ [])) (decide (c.Text ≠ []))
    (decide (c.WithFlags ≠ [] ∨ c.WithoutFlags ≠ []))
  refine ⟨?_, ?_, ?_, ?_, ?_, ?_⟩
  · rw [k1]; simp
  · rw [k2]; simp
  · rw [k3]; simp
  · rw [k4]; simp
  · rw [k5]; simp
  · rw [k6]; simp

/-- C3. `getRequiredParts` sets `HEADER` iff the header map is non-empty, `DATE`
iff a start or end date is set, `BODY` iff there is a body term, `ALL` iff there
is a text term and `FLAGS` iff a flag is required or forbidden, and sets nothing
else; the five bits are 1, 2, 4, 8, 16 and the empty criteria gives `NONE = 0`.
The bitmask is a function of the criteria alone. -/
theorem getRequiredParts_spec :
    (FLAGS = 1 ∧ HEADER = 2 ∧ DATE = 4 ∧ BODY = 8 ∧ ALL = 16 ∧ NONE = 0) ∧
    getRequiredParts searchCriteria.empty = NONE ∧
    ∀ c : searchCriteria,
      (getRequiredParts c &&& HEADER ≠ 0 ↔ c.Header ≠ []) ∧
      (getRequiredParts c &&& DATE ≠ 0 ↔ (c.startDate ≠ 0 ∨ c.endDate ≠ 0)) ∧
      (getRequiredParts c &&& BODY ≠ 0 ↔ c.Body ≠ []) ∧
      (getRequiredParts c &&& ALL ≠ 0 ↔ c.Text ≠ []) ∧
      (getRequiredParts c &&& FLAGS ≠ 0 ↔ (c.WithFlags ≠ [] ∨ c.WithoutFlags ≠ [])) ∧
      getRequiredParts c =
        (if c.Header ≠ [] then HEADER else 0) +
        (if c.startDate ≠ 0 ∨ c.endDate ≠ 0 then DATE else 0) +
        (if c.Body ≠ [] then BODY else 0) +
        (if c.Text ≠ [] then ALL else 0) +
        (if c.WithFlags ≠ [] ∨ c.WithoutFlags ≠ [] then FLAGS else 0) :=
  ⟨by decide, by decide, getRequiredParts_bits⟩

/-! ### Evaluating one candidate -/

theorem containsFlag_iff (flags : List Flag) (searchFlag : Flag) :
    containsFlag flags searchFlag = true ↔ searchFlag ∈ flags := by
  unfold containsFlag
  have gen : ∀ acc : Bool,
      flags.foldl (fun acc flag => if searchFlag = flag then true else acc) acc = true ↔
        (acc = true ∨ searchFlag ∈ flags) := by
    induction flags with
    | nil => intro acc; simp
    | cons f rest ih =>
      intro acc
      rw [List.foldl_cons, ih]
      by_cases h : searchFlag = f
      · simp [h]
      · simp [h]
  simpa using gen false

theorem matchHeader_some (U : Unicode) (mi : MessageInfo) (hdr : MIMEHeader) :
    matchHeader U (some mi) hdr =
      .ok (hdr.all fun kv =>
        kv.2.all fun text => containsSmartCase U (mi.RFC822Headers.Get kv.1) text) := by
  induction hdr with
  | nil => rfl
  | cons kv rest ih =>
    obtain ⟨k, v⟩ := kv
    by_cases h : (v.all fun text => containsSmartCase U (mi.RFC822Headers.Get k) text) = true
    · simp only [matchHeader, h, if_true, ih, List.all_cons, Bool.true_and]
    · simp only [matchHeader, h, List.all_cons]
      simp only [Bool.not_eq_true] at h
      simp [h]

theorem matchHeader_nil (U : Unicode) (header : Option MessageInfo) :
    matchHeader U header [] = .ok true := rfl

theorem loadParts_ok (L : Lib) (m : Message) (parts : MsgParts) (flags : List Flag)
    (mi : MessageInfo) (body all : GoString)
    (hflags : parts &&& FLAGS > 0 → m.Flags = .ok flags)
    (hinfo : parts &&& HEADER > 0 ∨ parts &&& DATE > 0 ∨ parts &&& BODY > 0 →
      m.MessageInfo = .ok mi)
    (hbody : parts &&& BODY > 0 →
      m.NewBodyPartReader (L.FindFirstNonMultipart mi.BodyStructure []) = .ok (.ok body))
    (hall : parts &&& ALL > 0 → m.NewReader = .ok (.ok all)) :
    (loadParts L m parts).2 =
      .ok ⟨if parts &&& FLAGS > 0 then flags else [],
        if parts &&& HEADER > 0 ∨ parts &&& DATE > 0 then some mi else none,
        if parts &&& BODY > 0 then body else [],
        if parts &&& ALL > 0 then all else []⟩ := by
  unfold loadParts loadFlags loadHeader loadBody loadAll
  by_cases h1 : parts &&& FLAGS > 0 <;> by_cases h2 : parts &&& HEADER > 0 <;>
    by_cases h3 : parts &&& DATE > 0 <;> by_cases h4 : parts &&& BODY > 0 <;>
    by_cases h5 : parts &&& ALL > 0 <;>
    simp [Traced.andThen, h1, h2, h3, h4, h5, hflags, hinfo, hbody, hall, Except.map]

theorem searchKey_of_loaded (L : Lib) (w : Worker) (key : UID) (c : searchCriteria)
    (parts : MsgParts) (m : Message) (l : Loaded) (hm : w.Message key = .ok m)
    (hl : (loadParts L m parts).2 = .ok l) :
    (searchKey L w key c parts).2 = matchCriteria L.unicode l c parts := by
  unfold searchKey
  rw [hm]
  rcases hlp : loadParts L m parts with ⟨trace, r⟩
  rw [hlp] at hl
  simp only at hl
  subst hl
  simp only [hlp]

theorem matchDate_spec (c : searchCriteria) (mi : MessageInfo) (parts : MsgParts)
    (header : Option MessageInfo)
    (hparts : parts &&& DATE > 0 ↔ (c.startDate ≠ 0 ∨ c.endDate ≠ 0))
    (hheader : parts &&& DATE > 0 → header = some mi) :
    ∃ b, matchDate header c parts = .ok b ∧ (b = true ↔ DateConstraintLenient c mi) := by
  unfold matchDate DateConstraintLenient DateInRange
  by_cases hd : parts &&& DATE > 0
  · rw [if_pos hd, hheader hd]
    simp only []
    rcases hdate : mi.RFC822Headers.Date with e | date
    · exact ⟨true, rfl, by simp⟩
    · simp only [Time.IsZero, Time.Before, Time.After, Except.ok.injEq, forall_eq']
      by_cases h1 : c.startDate = 0 <;> by_cases h2 : c.endDate = 0 <;>
        by_cases h3 : date < c.startDate <;> by_cases h4 : date > c.endDate <;>
        simp [h1, h2, h3, h4]
  · rw [if_neg hd]
    have hz : ¬ (c.startDate ≠ 0 ∨ c.endDate ≠ 0) := fun h => hd (hparts.2 h)
    simp only [not_or, not_not] at hz
    exact ⟨true, rfl, by simp [hz.1, hz.2]⟩

theorem matchCriteria_spec (U : Unicode) (c : searchCriteria) (parts : MsgParts)
    (l : Loaded) (flags : List Flag) (mi : MessageInfo) (body all : GoString)
    (hparts : parts &&& DATE > 0 ↔ (c.startDate ≠ 0 ∨ c.endDate ≠ 0))
    (hheader : c.Header ≠ [] ∨ parts &&& DATE > 0 → l.header = some mi)
    (hbody : c.Body ≠ [] → l.body = body)
    (hall : c.Text ≠ [] → l.all = all)
    (hflags : c.WithFlags ≠ [] ∨ c.WithoutFlags ≠ [] → l.flags = flags) :
    ∃ b, matchCriteria U l c parts = .ok b ∧
      (b = true ↔ ConstraintsHold U c flags mi body all ∧ DateConstraintLenient c mi) := by
  obtain ⟨bd, hbd, hbdiff⟩ :=
    matchDate_spec c mi parts l.header hparts fun h => hheader (Or.inr h)
  have hH : matchHeader U l.header c.Header =
      .ok (c.Header.all fun kv =>
        kv.2.all fun text => containsSmartCase U (mi.RFC822Headers.Get kv.1) text) := by
    by_cases h : c.Header = []
    · rw [h]; rfl
    · rw [hheader (Or.inl h)]; exact matchHeader_some U mi c.Header
  have hB : (c.Body.all fun t => containsSmartCase U l.body t) =
      c.Body.all fun t => containsSmartCase U body t := by
    by_cases h : c.Body = []
    · rw [h]; rfl
    · rw [hbody h]
  have hT : (c.Text.all fun t => containsSmartCase U l.all t) =
      c.Text.all fun t => containsSmartCase U all t := by
    by_cases h : c.Text = []
    · rw [h]; rfl
    · rw [hall h]
  have hW : (c.WithFlags.all fun f => containsFlag l.flags f) =
      c.WithFlags.all fun f => containsFlag flags f := by
    by_cases h : c.WithFlags = []
    · rw [h]; rfl
    · rw [hflags (Or.inl h)]
  have hX : (c.WithoutFlags.any fun f => containsFlag l.flags f) =
      c.WithoutFlags.any fun f => containsFlag flags f := by
    by_cases h : c.WithoutFlags = []
    · rw [h]; rfl
    · rw [hflags (Or.inr h)]
  unfold matchCriteria ConstraintsHold
  rw [hH, hB, hT, hW, hX, hbd]
  have e1 : (c.Header.all fun kv =>
        kv.2.all fun text => containsSmartCase U (mi.RFC822Headers.Get kv.1) text) = true ↔
      ∀ kv ∈ c.Header, ∀ text ∈ kv.2,
        containsSmartCase U (mi.RFC822Headers.Get kv.1) text = true := by
    simp [List.all_eq_true]
  have e2 : (c.Body.all fun t => containsSmartCase U body t) = true ↔
      ∀ term ∈ c.Body, containsSmartCase U body term = true := by simp [List.all_eq_true]
  have e3 : (c.Text.all fun t => containsSmartCase U all t) = true ↔
      ∀ term ∈ c.Text, containsSmartCase U all term = true := by simp [List.all_eq_true]
  have e4 : (c.WithFlags.all fun f => containsFlag flags f) = true ↔
      ∀ f ∈ c.WithFlags, f ∈ flags := by simp [List.all_eq_true, containsFlag_iff]
  have e5 : (c.WithoutFlags.any fun f => containsFlag flags f) = true ↔
      ¬ ∀ f ∈ c.WithoutFlags, f ∉ flags := by
    simp [List.any_eq_true, containsFlag_iff]
  rw [← e1, ← e2, ← e3, ← e4, ← hbdiff]
  cases h1 : (c.Header.all fun kv =>
      kv.2.all fun text => containsSmartCase U (mi.RFC822Headers.Get kv.1) text)
  · exact ⟨false, rfl, by simp⟩
  cases h2 : (c.Body.all fun t => containsSmartCase U body t)
  · exact ⟨false, rfl, by simp⟩
  cases h3 : (c.Text.all fun t => containsSmartCase U all t)
  · exact ⟨false, rfl, by simp⟩
  cases h4 : (c.WithFlags.all fun f => containsFlag flags f)
  · exact ⟨false, rfl, by simp⟩
  cases h5 : (c.WithoutFlags.any fun f => containsFlag flags f)
  · have h5' : ∀ f ∈ c.WithoutFlags, f ∉ flags := by
      by_contra hcon
      have := e5.2 hcon
      rw [h5] at this
      exact Bool.false_ne_true this
    exact ⟨bd, rfl, fun h => ⟨⟨rfl, rfl, rfl, rfl, h5'⟩, h⟩, fun h => h.2⟩
  · have h5' : ¬ ∀ f ∈ c.WithoutFlags, f ∉ flags := e5.1 h5
    exact ⟨false, rfl, by simp [h5']⟩

/-- C4 (amended). For a message whose required parts load without error and
`parts = getRequiredParts c`, `searchKey` returns `(b, nil)` where `b` is true
exactly when every header, body, text and flag constraint holds and the date,
if the `Date` field parses, is in the range; so for a message whose `Date` field
parses to `date` it is true exactly when all constraints hold together with
`date` in the range. -/
theorem searchKey_iff_constraints (L : Lib) (w : Worker) (key : UID) (c : searchCriteria)
    (m : Message) (flags : List Flag) (mi : MessageInfo) (body all : GoString)
    (hm : w.Message key = .ok m)
    (hflags : c.WithFlags ≠ [] ∨ c.WithoutFlags ≠ [] → m.Flags = .ok flags)
    (hinfo : c.Header ≠ [] ∨ c.startDate ≠ 0 ∨ c.endDate ≠ 0 ∨ c.Body ≠ [] →
      m.MessageInfo = .ok mi)
    (hbody : c.Body ≠ [] →
      m.NewBodyPartReader (L.FindFirstNonMultipart mi.BodyStructure []) = .ok (.ok body))
    (hall : c.Text ≠ [] → m.NewReader = .ok (.ok all)) :
    ∃ b, (searchKey L w key c (getRequiredParts c)).2 = .ok b ∧
      (b = true ↔
        ConstraintsHold L.unicode c flags mi body all ∧ DateConstraintLenient c mi) ∧
      ∀ date, mi.RFC822Headers.Date = .ok date →
        (b = true ↔ ConstraintsHold L.unicode c flags mi body all ∧ DateInRange c date) := by
  obtain ⟨bH, bD, bB, bT, bF, -⟩ := getRequiredParts_bits c
  simp only [← Nat.pos_iff_ne_zero] at bH bD bB bT bF
  have hload := loadParts_ok L m (getRequiredParts c) flags mi body all
    (fun h => hflags (bF.1 h))
    (fun h => hinfo (by
      rcases h with h | h | h
      · exact Or.inl (bH.1 h)
      · rcases bD.1 h with h' | h'
        · exact Or.inr (Or.inl h')
        · exact Or.inr (Or.inr (Or.inl h'))
      · exact Or.inr (Or.inr (Or.inr (bB.1 h)))))
    (fun h => hbody (bB.1 h)) (fun h => hall (bT.1 h))
  rw [searchKey_of_loaded L w key c _ m _ hm hload]
  obtain ⟨b, hb, hiff⟩ := matchCriteria_spec L.unicode c (getRequiredParts c)
    ⟨if getRequiredParts c &&& FLAGS > 0 then flags else [],
      if getRequiredParts c &&& HEADER > 0 ∨ getRequiredParts c &&& DATE > 0 then some mi
      else none,
      if getRequiredParts c &&& BODY > 0 then body else [],
      if getRequiredParts c &&& ALL > 0 then all else []⟩ flags mi body all
    bD
    (fun h => by
      have : getRequiredParts c &&& HEADER > 0 ∨ getRequiredParts c &&& DATE > 0 := by
        rcases h with h | h
        · exact Or.inl (bH.2 h)
        · exact Or.inr h
      exact if_pos this)
    (fun h => if_pos (bB.2 h))
    (fun h => if_pos (bT.2 h))
    (fun h => if_pos (bF.2 h))
  refine ⟨b, hb, hiff, fun date hdate => ?_⟩
  rw [hiff]
  unfold DateConstraintLenient
  rw [hdate]
  simp only [Except.ok.injEq, forall_eq']

/-- Witness of C4: UID 2 of the sample mailbox (flag `Seen`, subject "Hello
World", date 10) under the criteria "seen, subject contains hello, date not
before 5": every part loads, the constraints hold and `searchKey` returns true. -/
theorem searchKey_iff_constraints_witness :
    sampleWorker.Message 2 = .ok (sampleMessage [FlagSeen] (some 10)) ∧
    (searchKey sampleLib sampleWorker 2 seenHelloSinceFive
      (getRequiredParts seenHelloSinceFive)).2 = .ok true ∧
    ∃ b, (searchKey sampleLib sampleWorker 2 seenHelloSinceFive
        (getRequiredParts seenHelloSinceFive)).2 = .ok b ∧
      (b = true ↔
        ConstraintsHold sampleLib.unicode seenHelloSinceFive [FlagSeen] (sampleInfo (some 10))
          "body text".toList "Subject: Hello World\n\nbody text".toList ∧
        DateConstraintLenient seenHelloSinceFive (sampleInfo (some 10))) ∧
      ∀ date, (sampleInfo (some 10)).RFC822Headers.Date = .ok date →
        (b = true ↔
          ConstraintsHold sampleLib.unicode seenHelloSinceFive [FlagSeen]
            (sampleInfo (some 10)) "body text".toList
            "Subject: Hello World\n\nbody text".toList ∧
          DateInRange seenHelloSinceFive date) :=
  ⟨rfl, by decide,
    searchKey_iff_constraints sampleLib sampleWorker 2 seenHelloSinceFive
      (sampleMessage [FlagSeen] (some 10)) [FlagSeen] (sampleInfo (some 10))
      "body text".toList "Subject: Hello World\n\nbody text".toList
      rfl (fun _ => rfl) (fun _ => rfl) (fun _ => rfl) (fun _ => rfl)⟩

/-- Counterexample to C4 as stated: UID 3 of the sample mailbox loads without
error and its `Date` field does not parse; under the criteria "date not before
5" `searchKey` returns true although the message has no date in the range. -/
theorem searchKey_unparsed_date_counterexample :
    sampleWorker.Message 3 = .ok (sampleMessage [] none) ∧
    (loadParts sampleLib (sampleMessage [] none) (getRequiredParts sinceFive)).2 =
      .ok ⟨[], some (sampleInfo none), [], []⟩ ∧
    (searchKey sampleLib sampleWorker 3 sinceFive (getRequiredParts sinceFive)).2 = .ok true ∧
    ConstraintsHold sampleLib.unicode sinceFive [] (sampleInfo none)
      "body text".toList "Subject: Hello World\n\nbody text".toList ∧
    ¬ DateConstraintStrict sinceFive (sampleInfo none) := by
  refine ⟨rfl, rfl, by decide, ?_, ?_⟩
  · simp [ConstraintsHold, sinceFive, searchCriteria.empty]
  · intro h
    obtain ⟨date, hdate, -⟩ := h (Or.inl (by decide))
    cases hdate

/-! ### The reads of one candidate -/

theorem Traced.andThen_mem {α β : Type} (a : Traced α) (f : α → Traced β) (op : ReadOp)
    (h : op ∈ (a.andThen f).1) : op ∈ a.1 ∨ ∃ v, op ∈ (f v).1 := by
  unfold Traced.andThen at h
  rcases hr : a.2 with e | v
  · rw [hr] at h; exact Or.inl h
  · rw [hr] at h
    rcases List.mem_append.1 h with h' | h'
    · exact Or.inl h'
    · exact Or.inr ⟨v, h'⟩

theorem loadFlags_mem (m : Message) (parts : MsgParts) (op : ReadOp)
    (h : op ∈ (loadFlags m parts).1) : op = ReadOp.Flags ∧ parts &&& FLAGS > 0 := by
  unfold loadFlags at h
  by_cases hb : parts &&& FLAGS > 0
  · rw [if_pos hb] at h; exact ⟨List.mem_singleton.1 h, hb⟩
  · rw [if_neg hb] at h; cases h

theorem loadHeader_mem (m : Message) (parts : MsgParts) (op : ReadOp)
    (h : op ∈ (loadHeader m parts).1) :
    op = ReadOp.MessageInfo ∧ (parts &&& HEADER > 0 ∨ parts &&& DATE > 0) := by
  unfold loadHeader at h
  by_cases hb : (decide (parts &&& HEADER > 0) || decide (parts &&& DATE > 0)) = true
  · rw [if_pos hb] at h
    refine ⟨List.mem_singleton.1 h, ?_⟩
    simpa using hb
  · rw [if_neg hb] at h; cases h

theorem loadBody_mem (L : Lib) (m : Message) (parts : MsgParts) (op : ReadOp)
    (h : op ∈ (loadBody L m parts).1) :
    (op = ReadOp.MessageInfo ∨ ∃ path, op = ReadOp.NewBodyPartReader path) ∧
      parts &&& BODY > 0 := by
  unfold loadBody at h
  by_cases hb : parts &&& BODY > 0
  · rw [if_pos hb] at h
    refine ⟨?_, hb⟩
    rcases hmi : m.MessageInfo with e | mi
    · rw [hmi] at h; exact Or.inl (List.mem_singleton.1 h)
    · rw [hmi] at h
      simp only at h
      rcases hr : m.NewBodyPartReader (L.FindFirstNonMultipart mi.BodyStructure []) with e | r
      · rw [hr] at h
        rcases List.mem_cons.1 h with h' | h'
        · exact Or.inl h'
        · exact Or.inr ⟨_, List.mem_singleton.1 h'⟩
      · rw [hr] at h
        rcases List.mem_cons.1 h with h' | h'
        · exact Or.inl h'
        · exact Or.inr ⟨_, List.mem_singleton.1 h'⟩
  · rw [if_neg hb] at h; cases h

theorem loadAll_mem (m : Message) (parts : MsgParts) (op : ReadOp)
    (h : op ∈ (loadAll m parts).1) : op = ReadOp.NewReader ∧ parts &&& ALL > 0 := by
  unfold loadAll at h
  by_cases hb : parts &&& ALL > 0
  · rw [if_pos hb] at h
    refine ⟨?_, hb⟩
    rcases hr : m.NewReader with e | r
    · rw [hr] at h; exact List.mem_singleton.1 h
    · rw [hr] at h; exact List.mem_singleton.1 h
  · rw [if_neg hb] at h; cases h

theorem loadParts_mem (L : Lib) (m : Message) (parts : MsgParts) (op : ReadOp)
    (h : op ∈ (loadParts L m parts).1) :
    (op = ReadOp.Flags ∧ parts &&& FLAGS > 0) ∨
    (op = ReadOp.MessageInfo ∧
      (parts &&& HEADER > 0 ∨ parts &&& DATE > 0 ∨ parts &&& BODY > 0)) ∨
    ((∃ path, op = ReadOp.NewBodyPartReader path) ∧ parts &&& BODY > 0) ∨
    (op = ReadOp.NewReader ∧ parts &&& ALL > 0) := by
  unfold loadParts at h
  rcases Traced.andThen_mem _ _ op h with h1 | ⟨_, h⟩
  · exact Or.inl (loadFlags_mem m parts op h1)
  rcases Traced.andThen_mem _ _ op h with h2 | ⟨_, h⟩
  · obtain ⟨e, hb⟩ := loadHeader_mem m parts op h2
    refine Or.inr (Or.inl ⟨e, ?_⟩)
    rcases hb with hb | hb
    · exact Or.inl hb
    · exact Or.inr (Or.inl hb)
  rcases Traced.andThen_mem _ _ op h with h3 | ⟨_, h⟩
  · obtain ⟨e, hb⟩ := loadBody_mem L m parts op h3
    rcases e with e | e
    · exact Or.inr (Or.inl ⟨e, Or.inr (Or.inr hb)⟩)
    · exact Or.inr (Or.inr (Or.inl ⟨e, hb⟩))
  rcases Traced.andThen_mem _ _ op h with h4 | ⟨_, h⟩
  · exact Or.inr (Or.inr (Or.inr (loadAll_mem m parts op h4)))
  · cases h

theorem searchKey_trace_mem (L : Lib) (w : Worker) (key : UID) (c : searchCriteria)
    (parts : MsgParts) (op : ReadOp) (h : op ∈ (searchKey L w key c parts).1) :
    ∃ m, w.Message key = .ok m ∧ op ∈ (loadParts L m parts).1 := by
  unfold searchKey at h
  rcases hm : w.Message key with e | m
  · rw [hm] at h; cases h
  · rw [hm] at h
    refine ⟨m, rfl, ?_⟩
    rcases hlp : loadParts L m parts with ⟨trace, r⟩
    simp only [hlp] at h
    rcases r with e | l <;> exact h

/-- C7 (amended). For every bitmask, `searchKey` reads the flags only if `FLAGS`
is set, the message info only if `HEADER`, `DATE` or `BODY` is set, a body part
only if `BODY` is set, and the raw message only if `ALL` is set. -/
theorem searchKey_reads_only_required (L : Lib) (w : Worker) (key : UID)
    (c : searchCriteria) (parts : MsgParts) :
    (ReadOp.Flags ∈ (searchKey L w key c parts).1 → parts &&& FLAGS > 0) ∧
    (ReadOp.MessageInfo ∈ (searchKey L w key c parts).1 →
      parts &&& HEADER > 0 ∨ parts &&& DATE > 0 ∨ parts &&& BODY > 0) ∧
    (∀ path, ReadOp.NewBodyPartReader path ∈ (searchKey L w key c parts).1 →
      parts &&& BODY > 0) ∧
    (ReadOp.NewReader ∈ (searchKey L w key c parts).1 → parts &&& ALL > 0) := by
  refine ⟨fun h => ?_, fun h => ?_, fun path h => ?_, fun h => ?_⟩ <;>
    obtain ⟨m, -, hmem⟩ := searchKey_trace_mem L w key c parts _ h <;>
    rcases loadParts_mem L m parts _ hmem with h' | h' | h' | h'
  all_goals first
    | exact h'.2
    | (exfalso; obtain ⟨⟨_, e⟩, -⟩ := h'; cases e)
    | (exfalso; obtain ⟨e, -⟩ := h'; cases e)

/-- Counterexample to C7 as stated: for the criteria "body contains text" the
bitmask is `BODY` alone, with neither `HEADER` nor `DATE`, and `searchKey` reads
the message info of the candidate all the same. -/
theorem searchKey_body_reads_info_counterexample :
    getRequiredParts bodyHasText = BODY ∧
    BODY &&& HEADER = 0 ∧ BODY &&& DATE = 0 ∧
    (searchKey sampleLib sampleWorker 1 bodyHasText (getRequiredParts bodyHasText)).1 =
      [ReadOp.MessageInfo, ReadOp.NewBodyPartReader []] ∧
    ReadOp.MessageInfo ∈
      (searchKey sampleLib sampleWorker 1 bodyHasText (getRequiredParts bodyHasText)).1 := by
  refine ⟨by decide, by decide, by decide, ?_, ?_⟩
  · decide
  · decide

/-! ### The worker pool -/

theorem perm_cons_eraseIdx {α : Type} (l : List α) (i : Nat) (a : α)
    (h : l.get? i = some a) : l.Perm (a :: l.eraseIdx i) := by
  induction l generalizing i with
  | nil => simp at h
  | cons b rest ih =>
    cases i with
    | zero =>
      simp only [List.get?_cons_zero, Option.some.injEq] at h
      subst h
      simp
    | succ j =>
      simp only [List.get?_cons_succ] at h
      simp only [List.eraseIdx_cons_succ]
      exact ((ih j h).cons b).trans (List.Perm.swap a b _)

theorem length_eraseIdx_add_one {α : Type} (l : List α) (i : Nat) (h : i < l.length) :
    (l.eraseIdx i).length + 1 = l.length := by
  rw [List.length_eraseIdx, if_pos h]
  omega

theorem sequentialScan_append (outcome : UID → Result Bool) (xs ys : List UID) :
    sequentialScan outcome (xs ++ ys) =
      sequentialScan outcome xs ++ sequentialScan outcome ys := by
  simp [sequentialScan]

theorem sequentialScan_perm (outcome : UID → Result Bool) {xs ys : List UID}
    (h : xs.Perm ys) : (sequentialScan outcome xs).Perm (sequentialScan outcome ys) :=
  h.filter _

theorem sequentialScan_cons_match (outcome : UID → Result Bool) (key : UID) (xs : List UID)
    (h : outcome key = .ok true) :
    sequentialScan outcome (key :: xs) = key :: sequentialScan outcome xs := by
  simp [sequentialScan, h]

theorem sequentialScan_cons_other (outcome : UID → Result Bool) (key : UID) (xs : List UID)
    (h : outcome key ≠ .ok true) :
    sequentialScan outcome (key :: xs) = sequentialScan outcome xs := by
  simp [sequentialScan, h]

theorem mem_sequentialScan (outcome : UID → Result Bool) (keys : List UID) (uid : UID) :
    uid ∈ sequentialScan outcome keys ↔ uid ∈ keys ∧ outcome uid = .ok true := by
  simp [sequentialScan]

theorem poolApply_spec (max : Nat) (outcome : UID → Result Bool) (keys : List UID)
    (hnp : ∀ key, outcome key ≠ .panic) (st : PoolState) (ev : PoolEvent)
    (hinv : PoolInv outcome keys st) (hev : ev ∈ poolEnabled max st) :
    PoolInv outcome keys (poolApply outcome st ev) ∧
      poolMeasure (poolApply outcome st ev) + 1 = poolMeasure st := by
  obtain ⟨hcr, hperm⟩ := hinv
  unfold poolEnabled at hev
  rw [hcr] at hev
  simp only [Bool.false_eq_true, if_false, List.mem_append, List.mem_map, List.mem_range] at hev
  rcases hev with (hev | ⟨i, hi, rfl⟩) | ⟨i, hi, rfl⟩
  · -- spawn
    by_cases hc : st.pending ≠ [] ∧ st.evaluating.length + st.releasing.length < max
    · rw [if_pos hc] at hev
      have hev' : ev = PoolEvent.spawn := List.mem_singleton.1 hev
      subst hev'
      rcases hp : st.pending with _ | ⟨key, rest⟩
      · exact absurd hp hc.1
      · simp only [poolApply, hp, PoolInv, poolMeasure, List.length_cons, List.length_append,
          List.length_singleton, List.length_nil]
        refine ⟨⟨hcr, ?_⟩, by omega⟩
        rw [hp] at hperm
        simpa using hperm
    · rw [if_neg hc] at hev
      cases hev
  · -- evaluate
    have hget : st.evaluating.get? i = some (st.evaluating.get ⟨i, hi⟩) :=
      List.get?_eq_get hi
    have hlen := length_eraseIdx_add_one st.evaluating i hi
    have hp := perm_cons_eraseIdx st.evaluating i _ hget
    generalize st.evaluating.get ⟨i, hi⟩ = key at hget hp
    have hscan : (sequentialScan outcome (st.evaluating ++ st.pending)).Perm
        (sequentialScan outcome (key :: (st.evaluating.eraseIdx i ++ st.pending))) :=
      sequentialScan_perm outcome (by simpa using hp.append_right st.pending)
    rcases ho : outcome key with success | e | _
    · cases success
      · simp only [poolApply, hget, ho, PoolInv, poolMeasure, List.length_append,
          List.length_singleton, Bool.false_eq_true, if_false]
        refine ⟨⟨hcr, ?_⟩, by omega⟩
        rw [sequentialScan_cons_other outcome key _ (by rw [ho]; simp)] at hscan
        exact (hscan.symm.append_left st.matchedUids).trans hperm
      · simp only [poolApply, hget, ho, PoolInv, poolMeasure, List.length_append,
          List.length_singleton, if_true]
        refine ⟨⟨hcr, ?_⟩, by omega⟩
        rw [sequentialScan_cons_match outcome key _ ho] at hscan
        refine List.Perm.trans ?_ ((hscan.symm.append_left st.matchedUids).trans hperm)
        simp
    · simp only [poolApply, hget, ho, PoolInv, poolMeasure, List.length_append,
        List.length_singleton]
      refine ⟨⟨hcr, ?_⟩, by omega⟩
      rw [sequentialScan_cons_other outcome key _ (by rw [ho]; simp)] at hscan
      exact (hscan.symm.append_left st.matchedUids).trans hperm
    · exact absurd ho (hnp key)
  · -- release
    have hlen := length_eraseIdx_add_one st.releasing i hi
    simp only [poolApply, PoolInv, poolMeasure]
    exact ⟨⟨hcr, hperm⟩, by omega⟩

theorem poolEnabled_nil (max : Nat) (hmax : 0 < max) (st : PoolState)
    (hcr : st.crashed = false) (h : poolEnabled max st = []) : poolMeasure st = 0 := by
  unfold poolEnabled at h
  rw [hcr] at h
  simp only [Bool.false_eq_true, if_false, List.append_eq_nil, List.map_eq_nil_iff,
    List.range_eq_nil, List.length_eq_zero] at h
  obtain ⟨⟨hs, he⟩, hr⟩ := h
  have hp : st.pending = [] := by
    by_contra hne
    rw [if_pos ⟨hne, by simp [he, hr, hmax]⟩] at hs
    cases hs
  simp [poolMeasure, hp, he, hr]

theorem poolRun_spec (max : Nat) (hmax : 0 < max) (outcome : UID → Result Bool)
    (keys : List UID) (hnp : ∀ key, outcome key ≠ .panic) :
    ∀ (fuel : Nat) (sched : List Nat) (st : PoolState), PoolInv outcome keys st →
      poolMeasure st ≤ fuel →
      PoolInv outcome keys (poolRun max outcome fuel sched st) ∧
        poolMeasure (poolRun max outcome fuel sched st) = 0 := by
  intro fuel
  induction fuel with
  | zero =>
    intro sched st hinv hle
    exact ⟨hinv, Nat.le_zero.1 hle⟩
  | succ fuel ih =>
    intro sched st hinv hle
    rcases hen : poolEnabled max st with _ | ⟨e, es⟩
    · simp only [poolRun, hen]
      exact ⟨hinv, poolEnabled_nil max hmax st hinv.1 hen⟩
    · simp only [poolRun, hen]
      have hmem : (e :: es).getD (sched.headD 0 % (es.length + 1)) e ∈ poolEnabled max st := by
        rw [hen, List.getD_eq_getElem _ _ (by simpa using Nat.mod_lt _ (Nat.succ_pos _))]
        exact List.getElem_mem _
      obtain ⟨hinv', hm⟩ := poolApply_spec max outcome keys hnp st _ hinv hmem
      exact ih _ _ hinv' (by omega)

theorem poolSearch_perm (max : Nat) (hmax : 0 < max) (outcome : UID → Result Bool)
    (hnp : ∀ key, outcome key ≠ .panic) (sched : List Nat) (keys : List UID) :
    ∃ uids, poolSearch max outcome sched keys = some (.ok uids) ∧
      uids.Perm (sequentialScan outcome keys) := by
  have hinit : PoolInv outcome keys ⟨keys, [], [], [], false⟩ := ⟨rfl, by simp⟩
  obtain ⟨⟨hcr, hperm⟩, hm⟩ := poolRun_spec max hmax outcome keys hnp (3 * keys.length) sched
    ⟨keys, [], [], [], false⟩ hinit (by simp [poolMeasure])
  unfold poolSearch
  generalize poolRun max outcome (3 * keys.length) sched ⟨keys, [], [], [], false⟩ = st
    at hcr hperm hm
  have hz : st.pending = [] ∧ st.evaluating = [] ∧ st.releasing = [] := by
    unfold poolMeasure at hm
    refine ⟨?_, ?_, ?_⟩ <;> apply List.eq_nil_of_length_eq_zero <;> omega
  refine ⟨st.matchedUids, ?_, ?_⟩
  · simp [poolResult, hcr, hz]
  · simpa [hz.1, hz.2.1, sequentialScan] using hperm

theorem Traced.andThen_ok {α β : Type} (a : Traced α) (f : α → Traced β) (y : β)
    (h : (a.andThen f).2 = .ok y) : ∃ v, a.2 = .ok v ∧ (f v).2 = .ok y := by
  unfold Traced.andThen at h
  rcases hr : a.2 with e | v
  · rw [hr] at h; cases h
  · rw [hr] at h; exact ⟨v, rfl, h⟩

theorem loadParts_header (L : Lib) (m : Message) (parts : MsgParts) (l : Loaded)
    (h : (loadParts L m parts).2 = .ok l)
    (hb : parts &&& HEADER > 0 ∨ parts &&& DATE > 0) : ∃ mi, l.header = some mi := by
  unfold loadParts at h
  obtain ⟨flags, -, h⟩ := Traced.andThen_ok _ _ _ h
  obtain ⟨header, hh, h⟩ := Traced.andThen_ok _ _ _ h
  obtain ⟨body, -, h⟩ := Traced.andThen_ok _ _ _ h
  obtain ⟨all, -, h⟩ := Traced.andThen_ok _ _ _ h
  simp only [Except.ok.injEq] at h
  subst h
  unfold loadHeader at hh
  have hb' : (decide (parts &&& HEADER > 0) || decide (parts &&& DATE > 0)) = true := by
    simpa using hb
  rw [if_pos hb'] at hh
  rcases hmi : m.MessageInfo with e | mi
  · rw [hmi] at hh; cases hh
  · rw [hmi] at hh
    simp only [Except.map, Except.ok.injEq] at hh
    exact ⟨mi, hh.symm⟩

theorem searchKey_no_panic (L : Lib) (w : Worker) (key : UID) (c : searchCriteria) :
    (searchKey L w key c (getRequiredParts c)).2 ≠ .panic := by
  rcases hm : w.Message key with e | m
  · simp [searchKey, hm]
  · rcases hlp : loadParts L m (getRequiredParts c) with ⟨trace, r⟩
    rcases r with e | l
    · simp [searchKey, hm, hlp]
    · rw [searchKey_of_loaded L w key c _ m l hm (by rw [hlp])]
      obtain ⟨bH, bD, -, -, -, -⟩ := getRequiredParts_bits c
      simp only [← Nat.pos_iff_ne_zero] at bH bD
      have hl : (loadParts L m (getRequiredParts c)).2 = .ok l := by rw [hlp]
      have hheader : c.Header ≠ [] ∨ getRequiredParts c &&& DATE > 0 →
          ∃ mi, l.header = some mi := fun h =>
        loadParts_header L m _ l hl (h.imp bH.2 id)
      by_cases hneed : c.Header ≠ [] ∨ getRequiredParts c &&& DATE > 0
      · obtain ⟨mi, hmi⟩ := hheader hneed
        obtain ⟨b, hb, -⟩ := matchCriteria_spec L.unicode c (getRequiredParts c) l l.flags mi
          l.body l.all bD (fun _ => hmi) (fun _ => rfl) (fun _ => rfl) (fun _ => rfl)
        rw [hb]; simp
      · obtain ⟨b, hb, -⟩ := matchCriteria_spec L.unicode c (getRequiredParts c) l l.flags
          ⟨⟨fun _ => [], .error ""⟩, .mk [] []⟩
          l.body l.all bD (fun h => absurd h hneed) (fun _ => rfl) (fun _ => rfl)
          (fun _ => rfl)
        rw [hb]; simp

theorem searchKey_withFlagOnly (L : Lib) (w : Worker) (key : UID) (f : Flag) (m : Message)
    (flags : List Flag) (hm : w.Message key = .ok m) (hf : m.Flags = .ok flags) :
    (searchKey L w key (withFlagOnly f) (getRequiredParts (withFlagOnly f))).2 =
      .ok (decide (f ∈ flags)) := by
  have hparts : getRequiredParts (withFlagOnly f) = FLAGS := by
    simp [getRequiredParts, withFlagOnly, searchCriteria.empty, Time.IsZero, NONE]
  rw [hparts]
  have hload : (loadParts L m FLAGS).2 = .ok ⟨flags, none, [], []⟩ := by
    simp [loadParts, loadFlags, loadHeader, loadBody, loadAll, Traced.andThen, hf, FLAGS,
      HEADER, DATE, BODY, ALL]
  rw [searchKey_of_loaded L w key _ FLAGS m _ hm hload]
  by_cases hmem : f ∈ flags
  · have := (containsFlag_iff flags f).2 hmem
    simp [matchCriteria, matchHeader, matchDate, withFlagOnly, searchCriteria.empty, this,
      hmem, FLAGS, DATE]
  · have : containsFlag flags f = false := by
      rw [← Bool.not_eq_true, containsFlag_iff]; exact hmem
    simp [matchCriteria, matchHeader, withFlagOnly, searchCriteria.empty, this, hmem]

/-! ### The search as a whole -/

/-- C5. In `Worker.search` a per-candidate failure never aborts the search: when
the UID listing succeeds the call returns a nil error and the returned UIDs
are, as a set, the listed keys for which `searchKey` returns `(true, nil)`, so
a key whose `searchKey` fails is left out; the call returns an error exactly
when the listing fails, and then it is the error of the listing. -/
theorem search_tolerates_candidate_failures (L : Lib) (w : Worker) (numCPU : Nat)
    (sched : List Nat) (c : searchCriteria) (hcpu : 0 < numCPU) :
    (∀ keys, w.UIDs = .ok keys →
      ∃ uids, search L w numCPU sched c = some (.ok uids) ∧
        (∀ uid, uid ∈ uids ↔
          uid ∈ keys ∧ (searchKey L w uid c (getRequiredParts c)).2 = .ok true) ∧
        ∀ uid e, (searchKey L w uid c (getRequiredParts c)).2 = .err e → uid ∉ uids) ∧
    (∀ e, search L w numCPU sched c = some (.err e) ↔ w.UIDs = .error e) := by
  constructor
  · intro keys hkeys
    obtain ⟨uids, hs, hperm⟩ := poolSearch_perm (numCPU * 2) (by omega)
      (fun key => (searchKey L w key c (getRequiredParts c)).2)
      (fun key => searchKey_no_panic L w key c) sched keys
    have hmem : ∀ uid, uid ∈ uids ↔
        uid ∈ keys ∧ (searchKey L w uid c (getRequiredParts c)).2 = .ok true := by
      intro uid
      rw [hperm.mem_iff, mem_sequentialScan]
    refine ⟨uids, ?_, hmem, ?_⟩
    · simp only [search, hkeys]
      exact hs
    · intro uid e he hin
      have := ((hmem uid).1 hin).2
      rw [he] at this
      cases this
  · intro e
    rcases hkeys : w.UIDs with e' | keys
    · simp [search, hkeys]
    · obtain ⟨uids, hs, -⟩ := poolSearch_perm (numCPU * 2) (by omega)
        (fun key => (searchKey L w key c (getRequiredParts c)).2)
        (fun key => searchKey_no_panic L w key c) sched keys
      simp only [search, hkeys]
      rw [hs]
      simp

/-- Witness of C5: on a machine with one processor, the sample mailbox under
the criteria "seen, subject contains hello, date not before 5" returns UID 2,
and a mailbox whose listing fails returns the error of the listing. -/
theorem search_tolerates_candidate_failures_witness :
    (0 < 1) ∧
    search sampleLib sampleWorker 1 [0, 0, 1] seenHelloSinceFive = some (.ok [2]) ∧
    (∃ uids, search sampleLib sampleWorker 1 [0, 0, 1] seenHelloSinceFive = some (.ok uids) ∧
      (∀ uid, uid ∈ uids ↔
        uid ∈ [1, 2, 3] ∧
          (searchKey sampleLib sampleWorker uid seenHelloSinceFive
            (getRequiredParts seenHelloSinceFive)).2 = .ok true) ∧
      ∀ uid e, (searchKey sampleLib sampleWorker uid seenHelloSinceFive
          (getRequiredParts seenHelloSinceFive)).2 = .err e → uid ∉ uids) ∧
    search sampleLib unlistableWorker 1 [] seenHelloSinceFive =
      some (.err "no such directory") :=
  ⟨by decide, by decide,
    (search_tolerates_candidate_failures sampleLib sampleWorker 1 [0, 0, 1]
      seenHelloSinceFive (by decide)).1 [1, 2, 3] rfl,
    ((search_tolerates_candidate_failures sampleLib unlistableWorker 1 []
      seenHelloSinceFive (by decide)).2 "no such directory").2 rfl⟩

/-- C6. For a mailbox with duplicate-free UIDs whose messages and flags load
without error, the search whose only criterion is `WithFlags = [f]` returns the
UIDs of the messages whose flags contain `f`, each exactly once. -/
theorem search_withFlag (L : Lib) (w : Worker) (numCPU : Nat) (sched : List Nat) (f : Flag)
    (keys : List UID) (flagsOf : UID → List Flag) (hcpu : 0 < numCPU)
    (hkeys : w.UIDs = .ok keys) (hnodup : keys.Nodup)
    (hload : ∀ key ∈ keys, ∃ m, w.Message key = .ok m ∧ m.Flags = .ok (flagsOf key)) :
    ∃ uids, search L w numCPU sched (withFlagOnly f) = some (.ok uids) ∧
      uids.Perm (keys.filter fun key => decide (f ∈ flagsOf key)) ∧
      uids.Nodup ∧
      ∀ uid, uid ∈ uids ↔ uid ∈ keys ∧ f ∈ flagsOf uid := by
  obtain ⟨uids, hs, hperm⟩ := poolSearch_perm (numCPU * 2) (by omega)
    (fun key => (searchKey L w key (withFlagOnly f) (getRequiredParts (withFlagOnly f))).2)
    (fun key => searchKey_no_panic L w key (withFlagOnly f)) sched keys
  have hscan : sequentialScan
      (fun key => (searchKey L w key (withFlagOnly f) (getRequiredParts (withFlagOnly f))).2)
      keys = keys.filter fun key => decide (f ∈ flagsOf key) := by
    unfold sequentialScan
    apply List.filter_congr
    intro key hkey
    obtain ⟨m, hm, hf⟩ := hload key hkey
    have hkeyres := searchKey_withFlagOnly L w key f m (flagsOf key) hm hf
    simp only [hkeyres]
    by_cases hmem : f ∈ flagsOf key <;> simp [hmem]
  rw [hscan] at hperm
  refine ⟨uids, ?_, hperm, ?_, ?_⟩
  · simp only [search, hkeys]
    exact hs
  · exact hperm.nodup_iff.2 (hnodup.filter _)
  · intro uid
    rw [hperm.mem_iff]
    simp

/-- Witness of C6: UIDs 1, 2, 3, `WithFlags = [Seen]`, only UID 2 has `Seen`:
the search returns exactly UID 2. -/
theorem search_withFlag_witness :
    sampleWorker.UIDs = .ok [1, 2, 3] ∧
    search sampleLib sampleWorker 1 [0, 0, 1] (withFlagOnly FlagSeen) = some (.ok [2]) := by
  refine ⟨rfl, ?_⟩
  obtain ⟨uids, hs, hperm, -, -⟩ := search_withFlag sampleLib sampleWorker 1 [0, 0, 1]
    FlagSeen [1, 2, 3]
    (fun key => if key = 2 then [FlagSeen] else []) (by decide) rfl (by decide)
    (by
      intro key hkey
      simp only [List.mem_cons, List.mem_singleton, List.not_mem_nil, or_false] at hkey
      rcases hkey with rfl | rfl | rfl
      · exact ⟨_, rfl, rfl⟩
      · exact ⟨_, rfl, rfl⟩
      · exact ⟨_, rfl, rfl⟩)
  have huids : uids = [2] := List.perm_singleton.1 hperm
  rw [hs, huids]

/-- C8. For every list of candidate keys, every assignment of per-key outcomes
(match, no match, I/O failure), every number of processors and every schedule
of the goroutines, the pool of capacity twice the number of processors
terminates and returns the UIDs of the sequential scan, each as often; so two
pool widths return the same UIDs. -/
theorem pool_width_irrelevant (numCPU numCPU' : Nat) (outcome : UID → Except Err Bool)
    (sched sched' : List Nat) (keys : List UID) (hcpu : 0 < numCPU) (hcpu' : 0 < numCPU') :
    ∃ uids uids',
      poolSearch (numCPU * 2) (fun key => Result.ofExcept (outcome key)) sched keys =
        some (.ok uids) ∧
      poolSearch (numCPU' * 2) (fun key => Result.ofExcept (outcome key)) sched' keys =
        some (.ok uids') ∧
      uids.Perm (sequentialScan (fun key => Result.ofExcept (outcome key)) keys) ∧
      uids.Perm uids' ∧
      (∀ uid, uid ∈ uids ↔ uid ∈ keys ∧ outcome uid = .ok true) ∧
      (∀ uid, uid ∈ uids ↔ uid ∈ uids') := by
  have hnp : ∀ key, Result.ofExcept (outcome key) ≠ .panic := by
    intro key
    cases outcome key <;> simp [Result.ofExcept]
  obtain ⟨uids, hs, hperm⟩ := poolSearch_perm (numCPU * 2) (by omega) _ hnp sched keys
  obtain ⟨uids', hs', hperm'⟩ := poolSearch_perm (numCPU' * 2) (by omega) _ hnp sched' keys
  refine ⟨uids, uids', hs, hs', hperm, hperm.trans hperm'.symm, ?_,
    fun uid => (hperm.trans hperm'.symm).mem_iff⟩
  intro uid
  rw [hperm.mem_iff, mem_sequentialScan]
  cases h : outcome uid <;> simp [Result.ofExcept]

/-- Witness of C8: five candidates on one processor (pool width two) and on two
processors (pool width four), where key 3 fails and the even keys match: two
schedules collect the matches in different orders, and both are the sequential
result `[2, 4]` up to order. -/
theorem pool_width_irrelevant_witness :
    poolSearch (1 * 2) (fun key => Result.ofExcept (sampleOutcome key)) [] [1, 2, 3, 4, 5] =
      some (.ok [2, 4]) ∧
    poolSearch (2 * 2) (fun key => Result.ofExcept (sampleOutcome key))
      [0, 0, 0, 0, 3, 0, 0, 0, 0, 0] [1, 2, 3, 4, 5] = some (.ok [4, 2]) ∧
    sequentialScan (fun key => Result.ofExcept (sampleOutcome key)) [1, 2, 3, 4, 5] = [2, 4] ∧
    ∃ uids uids',
      poolSearch (1 * 2) (fun key => Result.ofExcept (sampleOutcome key)) [] [1, 2, 3, 4, 5] =
        some (.ok uids) ∧
      poolSearch (2 * 2) (fun key => Result.ofExcept (sampleOutcome key))
        [0, 0, 0, 0, 3, 0, 0, 0, 0, 0] [1, 2, 3, 4, 5] = some (.ok uids') ∧
      uids.Perm (sequentialScan (fun key => Result.ofExcept (sampleOutcome key))
        [1, 2, 3, 4, 5]) ∧
      uids.Perm uids' ∧
      (∀ uid, uid ∈ uids ↔ uid ∈ [1, 2, 3, 4, 5] ∧ sampleOutcome uid = .ok true) ∧
      (∀ uid, uid ∈ uids ↔ uid ∈ uids') :=
  ⟨by decide, by decide, by decide,
    pool_width_irrelevant 1 2 sampleOutcome [] [0, 0, 0, 0, 3, 0, 0, 0, 0, 0] [1, 2, 3, 4, 5]
      (by decide) (by decide)⟩

/-! ### The export loop -/

theorem fetchesOf_append (l₁ l₂ : List ExportEvent) :
    fetchesOf (l₁ ++ l₂) = fetchesOf l₁ ++ fetchesOf l₂ := by
  simp [fetchesOf]

theorem writesOf_append (l₁ l₂ : List ExportEvent) :
    writesOf (l₁ ++ l₂) = writesOf l₁ ++ writesOf l₂ := by
  simp [writesOf]

theorem foldl_onStreamMessage_retries (msgs : List StreamMessage) (st : ExportState) :
    (msgs.foldl onStreamMessage st).retries = st.retries := by
  induction msgs generalizing st with
  | nil => rfl
  | cons msg rest ih =>
    rw [List.foldl_cons, ih]
    cases msg <;> rfl

theorem foldl_onStreamMessage_fetches (msgs : List StreamMessage) (st : ExportState) :
    fetchesOf (msgs.foldl onStreamMessage st).log = fetchesOf st.log := by
  induction msgs generalizing st with
  | nil => rfl
  | cons msg rest ih =>
    rw [List.foldl_cons, ih]
    cases msg
    · simp [onStreamMessage, fetchesOf]
    · rfl

theorem sleepBeforeRetry_retries (st : ExportState) :
    (sleepBeforeRetry st).retries = st.retries := by
  unfold sleepBeforeRetry
  split <;> rfl

theorem sleepBeforeRetry_uids (st : ExportState) :
    (sleepBeforeRetry st).uids = st.uids := by
  unfold sleepBeforeRetry
  split <;> rfl

theorem sleepBeforeRetry_fetches (st : ExportState) :
    fetchesOf (sleepBeforeRetry st).log = fetchesOf st.log := by
  unfold sleepBeforeRetry
  split
  · simp [fetchesOf]
  · rfl

theorem fetchRound_retries (B : Backend) (st : ExportState) :
    (fetchRound B st).1.retries = st.retries := by
  simp [fetchRound, foldl_onStreamMessage_retries]

theorem fetchRound_fetches (B : Backend) (st : ExportState) :
    fetchesOf (fetchRound B st).1.log = fetchesOf st.log ++ [st.uids] := by
  unfold fetchRound
  simp only
  rw [foldl_onStreamMessage_fetches, fetchesOf_append]
  rfl

theorem fetchRound_terminal (B : Backend) (st : ExportState) :
    (fetchRound B st).2 = (B st.retries st.uids).terminal := rfl

theorem exportLoop_total (B : Backend) :
    ∀ (fuel : Nat) (st : ExportState), st.retries + fuel = 12 → 0 < fuel →
      ∃ r, exportLoop B fuel st = some r ∧
        (fetchesOf r.1.log).length + 1 ≤ (fetchesOf st.log).length + fuel := by
  intro fuel
  induction fuel with
  | zero => intro st _ h; omega
  | succ fuel ih =>
    intro st hsum _
    rw [exportLoop]
    by_cases hne : st.uids.length > 0
    · rw [if_pos hne]
      by_cases hmany : st.retries > 0 ∧ st.retries > 10
      · rw [if_pos hmany]
        exact ⟨_, rfl, by simp [fetchesOf_append, fetchesOf]⟩
      · rw [if_neg hmany]
        have hfuel : 0 < fuel := by omega
        have hr := fetchRound_retries B (sleepBeforeRetry st)
        have hf := fetchRound_fetches B (sleepBeforeRetry st)
        rw [sleepBeforeRetry_retries] at hr
        rw [sleepBeforeRetry_fetches] at hf
        rcases hround : fetchRound B (sleepBeforeRetry st) with ⟨st', t⟩
        rw [hround] at hr hf
        simp only at hr hf
        have hlen : (fetchesOf st'.log).length = (fetchesOf st.log).length + 1 := by
          rw [hf]; simp
        cases t with
        | Done => exact ⟨_, rfl, by simp only [hlen]; omega⟩
        | Unsupported => exact ⟨_, rfl, by simp only [hlen]; omega⟩
        | Error e =>
          simp only
          obtain ⟨r, hrun, hle⟩ := ih
            { st' with log := st'.log ++ [ExportEvent.PushErrorFetch e],
                       retries := st'.retries + 1 }
            (by simp only [hr]; omega) hfuel
          refine ⟨r, hrun, ?_⟩
          have hpush : fetchesOf (st'.log ++ [ExportEvent.PushErrorFetch e]) =
              fetchesOf st'.log := by
            rw [fetchesOf_append]; simp [fetchesOf]
          simp only [hpush, hlen] at hle
          omega
    · rw [if_neg hne]
      exact ⟨_, rfl, by simp only; omega⟩

theorem exportLoop_exhausted (B : Backend)
    (hErr : ∀ n uids, n < 11 → ∃ e, (B n uids).terminal = .Error e) :
    ∀ (fuel : Nat) (st : ExportState) (r : ExportState × LoopEnd),
      st.retries + fuel = 12 → exportLoop B fuel st = some r → r.1.uids ≠ [] →
      r.2 = .Finished ∧ r.1.retries = 11 ∧
        (fetchesOf r.1.log).length + 1 = (fetchesOf st.log).length + fuel ∧
        ∃ pre, r.1.log = pre ++ [ExportEvent.PushErrorTooManyRetries 11] := by
  intro fuel
  induction fuel with
  | zero =>
    intro st r _ hrun
    simp [exportLoop] at hrun
  | succ fuel ih =>
    intro st r hsum hrun hfinal
    rw [exportLoop] at hrun
    by_cases hne : st.uids.length > 0
    · rw [if_pos hne] at hrun
      by_cases hmany : st.retries > 0 ∧ st.retries > 10
      · rw [if_pos hmany] at hrun
        have h11 : st.retries = 11 := by omega
        have hfuel : fuel = 0 := by omega
        simp only [Option.some.injEq] at hrun
        subst hrun
        refine ⟨rfl, h11, ?_, st.log, by simp [h11]⟩
        simp [fetchesOf_append, fetchesOf, hfuel]
      · rw [if_neg hmany] at hrun
        have hlt : st.retries < 11 := by omega
        have hr := fetchRound_retries B (sleepBeforeRetry st)
        have hf := fetchRound_fetches B (sleepBeforeRetry st)
        have ht := fetchRound_terminal B (sleepBeforeRetry st)
        rw [sleepBeforeRetry_retries] at hr ht
        rw [sleepBeforeRetry_fetches] at hf
        obtain ⟨e, he⟩ := hErr st.retries (sleepBeforeRetry st).uids hlt
        rw [he] at ht
        rcases hround : fetchRound B (sleepBeforeRetry st) with ⟨st', t⟩
        rw [hround] at hr hf ht
        simp only at hr hf ht
        subst ht
        rw [hround] at hrun
        simp only at hrun
        have hlen : (fetchesOf st'.log).length = (fetchesOf st.log).length + 1 := by
          rw [hf]; simp
        have hpush : fetchesOf (st'.log ++ [ExportEvent.PushErrorFetch e]) =
            fetchesOf st'.log := by
          rw [fetchesOf_append]; simp [fetchesOf]
        obtain ⟨h1, h2, h3, h4⟩ := ih _ r (by simp only [hr]; omega) hrun hfinal
        refine ⟨h1, h2, ?_, h4⟩
        simp only [hpush, hlen] at h3
        omega
    · rw [if_neg hne] at hrun
      simp only [Option.some.injEq] at hrun
      subst hrun
      have hnil : st.uids = [] := List.eq_nil_of_length_eq_zero (by omega)
      exact absurd hnil hfinal

/-- C9. For every backend behaviour one run of the export loop ends (or waits
for a terminal message) after at most 11 `FetchFullMessages` actions; if the
first 11 fetches each end with `Error` and the working set stays non-empty,
exactly 11 fetches are issued and no 12th, and the run ends with the "too many
retries: 11" error followed by the "Exported x of y" status. -/
theorem export_retry_cap (B : Backend) (storeUids : List UID) (storeLenAtEnd : Nat) :
    ∃ r, exportRun B storeUids storeLenAtEnd = some r ∧
      (fetchesOf r.1.log).length ≤ 11 ∧
      ((∀ n uids, n < 11 → ∃ e, (B n uids).terminal = .Error e) → r.1.uids ≠ [] →
        r.2 = .Finished ∧ (fetchesOf r.1.log).length = 11 ∧ r.1.retries = 11 ∧
        ∃ pre, r.1.log = pre ++
          [ExportEvent.PushErrorTooManyRetries 11,
            ExportEvent.PushStatus r.1.ctr storeLenAtEnd]) := by
  obtain ⟨r0, hrun, hle⟩ := exportLoop_total B 12 ⟨storeUids, 0, 0, []⟩ rfl (by decide)
  have hle' : (fetchesOf r0.1.log).length ≤ 11 := by
    simp only [fetchesOf, List.filterMap_nil, List.length_nil] at hle
    simp only [fetchesOf]
    omega
  obtain ⟨st, fin⟩ := r0
  cases fin with
  | Blocked =>
    refine ⟨(st, .Blocked), by simp [exportRun, hrun], hle', fun hErr hfinal => ?_⟩
    have := (exportLoop_exhausted B hErr 12 _ _ rfl hrun hfinal).1
    cases this
  | Finished =>
    refine ⟨({ st with log := st.log ++ [ExportEvent.PushStatus st.ctr storeLenAtEnd] },
      .Finished), by simp [exportRun, hrun], ?_, fun hErr hfinal => ?_⟩
    · rw [fetchesOf_append]
      simpa [fetchesOf] using hle'
    · obtain ⟨-, h2, h3, pre, h4⟩ := exportLoop_exhausted B hErr 12 _ _ rfl hrun hfinal
      refine ⟨rfl, ?_, h2, pre, ?_⟩
      · simp only [fetchesOf_append]
        simp only [fetchesOf, List.filterMap_nil, List.length_nil, List.filterMap_cons,
          List.append_nil] at h3 ⊢
        omega
      · simp only at h4 ⊢
        rw [h4]
        simp

/-- Witness of C9: against a backend that fails every fetch, the export of the
UIDs 1 and 2 issues 11 fetches, then reports too many retries and the status
"Exported 0 of 2". -/
theorem export_retry_cap_witness :
    (∃ st, exportRun failingBackend [1, 2] 2 = some (st, .Finished) ∧
      fetchesOf st.log = List.replicate 11 [1, 2] ∧
      st.log.drop (st.log.length - 2) =
        [ExportEvent.PushErrorTooManyRetries 11, ExportEvent.PushStatus 0 2]) ∧
    ∃ r, exportRun failingBackend [1, 2] 2 = some r ∧
      (fetchesOf r.1.log).length ≤ 11 ∧
      ((∀ n uids, n < 11 → ∃ e, (failingBackend n uids).terminal = .Error e) →
        r.1.uids ≠ [] →
        r.2 = .Finished ∧ (fetchesOf r.1.log).length = 11 ∧ r.1.retries = 11 ∧
        ∃ pre, r.1.log = pre ++
          [ExportEvent.PushErrorTooManyRetries 11, ExportEvent.PushStatus r.1.ctr 2]) :=
  ⟨⟨_, rfl, by decide, by decide⟩, export_retry_cap failingBackend [1, 2] 2⟩

theorem removeUid_eq_erase (uids : List UID) (target : UID) :
    removeUid uids target = uids.erase target := by
  induction uids with
  | nil => rfl
  | cons uid rest ih =>
    by_cases h : uid = target
    · simp [removeUid, h]
    · simp [removeUid, h, ih, List.erase_cons]

theorem onStreamMessage_sublist (st : ExportState) (msg : StreamMessage) :
    (onStreamMessage st msg).uids.Sublist st.uids := by
  cases msg with
  | FullMessage uid ok =>
    simp only [onStreamMessage, removeUid_eq_erase]
    exact List.erase_sublist _ _
  | Other => exact List.Sublist.refl _

theorem foldl_onStreamMessage_sublist (msgs : List StreamMessage) (st : ExportState) :
    (msgs.foldl onStreamMessage st).uids.Sublist st.uids := by
  induction msgs generalizing st with
  | nil => exact List.Sublist.refl _
  | cons msg rest ih =>
    rw [List.foldl_cons]
    exact (ih _).trans (onStreamMessage_sublist st msg)

theorem fetchRound_sublist (B : Backend) (st : ExportState) :
    (fetchRound B st).1.uids.Sublist st.uids := by
  unfold fetchRound
  exact foldl_onStreamMessage_sublist _ _

theorem exportLoop_sublist (B : Backend) :
    ∀ (fuel : Nat) (st : ExportState) (r : ExportState × LoopEnd),
      exportLoop B fuel st = some r → r.1.uids.Sublist st.uids := by
  intro fuel
  induction fuel with
  | zero => intro st r hrun; simp [exportLoop] at hrun
  | succ fuel ih =>
    intro st r hrun
    rw [exportLoop] at hrun
    by_cases hne : st.uids.length > 0
    · rw [if_pos hne] at hrun
      by_cases hmany : st.retries > 0 ∧ st.retries > 10
      · rw [if_pos hmany] at hrun
        simp only [Option.some.injEq] at hrun
        subst hrun
        exact List.Sublist.refl _
      · rw [if_neg hmany] at hrun
        have hs := fetchRound_sublist B (sleepBeforeRetry st)
        rw [sleepBeforeRetry_uids] at hs
        rcases hround : fetchRound B (sleepBeforeRetry st) with ⟨st', t⟩
        rw [hround] at hs hrun
        simp only at hs
        cases t with
        | Done =>
          simp only [Option.some.injEq] at hrun
          subst hrun
          exact hs
        | Unsupported =>
          simp only [Option.some.injEq] at hrun
          subst hrun
          exact hs
        | Error e =>
          simp only at hrun
          exact (ih _ r hrun).trans hs
    · rw [if_neg hne] at hrun
      simp only [Option.some.injEq] at hrun
      subst hrun
      exact List.Sublist.refl _

theorem exportRun_uids (B : Backend) (storeUids : List UID) (storeLenAtEnd : Nat)
    (r : ExportState × LoopEnd) (hrun : exportRun B storeUids storeLenAtEnd = some r) :
    ∃ r0, exportLoop B 12 ⟨storeUids, 0, 0, []⟩ = some r0 ∧ r.1.uids = r0.1.uids ∧
      writesOf r.1.log = writesOf r0.1.log ∧ fetchesOf r.1.log = fetchesOf r0.1.log := by
  unfold exportRun at hrun
  rcases hloop : exportLoop B 12 ⟨storeUids, 0, 0, []⟩ with _ | ⟨st, fin⟩
  · rw [hloop] at hrun; cases hrun
  · rw [hloop] at hrun
    cases fin with
    | Blocked =>
      simp only [Option.some.injEq] at hrun
      subst hrun
      exact ⟨_, rfl, rfl, rfl, rfl⟩
    | Finished =>
      simp only [Option.some.injEq] at hrun
      subst hrun
      refine ⟨_, rfl, rfl, ?_, ?_⟩
      · simp [writesOf_append, writesOf]
      · simp [fetchesOf_append, fetchesOf]

theorem sleepBeforeRetry_writes (st : ExportState) :
    writesOf (sleepBeforeRetry st).log = writesOf st.log := by
  unfold sleepBeforeRetry
  split
  · simp [writesOf]
  · rfl

theorem exportLoop_invariant (B : Backend) (P : ExportState → Prop)
    (hother : ∀ st st' : ExportState, st'.uids = st.uids →
      writesOf st'.log = writesOf st.log → fetchesOf st'.log = fetchesOf st.log →
      P st → P st')
    (hfetch : ∀ st, P st → P (fetchRound B st).1) :
    ∀ (fuel : Nat) (st : ExportState) (r : ExportState × LoopEnd),
      P st → exportLoop B fuel st = some r → P r.1 := by
  intro fuel
  induction fuel with
  | zero => intro st r _ hrun; simp [exportLoop] at hrun
  | succ fuel ih =>
    intro st r hP hrun
    rw [exportLoop] at hrun
    by_cases hne : st.uids.length > 0
    · rw [if_pos hne] at hrun
      by_cases hmany : st.retries > 0 ∧ st.retries > 10
      · rw [if_pos hmany] at hrun
        simp only [Option.some.injEq] at hrun
        subst hrun
        exact hother st _ rfl (by simp [writesOf]) (by simp [fetchesOf]) hP
      · rw [if_neg hmany] at hrun
        have hP' : P (fetchRound B (sleepBeforeRetry st)).1 :=
          hfetch _ (hother st _ (sleepBeforeRetry_uids st) (sleepBeforeRetry_writes st)
            (sleepBeforeRetry_fetches st) hP)
        rcases hround : fetchRound B (sleepBeforeRetry st) with ⟨st', t⟩
        rw [hround] at hP' hrun
        simp only at hP'
        cases t with
        | Done =>
          simp only [Option.some.injEq] at hrun
          subst hrun
          exact hP'
        | Unsupported =>
          simp only [Option.some.injEq] at hrun
          subst hrun
          exact hP'
        | Error e =>
          simp only at hrun
          refine ih _ r ?_ hrun
          exact hother st' _ rfl (by simp [writesOf]) (by simp [fetchesOf]) hP'
    · rw [if_neg hne] at hrun
      simp only [Option.some.injEq] at hrun
      subst hrun
      exact hP

theorem foldl_onStreamMessage_writeInv (msgs : List StreamMessage) :
    ∀ st : ExportState, WriteInv st → (fullMessageUids msgs).Nodup →
      (∀ uid ∈ fullMessageUids msgs, uid ∈ st.uids) →
      WriteInv (msgs.foldl onStreamMessage st) := by
  induction msgs with
  | nil => intro st h _ _; exact h
  | cons msg rest ih =>
    intro st hinv hnd hmem
    rw [List.foldl_cons]
    cases msg with
    | Other =>
      exact ih st hinv (by simpa [fullMessageUids] using hnd)
        (by simpa [fullMessageUids] using hmem)
    | FullMessage uid ok =>
      have hnd' : uid ∉ fullMessageUids rest ∧ (fullMessageUids rest).Nodup := by
        simpa [fullMessageUids] using hnd
      have hmem' : uid ∈ st.uids ∧ ∀ v ∈ fullMessageUids rest, v ∈ st.uids := by
        simpa [fullMessageUids] using hmem
      obtain ⟨hu, hw, hdis⟩ := hinv
      apply ih _ _ hnd'.2
      · intro v hv
        simp only [onStreamMessage, removeUid_eq_erase]
        have hne : v ≠ uid := fun h => hnd'.1 (h ▸ hv)
        exact (List.mem_erase_of_ne hne).2 (hmem'.2 v hv)
      · refine ⟨?_, ?_, ?_⟩
        · simp only [onStreamMessage, removeUid_eq_erase]
          exact hu.erase _
        · simp only [onStreamMessage, writesOf_append]
          have hnot : uid ∉ writesOf st.log := fun h => hdis uid h hmem'.1
          have hone : writesOf [ExportEvent.Write uid ok] = [uid] := rfl
          rw [hone, List.nodup_append]
          refine ⟨hw, List.nodup_singleton _, ?_⟩
          intro v hv hv'
          rw [List.mem_singleton.1 hv'] at hv
          exact hnot hv
        · intro v hv
          simp only [onStreamMessage, writesOf_append, removeUid_eq_erase] at hv ⊢
          rcases List.mem_append.1 hv with hv | hv
          · exact fun h => hdis v hv (List.mem_of_mem_erase h)
          · have hone : writesOf [ExportEvent.Write uid ok] = [uid] := rfl
            rw [hone] at hv
            rw [List.mem_singleton.1 hv]
            exact hu.not_mem_erase

theorem fetchRound_writeInv (B : Backend) (hB : WellBehaved B) (st : ExportState)
    (hinv : WriteInv st) : WriteInv (fetchRound B st).1 := by
  obtain ⟨hnd, hmem⟩ := hB st.retries st.uids
  obtain ⟨hu, hw, hdis⟩ := hinv
  have hone : writesOf (st.log ++ [ExportEvent.Fetch st.uids]) = writesOf st.log := by
    rw [writesOf_append]
    exact List.append_nil _
  refine foldl_onStreamMessage_writeInv (B st.retries st.uids).streamed
    { st with log := st.log ++ [ExportEvent.Fetch st.uids] } ⟨hu, ?_, ?_⟩ hnd hmem
  · simp only [hone]; exact hw
  · intro v hv
    simp only [hone] at hv
    exact hdis v hv

theorem fetchRound_fetchInv (B : Backend) (st : ExportState) (hinv : FetchInv st) :
    FetchInv (fetchRound B st).1 := by
  obtain ⟨hsub, hpair⟩ := hinv
  have hs := fetchRound_sublist B st
  have hf := fetchRound_fetches B st
  refine ⟨?_, ?_⟩
  · intro uids huids
    rw [hf] at huids
    rcases List.mem_append.1 huids with h | h
    · exact hs.trans (hsub uids h)
    · rw [List.mem_singleton.1 h]; exact hs
  · rw [hf, List.pairwise_append]
    refine ⟨hpair, List.pairwise_singleton _ _, ?_⟩
    intro earlier hearlier later hlater
    rw [List.mem_singleton.1 hlater]
    exact hsub earlier hearlier

theorem fetchRound_within (B : Backend) (S : List UID) (st : ExportState)
    (h : st.uids.Sublist S ∧ ∀ uids ∈ fetchesOf st.log, uids.Sublist S) :
    (fetchRound B st).1.uids.Sublist S ∧
      ∀ uids ∈ fetchesOf (fetchRound B st).1.log, uids.Sublist S := by
  refine ⟨(fetchRound_sublist B st).trans h.1, ?_⟩
  intro uids huids
  rw [fetchRound_fetches] at huids
  rcases List.mem_append.1 huids with h' | h'
  · exact h.2 uids h'
  · rw [List.mem_singleton.1 h']; exact h.1

theorem oneAtATimeBackend_wellBehaved : WellBehaved oneAtATimeBackend := by
  intro n uids
  have hfm : fullMessageUids (oneAtATimeBackend n uids).streamed = uids.take 1 := by
    simp only [oneAtATimeBackend, fullMessageUids, List.filterMap_map]
    cases uids <;> simp
  rw [hfm]
  constructor
  · cases uids <;> simp
  · intro uid huid
    exact List.mem_of_mem_take huid

/-- C10. In one export run, every worker message leaves a working set that is a
sub-list of the one before it: a `FullMessage` cuts the first occurrence of its
UID out (for a UID of a duplicate-free working set, exactly that UID, the others
keeping their order), other messages change nothing; the UID lists of the
successive fetches only shrink, within the UIDs of the start; and when the UID
list is duplicate-free and every fetch streams at most one `FullMessage` per
requested UID and only requested UIDs, no UID is written twice over the whole
run, retries included. -/
theorem export_invariant (B : Backend) (storeUids : List UID) (storeLenAtEnd : Nat) :
    (∀ (st : ExportState) (msg : StreamMessage),
      (onStreamMessage st msg).uids.Sublist st.uids) ∧
    (∀ (st : ExportState) (uid : UID) (ok : Bool),
      (onStreamMessage st (.FullMessage uid ok)).uids = st.uids.erase uid ∧
      (uid ∈ st.uids →
        st.uids.Perm (uid :: (onStreamMessage st (.FullMessage uid ok)).uids)) ∧
      (st.uids.Nodup →
        (onStreamMessage st (.FullMessage uid ok)).uids =
          st.uids.filter fun other => other != uid)) ∧
    (∀ r, exportRun B storeUids storeLenAtEnd = some r →
      r.1.uids.Sublist storeUids ∧
      (∀ uids ∈ fetchesOf r.1.log, uids.Sublist storeUids ∧ r.1.uids.Sublist uids) ∧
      (fetchesOf r.1.log).Pairwise (fun earlier later => later.Sublist earlier) ∧
      (storeUids.Nodup → WellBehaved B → (writesOf r.1.log).Nodup)) := by
  refine ⟨onStreamMessage_sublist, fun st uid ok => ⟨?_, fun hmem => ?_, fun hnd => ?_⟩,
    fun r hrun => ?_⟩
  · simp only [onStreamMessage, removeUid_eq_erase]
  · simp only [onStreamMessage, removeUid_eq_erase]
    exact List.perm_cons_erase hmem
  · simp only [onStreamMessage, removeUid_eq_erase]
    exact hnd.erase_eq_filter uid
  · obtain ⟨r0, hloop, huids, hwrites, hfetches⟩ :=
      exportRun_uids B storeUids storeLenAtEnd r hrun
    rw [huids, hwrites, hfetches]
    have hwithin := exportLoop_invariant B
      (fun st => st.uids.Sublist storeUids ∧ ∀ uids ∈ fetchesOf st.log, uids.Sublist storeUids)
      (fun st st' hu _ hf h => by simp only [hu, hf]; exact h)
      (fun st h => fetchRound_within B storeUids st h)
      12 ⟨storeUids, 0, 0, []⟩ r0 ⟨List.Sublist.refl _, by simp [fetchesOf]⟩ hloop
    have hfetch := exportLoop_invariant B FetchInv
      (fun st st' hu _ hf h => by unfold FetchInv at h ⊢; rw [hu, hf]; exact h)
      (fun st h => fetchRound_fetchInv B st h)
      12 ⟨storeUids, 0, 0, []⟩ r0 ⟨by simp [fetchesOf], by simp [fetchesOf]⟩ hloop
    refine ⟨hwithin.1, fun uids huids => ⟨hwithin.2 uids huids, hfetch.1 uids huids⟩,
      hfetch.2, fun hnd hB => ?_⟩
    have hwrite := exportLoop_invariant B WriteInv
      (fun st st' hu hw _ h => by unfold WriteInv at h ⊢; rw [hu, hw]; exact h)
      (fun st h => fetchRound_writeInv B hB st h)
      12 ⟨storeUids, 0, 0, []⟩ r0 ⟨hnd, by simp [writesOf], by simp [writesOf]⟩ hloop
    exact hwrite.2.1

/-- Witness of C10: against a backend that delivers one message per fetch and
then fails, the export of the UIDs 1, 2, 3 writes each of them once over three
fetches, whose UID lists shrink from `[1, 2, 3]` to `[3]`. -/
theorem export_invariant_witness :
    (∃ st, exportRun oneAtATimeBackend [1, 2, 3] 3 = some (st, .Finished) ∧
      writesOf st.log = [1, 2, 3] ∧
      fetchesOf st.log = [[1, 2, 3], [2, 3], [3]] ∧
      (writesOf st.log).Nodup) ∧
    (onStreamMessage ⟨[1, 2, 3], 0, 0, []⟩ (.FullMessage 2 true)).uids = [1, 3] :=
  ⟨⟨_, rfl, by decide, by decide,
    ((export_invariant oneAtATimeBackend [1, 2, 3] 3).2.2 _ rfl).2.2.2 (by decide)
      oneAtATimeBackend_wellBehaved⟩,
    by decide⟩

/-! ### The status line of the export -/

theorem foldl_onStreamMessage_log (msgs : List StreamMessage) (st : ExportState) :
    (msgs.foldl onStreamMessage st).log = st.log ++ writeEvents msgs := by
  induction msgs generalizing st with
  | nil => simp [writeEvents]
  | cons msg rest ih =>
    rw [List.foldl_cons, ih]
    cases msg <;> simp [onStreamMessage, writeEvents]

theorem foldl_onStreamMessage_uids (msgs : List StreamMessage) (st : ExportState) :
    (msgs.foldl onStreamMessage st).uids = (fullMessageUids msgs).foldl removeUid st.uids := by
  induction msgs generalizing st with
  | nil => rfl
  | cons msg rest ih =>
    rw [List.foldl_cons, ih]
    cases msg <;> simp [onStreamMessage, fullMessageUids]

theorem writesOf_writeEvents (msgs : List StreamMessage) :
    writesOf (writeEvents msgs) = fullMessageUids msgs := by
  induction msgs with
  | nil => rfl
  | cons msg rest ih =>
    cases msg
    · simpa [writesOf, writeEvents, fullMessageUids] using ih
    · simpa [writesOf, writeEvents, fullMessageUids] using ih

theorem fetchesOf_writeEvents (msgs : List StreamMessage) :
    fetchesOf (writeEvents msgs) = [] := by
  induction msgs with
  | nil => rfl
  | cons msg rest ih =>
    cases msg
    · simpa [fetchesOf, writeEvents] using ih
    · simpa [fetchesOf, writeEvents] using ih

theorem fetchRound_log (B : Backend) (st : ExportState) :
    (fetchRound B st).1.log =
      st.log ++ ExportEvent.Fetch st.uids :: writeEvents (B st.retries st.uids).streamed := by
  simp [fetchRound, foldl_onStreamMessage_log]

theorem fetchRound_uids (B : Backend) (st : ExportState) :
    (fetchRound B st).1.uids =
      (fullMessageUids (B st.retries st.uids).streamed).foldl removeUid st.uids := by
  simp [fetchRound, foldl_onStreamMessage_uids]

theorem exportLoop_induction (B : Backend) (P : ExportState → Prop)
    (hlog : ∀ (st : ExportState) (ev : ExportEvent) (retries : Nat), writesOf [ev] = [] →
      P st → P { st with log := st.log ++ [ev], retries := retries })
    (hmsg : ∀ (st : ExportState) (msg : StreamMessage), P st → P (onStreamMessage st msg)) :
    ∀ (fuel : Nat) (st : ExportState) (r : ExportState × LoopEnd),
      P st → exportLoop B fuel st = some r → P r.1 := by
  have hfold : ∀ (msgs : List StreamMessage) (st : ExportState), P st →
      P (msgs.foldl onStreamMessage st) := by
    intro msgs
    induction msgs with
    | nil => intro st h; exact h
    | cons msg rest ih => intro st h; exact ih _ (hmsg st msg h)
  have hsleep : ∀ st, P st → P (sleepBeforeRetry st) := by
    intro st h
    unfold sleepBeforeRetry
    split
    · exact hlog st _ st.retries rfl h
    · exact h
  have hround : ∀ st, P st → P (fetchRound B st).1 := by
    intro st h
    unfold fetchRound
    exact hfold _ _ (hlog st (ExportEvent.Fetch st.uids) st.retries rfl h)
  intro fuel
  induction fuel with
  | zero => intro st r _ hrun; simp [exportLoop] at hrun
  | succ fuel ih =>
    intro st r hP hrun
    rw [exportLoop] at hrun
    by_cases hne : st.uids.length > 0
    · rw [if_pos hne] at hrun
      by_cases hmany : st.retries > 0 ∧ st.retries > 10
      · rw [if_pos hmany] at hrun
        simp only [Option.some.injEq] at hrun
        subst hrun
        exact hlog st _ st.retries rfl hP
      · rw [if_neg hmany] at hrun
        have hP' := hround _ (hsleep st hP)
        rcases hr : fetchRound B (sleepBeforeRetry st) with ⟨st', t⟩
        rw [hr] at hP' hrun
        simp only at hP'
        cases t with
        | Done =>
          simp only [Option.some.injEq] at hrun
          subst hrun
          exact hP'
        | Unsupported =>
          simp only [Option.some.injEq] at hrun
          subst hrun
          exact hP'
        | Error e =>
          simp only at hrun
          exact ih _ r (hlog st' (ExportEvent.PushErrorFetch e) (st'.retries + 1) rfl hP') hrun
    · rw [if_neg hne] at hrun
      simp only [Option.some.injEq] at hrun
      subst hrun
      exact hP

theorem successfulWritesOf_le (log : List ExportEvent) :
    successfulWritesOf log ≤ (writesOf log).length := by
  induction log with
  | nil => simp [successfulWritesOf, writesOf]
  | cons ev rest ih =>
    unfold successfulWritesOf writesOf at ih ⊢
    cases ev with
    | Write uid ok => cases ok <;> simp <;> omega
    | _ => simpa using ih

theorem successfulWritesOf_eq (log : List ExportEvent)
    (h : ∀ uid, ExportEvent.Write uid false ∉ log) :
    successfulWritesOf log = (writesOf log).length := by
  induction log with
  | nil => simp [successfulWritesOf, writesOf]
  | cons ev rest ih =>
    have ih' := ih fun uid hmem => h uid (List.mem_cons_of_mem _ hmem)
    unfold successfulWritesOf writesOf at ih' ⊢
    cases ev with
    | Write uid ok =>
      cases ok
      · exact absurd (List.mem_cons_self _ _) (h uid)
      · simpa using ih'
    | _ => simpa using ih'

theorem successfulWritesOf_lt (log : List ExportEvent) (uid : UID)
    (h : ExportEvent.Write uid false ∈ log) :
    successfulWritesOf log < (writesOf log).length := by
  induction log with
  | nil => simp at h
  | cons ev rest ih =>
    have hle := successfulWritesOf_le rest
    rcases List.mem_cons.1 h with e | hmem
    · subst e
      unfold successfulWritesOf writesOf at hle ⊢
      simp
      omega
    · have ih' := ih hmem
      unfold successfulWritesOf writesOf at ih' ⊢
      cases ev with
      | Write uid' ok => cases ok <;> simp <;> omega
      | _ => simpa using ih'

theorem exportLoop_ctr (B : Backend) (fuel : Nat) (st : ExportState)
    (r : ExportState × LoopEnd) (hst : st.ctr = (writesOf st.log).length % 2 ^ 32)
    (hrun : exportLoop B fuel st = some r) :
    r.1.ctr = (writesOf r.1.log).length % 2 ^ 32 := by
  refine exportLoop_induction B (fun st => st.ctr = (writesOf st.log).length % 2 ^ 32)
    ?_ ?_ fuel st r hst hrun
  · intro st ev retries hev h
    simp only [writesOf_append, hev, List.append_nil]
    exact h
  · intro st msg h
    cases msg with
    | Other => exact h
    | FullMessage uid ok =>
      simp only [onStreamMessage, writesOf_append]
      have hone : writesOf [ExportEvent.Write uid ok] = [uid] := rfl
      rw [hone, h]
      simp [Nat.add_mod]

theorem exportRun_status (B : Backend) (storeUids : List UID) (storeLenAtEnd : Nat) :
    ∃ r, exportRun B storeUids storeLenAtEnd = some r ∧
      (r.2 = .Finished →
        ∃ pre, r.1.log = pre ++
            [ExportEvent.PushStatus ((writesOf pre).length % 2 ^ 32) storeLenAtEnd] ∧
          ((∀ uid, ExportEvent.Write uid false ∉ pre) → (writesOf pre).length < 2 ^ 32 →
            storeLenAtEnd = storeUids.length →
            r.1.log = pre ++
              [ExportEvent.PushStatus (successfulWritesOf pre) storeUids.length])) := by
  obtain ⟨r0, hrun, -⟩ := exportLoop_total B 12 ⟨storeUids, 0, 0, []⟩ rfl (by decide)
  have hctr := exportLoop_ctr B 12 _ r0 rfl hrun
  obtain ⟨st, fin⟩ := r0
  simp only at hctr
  cases fin with
  | Blocked =>
    refine ⟨(st, .Blocked), by simp [exportRun, hrun], fun h => ?_⟩
    cases h
  | Finished =>
    refine ⟨({ st with log := st.log ++ [ExportEvent.PushStatus st.ctr storeLenAtEnd] },
      .Finished), by simp [exportRun, hrun], fun _ => ⟨st.log, ?_, ?_⟩⟩
    · simp only [hctr]
    · intro hok hsmall hlen
      simp only [hctr, successfulWritesOf_eq st.log hok, Nat.mod_eq_of_lt hsmall, hlen]

/-- C11. Every export run that leaves the loop ends with a status that states
both counts, also after retry exhaustion, and when no write failed the first
count is the number of messages written to the sink. The first count is `ctr`,
though, which line 110 increments for every `FullMessage`, also when
`mboxer.Write` failed and line 102 logged the failure: it is the number of
write attempts (as a `uint32`), never less than the number of successful
writes, and larger as soon as a write fails. A run whose only message fails to
be written reports "Exported 1 of 1" with nothing written. -/
theorem export_counts_failed_write :
    (∃ st, exportRun unwritableBackend [1] 1 = some (st, .Finished) ∧
      st.log = [ExportEvent.Fetch [1], ExportEvent.Write 1 false,
        ExportEvent.PushStatus 1 1] ∧
      successfulWritesOf st.log = 0) ∧
    (∃ st, exportRun failingBackend [1, 2] 2 = some (st, .Finished) ∧
      st.log.getLast? = some (ExportEvent.PushStatus 0 2)) ∧
    (∃ st, exportRun oneAtATimeBackend [1, 2, 3] 3 = some (st, .Finished) ∧
      st.log.getLast? = some (ExportEvent.PushStatus 3 3) ∧
      successfulWritesOf st.log = 3) ∧
    (∀ (B : Backend) (storeUids : List UID) (storeLenAtEnd : Nat),
      ∃ r, exportRun B storeUids storeLenAtEnd = some r ∧
        (r.2 = .Finished →
          ∃ pre, r.1.log = pre ++
              [ExportEvent.PushStatus ((writesOf pre).length % 2 ^ 32) storeLenAtEnd] ∧
            successfulWritesOf pre ≤ (writesOf pre).length ∧
            ((∃ uid, ExportEvent.Write uid false ∈ pre) →
              successfulWritesOf pre < (writesOf pre).length) ∧
            ((∀ uid, ExportEvent.Write uid false ∉ pre) → (writesOf pre).length < 2 ^ 32 →
              r.1.log = pre ++
                [ExportEvent.PushStatus (successfulWritesOf pre) storeLenAtEnd]))) := by
  refine ⟨⟨_, rfl, by decide, by decide⟩, ⟨_, rfl, by decide⟩, ⟨_, rfl, by decide, by decide⟩,
    ?_⟩
  intro B storeUids storeLenAtEnd
  obtain ⟨r, hrun, hfin⟩ := exportRun_status B storeUids storeLenAtEnd
  refine ⟨r, hrun, fun h => ?_⟩
  obtain ⟨pre, hlog, -⟩ := hfin h
  refine ⟨pre, hlog, successfulWritesOf_le pre, ?_, ?_⟩
  · rintro ⟨uid, hmem⟩
    exact successfulWritesOf_lt pre uid hmem
  · intro hok hsmall
    rw [hlog, successfulWritesOf_eq pre hok, Nat.mod_eq_of_lt hsmall]

/-! ### The pacing of the export -/

theorem wrapInt64_retry (k : Nat) (hk : k ≤ 10) :
    wrapInt64 ((k : Int) * 1000000000 * 2) = 2 * 10 ^ 9 * (k : Int) := by
  unfold wrapInt64
  norm_num
  omega

theorem fetch_split_append (l E pre post : List ExportEvent) (u : List UID)
    (h : l ++ E = pre ++ ExportEvent.Fetch u :: post) (hE : fetchesOf E = []) :
    ∃ post', l = pre ++ ExportEvent.Fetch u :: post' ∧ post = post' ++ E := by
  rcases List.append_eq_append_iff.1 h with ⟨a', -, hE'⟩ | ⟨c', hl, hc⟩
  · rw [hE', fetchesOf_append] at hE
    simp [fetchesOf] at hE
  · rcases List.cons_eq_append_iff.1 hc with ⟨-, hE'⟩ | ⟨c'', hc', hpost⟩
    · rw [hE'] at hE
      simp [fetchesOf] at hE
    · exact ⟨c'', by rw [hl, hc'], hpost⟩

theorem fetch_split_snoc (l pre post : List ExportEvent) (u v : List UID)
    (h : l ++ [ExportEvent.Fetch v] = pre ++ ExportEvent.Fetch u :: post) :
    (pre = l ∧ u = v ∧ post = []) ∨
      ∃ post', l = pre ++ ExportEvent.Fetch u :: post' := by
  rcases List.append_eq_append_iff.1 h with ⟨a', hpre, hE'⟩ | ⟨c', hl, hc⟩
  · rcases List.cons_eq_append_iff.1 hE' with ⟨ha, hb⟩ | ⟨a'', -, hnil⟩
    · left
      simp only [List.cons.injEq, ExportEvent.Fetch.injEq] at hb
      exact ⟨by rw [hpre, ha, List.append_nil], hb.1, hb.2⟩
    · simp at hnil
  · rcases List.cons_eq_append_iff.1 hc with ⟨hc', hb⟩ | ⟨c'', hc', -⟩
    · left
      simp only [List.cons.injEq, ExportEvent.Fetch.injEq] at hb
      exact ⟨by rw [hl, hc', List.append_nil], hb.1.symm, hb.2.symm⟩
    · right
      exact ⟨c'', by rw [hl, hc']⟩

theorem Paced.append_other (S : List UID) (log E : List ExportEvent) (h : Paced S log)
    (hE : fetchesOf E = []) : Paced S (log ++ E) := by
  intro pre uids post hdec
  obtain ⟨post', hlog, -⟩ := fetch_split_append log E pre post uids hdec hE
  exact h pre uids post' hlog

theorem Paced.append_fetch (S : List UID) (log : List ExportEvent) (uids : List UID)
    (h : Paced S log) (huids : uids = (writesOf log).foldl removeUid S)
    (hfirst : (fetchesOf log).length = 0 → log = [])
    (hlater : 0 < (fetchesOf log).length →
      ∃ pre' e, log = pre' ++ [ExportEvent.PushErrorFetch e,
        ExportEvent.Sleep (2 * 10 ^ 9 * ((fetchesOf log).length : Int))]) :
    Paced S (log ++ [ExportEvent.Fetch uids]) := by
  intro pre u post hdec
  rcases fetch_split_snoc log pre post u uids hdec with ⟨hpre, hu, -⟩ | ⟨post', hlog⟩
  · subst hpre
    exact ⟨hu ▸ huids, hfirst, hlater⟩
  · exact h pre u post' hlog

theorem Paced.nil (S : List UID) : Paced S [] := by
  intro pre uids post hdec
  have := congrArg List.length hdec
  simp at this
  omega

theorem getElem?_snoc_cases {α : Type} (F : List α) (x u : α) (k : Nat)
    (h : (F ++ [x])[k]? = some u) :
    (k < F.length ∧ F[k]? = some u) ∨ (k = F.length ∧ u = x) := by
  by_cases hk : k < F.length
  · rw [List.getElem?_append_left hk] at h
    exact Or.inl ⟨hk, h⟩
  · rw [List.getElem?_append_right (by omega)] at h
    have hlt : k - F.length < 1 := by
      by_contra hge
      rw [List.getElem?_eq_none (by simp; omega)] at h
      cases h
    have hk0 : k - F.length = 0 := by omega
    rw [hk0] at h
    simp only [List.getElem?_cons_zero, Option.some.injEq] at h
    exact Or.inr ⟨by omega, h.symm⟩

theorem sleepBeforeRetry_log (st : ExportState) (hk : st.retries ≤ 10) :
    (sleepBeforeRetry st).log =
      if 0 < st.retries then
        st.log ++ [ExportEvent.Sleep (2 * 10 ^ 9 * (st.retries : Int))]
      else st.log := by
  unfold sleepBeforeRetry
  by_cases h : st.retries > 0
  · rw [if_pos h, if_pos h]
    simp only [wrapInt64_retry st.retries hk]
  · rw [if_neg h, if_neg h]

theorem round_spec (B : Backend) (S : List UID) (st : ExportState)
    (h : LoopHead B S st) (hk : st.retries ≤ 10) :
    Paced S (fetchRound B (sleepBeforeRetry st)).1.log ∧
    fetchesOf (fetchRound B (sleepBeforeRetry st)).1.log = fetchesOf st.log ++ [st.uids] ∧
    (fetchRound B (sleepBeforeRetry st)).1.uids =
      (writesOf (fetchRound B (sleepBeforeRetry st)).1.log).foldl removeUid S ∧
    (fetchRound B (sleepBeforeRetry st)).1.retries = st.retries ∧
    (fetchRound B (sleepBeforeRetry st)).2 = (B st.retries st.uids).terminal := by
  obtain ⟨hpaced, -, hlen, huids, hzero, hpos⟩ := h
  have hf := fetchRound_fetches B (sleepBeforeRetry st)
  rw [sleepBeforeRetry_fetches, sleepBeforeRetry_uids] at hf
  have hr := fetchRound_retries B (sleepBeforeRetry st)
  rw [sleepBeforeRetry_retries] at hr
  have ht := fetchRound_terminal B (sleepBeforeRetry st)
  rw [sleepBeforeRetry_retries, sleepBeforeRetry_uids] at ht
  have hlog := fetchRound_log B (sleepBeforeRetry st)
  rw [sleepBeforeRetry_retries, sleepBeforeRetry_uids] at hlog
  have hu := fetchRound_uids B (sleepBeforeRetry st)
  rw [sleepBeforeRetry_retries, sleepBeforeRetry_uids] at hu
  have hw1 := sleepBeforeRetry_writes st
  have hf1 := sleepBeforeRetry_fetches st
  have hl1 := sleepBeforeRetry_log st hk
  refine ⟨?_, hf, ?_, hr, ht⟩
  · rw [hlog]
    have hcons : (sleepBeforeRetry st).log ++
        ExportEvent.Fetch st.uids :: writeEvents (B st.retries st.uids).streamed =
        ((sleepBeforeRetry st).log ++ [ExportEvent.Fetch st.uids]) ++
          writeEvents (B st.retries st.uids).streamed := by simp
    rw [hcons]
    refine Paced.append_other S _ _ ?_ (fetchesOf_writeEvents _)
    refine Paced.append_fetch S _ _ ?_ (by rw [hw1]; exact huids) ?_ ?_
    · rw [hl1]
      split
      · exact Paced.append_other S _ _ hpaced rfl
      · exact hpaced
    · intro h0
      rw [hf1, hlen] at h0
      rw [hl1, if_neg (by omega)]
      exact hzero h0
    · intro hp
      rw [hf1, hlen] at hp
      obtain ⟨pre', e, hpre⟩ := hpos hp
      refine ⟨pre', e, ?_⟩
      rw [hf1, hlen, hl1, if_pos hp, hpre]
      simp
  · rw [hu, hlog, writesOf_append, hw1]
    have hw2 : writesOf (ExportEvent.Fetch st.uids ::
        writeEvents (B st.retries st.uids).streamed) =
        fullMessageUids (B st.retries st.uids).streamed := by
      rw [← writesOf_writeEvents]
      rfl
    rw [hw2, List.foldl_append, ← huids]

theorem exportLoop_rounds (B : Backend) (S : List UID) :
    ∀ (fuel : Nat) (st : ExportState) (r : ExportState × LoopEnd),
      LoopHead B S st → exportLoop B fuel st = some r → RunSpec B S r := by
  intro fuel
  induction fuel with
  | zero => intro st r _ hrun; simp [exportLoop] at hrun
  | succ fuel ih =>
    intro st r hhead hrun
    have hhead' := hhead
    obtain ⟨hpaced, herr, hlen, huids, hzero, hpos⟩ := hhead'
    rw [exportLoop] at hrun
    by_cases hne : st.uids.length > 0
    · rw [if_pos hne] at hrun
      by_cases hmany : st.retries > 0 ∧ st.retries > 10
      · rw [if_pos hmany] at hrun
        simp only [Option.some.injEq] at hrun
        subst hrun
        have hf : fetchesOf (st.log ++ [ExportEvent.PushErrorTooManyRetries st.retries]) =
            fetchesOf st.log := by rw [fetchesOf_append]; exact List.append_nil _
        have hw : writesOf (st.log ++ [ExportEvent.PushErrorTooManyRetries st.retries]) =
            writesOf st.log := by rw [writesOf_append]; exact List.append_nil _
        refine ⟨Paced.append_other S _ _ hpaced rfl, ?_, ?_⟩
        · simp only [hw]; exact huids
        · intro k uids hk hdone
          simp only [hf] at hk
          obtain ⟨e, he⟩ := herr k uids hk
          rw [he] at hdone
          cases hdone
      · rw [if_neg hmany] at hrun
        have hk10 : st.retries ≤ 10 := by omega
        obtain ⟨hp2, hf2, hu2, hr2, ht2⟩ := round_spec B S st hhead hk10
        rcases hround : fetchRound B (sleepBeforeRetry st) with ⟨st', t⟩
        rw [hround] at hp2 hf2 hu2 hr2 ht2 hrun
        simp only at hp2 hf2 hu2 hr2 ht2
        cases t with
        | Done =>
          simp only [Option.some.injEq] at hrun
          subst hrun
          refine ⟨hp2, hu2, ?_⟩
          intro k uids hk hdone
          simp only [hf2] at hk ⊢
          rcases getElem?_snoc_cases _ _ _ _ hk with ⟨-, hold⟩ | ⟨hkeq, -⟩
          · obtain ⟨e, he⟩ := herr k uids hold
            rw [he] at hdone
            cases hdone
          · refine ⟨by simp [hkeq], ?_, trivial⟩
            simp only [hr2, hkeq, hlen]
        | Unsupported =>
          simp only [Option.some.injEq] at hrun
          subst hrun
          refine ⟨hp2, hu2, ?_⟩
          intro k uids hk hdone
          simp only [hf2] at hk
          rcases getElem?_snoc_cases _ _ _ _ hk with ⟨-, hold⟩ | ⟨hkeq, hueq⟩
          · obtain ⟨e, he⟩ := herr k uids hold
            rw [he] at hdone
            cases hdone
          · rw [hkeq, hueq, hlen, ← ht2] at hdone
            cases hdone
        | Error e =>
          simp only at hrun
          refine ih _ r ⟨?_, ?_, ?_, ?_, ?_, ?_⟩ hrun
          · exact Paced.append_other S _ _ hp2 rfl
          · intro k uids hk
            have hf3 : fetchesOf (st'.log ++ [ExportEvent.PushErrorFetch e]) =
                fetchesOf st'.log := by rw [fetchesOf_append]; exact List.append_nil _
            simp only [hf3, hf2] at hk
            rcases getElem?_snoc_cases _ _ _ _ hk with ⟨-, hold⟩ | ⟨hkeq, hueq⟩
            · exact herr k uids hold
            · exact ⟨e, by rw [hkeq, hueq, hlen, ← ht2]⟩
          · have hf3 : fetchesOf (st'.log ++ [ExportEvent.PushErrorFetch e]) =
                fetchesOf st'.log := by rw [fetchesOf_append]; exact List.append_nil _
            simp only [hf3, hf2, hr2, List.length_append, List.length_singleton, hlen]
          · have hw3 : writesOf (st'.log ++ [ExportEvent.PushErrorFetch e]) =
                writesOf st'.log := by rw [writesOf_append]; exact List.append_nil _
            simp only [hw3]
            exact hu2
          · intro h0
            simp only at h0
            omega
          · intro _
            exact ⟨st'.log, e, rfl⟩
    · rw [if_neg hne] at hrun
      simp only [Option.some.injEq] at hrun
      subst hrun
      refine ⟨hpaced, huids, ?_⟩
      intro k uids hk hdone
      obtain ⟨e, he⟩ := herr k uids hk
      rw [he] at hdone
      cases hdone

theorem exportRun_spec (B : Backend) (storeUids : List UID) (storeLenAtEnd : Nat)
    (r : ExportState × LoopEnd) (hrun : exportRun B storeUids storeLenAtEnd = some r) :
    RunSpec B storeUids r := by
  have hhead : LoopHead B storeUids ⟨storeUids, 0, 0, []⟩ :=
    ⟨Paced.nil _, by simp [fetchesOf], rfl, rfl, fun _ => rfl,
      fun h => absurd h (Nat.lt_irrefl 0)⟩
  unfold exportRun at hrun
  rcases hloop : exportLoop B 12 ⟨storeUids, 0, 0, []⟩ with _ | ⟨st, fin⟩
  · rw [hloop] at hrun; cases hrun
  · rw [hloop] at hrun
    obtain ⟨hp, hu, hd⟩ := exportLoop_rounds B storeUids 12 _ _ hhead hloop
    cases fin with
    | Blocked =>
      simp only [Option.some.injEq] at hrun
      subst hrun
      exact ⟨hp, hu, hd⟩
    | Finished =>
      simp only [Option.some.injEq] at hrun
      subst hrun
      have hf : fetchesOf (st.log ++ [ExportEvent.PushStatus st.ctr storeLenAtEnd]) =
          fetchesOf st.log := by rw [fetchesOf_append]; exact List.append_nil _
      have hw : writesOf (st.log ++ [ExportEvent.PushStatus st.ctr storeLenAtEnd]) =
          writesOf st.log := by rw [writesOf_append]; exact List.append_nil _
      refine ⟨Paced.append_other _ _ _ hp rfl, ?_, ?_⟩
      · simp only [hw]; exact hu
      · intro k uids hk hdone
        simp only [hf] at hk ⊢
        obtain ⟨h1, h2, -⟩ := hd k uids hk hdone
        exact ⟨h1, h2, trivial⟩

/-- C12 (amended). In every export run the first fetch is issued at once, as
the first event of the run; the second fetch, when there is one, comes right
after the error of the first fetch and a sleep of two seconds. -/
theorem export_first_retry (B : Backend) (storeUids : List UID) (storeLenAtEnd : Nat) :
    ∃ r, exportRun B storeUids storeLenAtEnd = some r ∧
      ∀ pre uids post, r.1.log = pre ++ ExportEvent.Fetch uids :: post →
        ((fetchesOf pre).length = 0 → pre = []) ∧
        ((fetchesOf pre).length = 1 →
          ∃ pre' e, pre = pre' ++
            [ExportEvent.PushErrorFetch e, ExportEvent.Sleep 2000000000]) := by
  obtain ⟨r0, hrun0, -⟩ := exportLoop_total B 12 ⟨storeUids, 0, 0, []⟩ rfl (by decide)
  have hsome : ∃ r, exportRun B storeUids storeLenAtEnd = some r := by
    unfold exportRun
    rw [hrun0]
    obtain ⟨st, fin⟩ := r0
    cases fin <;> exact ⟨_, rfl⟩
  obtain ⟨r, hrun⟩ := hsome
  refine ⟨r, hrun, fun pre uids post hdec => ?_⟩
  obtain ⟨hpaced, -, -⟩ := exportRun_spec B storeUids storeLenAtEnd r hrun
  obtain ⟨-, hfirst, hlater⟩ := hpaced pre uids post hdec
  refine ⟨hfirst, fun h1 => ?_⟩
  obtain ⟨pre', e, hpre⟩ := hlater (by omega)
  refine ⟨pre', e, ?_⟩
  rw [h1] at hpre
  simpa using hpre

/-- Witness of C12: against a backend that fails every fetch the run starts
with a fetch, the error, a sleep of two seconds and the second fetch. -/
theorem export_first_retry_witness :
    ∃ r, exportRun failingBackend [1, 2] 2 = some r ∧
      r.1.log.take 4 =
        [ExportEvent.Fetch [1, 2], ExportEvent.PushErrorFetch "connection reset",
          ExportEvent.Sleep 2000000000, ExportEvent.Fetch [1, 2]] ∧
      ∀ pre uids post, r.1.log = pre ++ ExportEvent.Fetch uids :: post →
        ((fetchesOf pre).length = 0 → pre = []) ∧
        ((fetchesOf pre).length = 1 →
          ∃ pre' e, pre = pre' ++
            [ExportEvent.PushErrorFetch e, ExportEvent.Sleep 2000000000]) := by
  obtain ⟨r, hrun, h⟩ := export_first_retry failingBackend [1, 2] 2
  refine ⟨r, hrun, ?_, h⟩
  have hr : some r = exportRun failingBackend [1, 2] 2 := hrun.symm
  have hval : exportRun failingBackend [1, 2] 2 = some
      ((exportRun failingBackend [1, 2] 2).get (by decide)) := by simp
  rw [hval] at hr
  simp only [Option.some.injEq] at hr
  rw [hr]
  decide

/-- Counterexample to C12 as stated: against a backend that fails every fetch,
the second fetch is preceded by a sleep of two seconds, not issued at once. -/
theorem export_first_retry_counterexample :
    ∃ st, exportRun failingBackend [1, 2] 2 = some (st, .Finished) ∧
      st.log.take 4 =
        [ExportEvent.Fetch [1, 2], ExportEvent.PushErrorFetch "connection reset",
          ExportEvent.Sleep 2000000000, ExportEvent.Fetch [1, 2]] :=
  ⟨_, rfl, by decide⟩

theorem exportRun_total (B : Backend) (storeUids : List UID) (storeLenAtEnd : Nat) :
    ∃ r, exportRun B storeUids storeLenAtEnd = some r := by
  obtain ⟨r0, hrun0, -⟩ := exportLoop_total B 12 ⟨storeUids, 0, 0, []⟩ rfl (by decide)
  unfold exportRun
  rw [hrun0]
  obtain ⟨st, fin⟩ := r0
  cases fin <;> exact ⟨_, rfl⟩

/-- C13. The backoff of the export is linear in whole seconds: for every k from
1 to 10, the fetch issued while the retry counter is k (the fetch with k fetches
before it) comes right after a sleep of `2 * 10^9 * k` nanoseconds, which is the
product `k * 1e9 * 2` without overflow of the 64-bit integer, and it requests
the UIDs that the writes so far left of the UIDs of the start. -/
theorem export_backoff_linear (B : Backend) (storeUids : List UID) (storeLenAtEnd : Nat) :
    ∃ r, exportRun B storeUids storeLenAtEnd = some r ∧
      ∀ k : Nat, 1 ≤ k → k ≤ 10 →
        wrapInt64 ((k : Int) * 1000000000 * 2) = 2 * 10 ^ 9 * (k : Int) ∧
        2 * 10 ^ 9 * (k : Int) < 2 ^ 63 ∧
        ∀ pre uids post, r.1.log = pre ++ ExportEvent.Fetch uids :: post →
          (fetchesOf pre).length = k →
          (∃ pre' e, pre = pre' ++
            [ExportEvent.PushErrorFetch e, ExportEvent.Sleep (2 * 10 ^ 9 * (k : Int))]) ∧
          uids = (writesOf pre).foldl removeUid storeUids := by
  obtain ⟨r, hrun⟩ := exportRun_total B storeUids storeLenAtEnd
  refine ⟨r, hrun, fun k hk1 hk10 => ⟨wrapInt64_retry k hk10, by norm_num; omega, ?_⟩⟩
  intro pre uids post hdec hlen
  obtain ⟨hpaced, -, -⟩ := exportRun_spec B storeUids storeLenAtEnd r hrun
  obtain ⟨huids, -, hlater⟩ := hpaced pre uids post hdec
  obtain ⟨pre', e, hpre⟩ := hlater (by omega)
  rw [hlen] at hpre
  exact ⟨⟨pre', e, hpre⟩, huids⟩

/-- Witness of C13: against a backend that delivers one message per fetch and
then fails, the third fetch (retry counter 2) comes right after a sleep of four
seconds and requests `[3]`, what the writes of 1 and 2 left of `[1, 2, 3]`. -/
theorem export_backoff_linear_witness :
    ∃ st, exportRun oneAtATimeBackend [1, 2, 3] 3 = some (st, .Finished) ∧
      st.log = [ExportEvent.Fetch [1, 2, 3], ExportEvent.Write 1 true,
        ExportEvent.PushErrorFetch "connection reset", ExportEvent.Sleep 2000000000,
        ExportEvent.Fetch [2, 3], ExportEvent.Write 2 true,
        ExportEvent.PushErrorFetch "connection reset", ExportEvent.Sleep 4000000000,
        ExportEvent.Fetch [3], ExportEvent.Write 3 true,
        ExportEvent.PushErrorFetch "connection reset", ExportEvent.PushStatus 3 3] ∧
      ∃ r, exportRun oneAtATimeBackend [1, 2, 3] 3 = some r ∧
        ∀ k : Nat, 1 ≤ k → k ≤ 10 →
          wrapInt64 ((k : Int) * 1000000000 * 2) = 2 * 10 ^ 9 * (k : Int) ∧
          2 * 10 ^ 9 * (k : Int) < 2 ^ 63 ∧
          ∀ pre uids post, r.1.log = pre ++ ExportEvent.Fetch uids :: post →
            (fetchesOf pre).length = k →
            (∃ pre' e, pre = pre' ++
              [ExportEvent.PushErrorFetch e, ExportEvent.Sleep (2 * 10 ^ 9 * (k : Int))]) ∧
            uids = (writesOf pre).foldl removeUid [1, 2, 3] :=
  ⟨_, rfl, by decide, export_backoff_linear oneAtATimeBackend [1, 2, 3] 3⟩

/-- C14. On a terminal `Done` the export loop stops at once: the fetch that
ended with `Done` is the last fetch of the run, the retry counter stays at the
number of that fetch, the loop is left (the status line follows), and the
working set is whatever the writes left of the UIDs of the start, empty or
not. -/
theorem export_stops_on_done (B : Backend) (storeUids : List UID) (storeLenAtEnd : Nat) :
    ∃ r, exportRun B storeUids storeLenAtEnd = some r ∧
      r.1.uids = (writesOf r.1.log).foldl removeUid storeUids ∧
      ∀ k uids, (fetchesOf r.1.log)[k]? = some uids → (B k uids).terminal = .Done →
        (fetchesOf r.1.log).length = k + 1 ∧ r.1.retries = k ∧ r.2 = .Finished := by
  obtain ⟨r, hrun⟩ := exportRun_total B storeUids storeLenAtEnd
  obtain ⟨-, hu, hd⟩ := exportRun_spec B storeUids storeLenAtEnd r hrun
  exact ⟨r, hrun, hu, hd⟩

/-- Witness of C14: a backend that delivers nothing and answers `Done` ends the
export of the UIDs 1 and 2 after one fetch, with both UIDs still in the working
set and the retry counter at zero. -/
theorem export_stops_on_done_witness :
    (∃ st, exportRun emptyDoneBackend [1, 2] 2 = some (st, .Finished) ∧
      st.log = [ExportEvent.Fetch [1, 2], ExportEvent.PushStatus 0 2] ∧
      st.uids = [1, 2] ∧ st.retries = 0) ∧
    ∃ r, exportRun emptyDoneBackend [1, 2] 2 = some r ∧
      r.1.uids = (writesOf r.1.log).foldl removeUid [1, 2] ∧
      ∀ k uids, (fetchesOf r.1.log)[k]? = some uids →
        (emptyDoneBackend k uids).terminal = .Done →
        (fetchesOf r.1.log).length = k + 1 ∧ r.1.retries = k ∧ r.2 = .Finished :=
  ⟨⟨_, rfl, by decide, by decide, by decide⟩, export_stops_on_done emptyDoneBackend [1, 2] 2⟩

/-! ### The slice shared with the action in flight -/

theorem removeUid_eq_eraseIdx (W : List UID) (target : UID) :
    removeUid W target =
      match W.indexOf? target with
      | some i => W.take i ++ W.drop (i + 1)
      | none => W := by
  induction W with
  | nil => rfl
  | cons uid rest ih =>
    by_cases h : uid = target
    · simp [removeUid, h, List.indexOf?]
    · have hbeq : (uid == target) = false := by simpa using h
      simp only [removeUid, h, if_false, List.indexOf?, List.findIdx?_cons, hbeq,
        Bool.false_eq_true, List.findIdx?_succ]
      simp only [List.indexOf?] at ih
      rw [ih]
      cases List.findIdx? (fun x => x == target) rest <;> simp

theorem indexOf?_lt (W : List UID) (target : UID) (i : Nat)
    (h : W.indexOf? target = some i) : i < W.length := by
  induction W generalizing i with
  | nil => simp [List.indexOf?] at h
  | cons uid rest ih =>
    by_cases hu : (uid == target) = true
    · simp [List.indexOf?, hu] at h
      simp only [List.length_cons]
      omega
    · simp only [Bool.not_eq_true] at hu
      simp only [List.indexOf?, List.findIdx?_cons, hu, Bool.false_eq_true, if_false,
        List.findIdx?_succ, Option.map_eq_some'] at h
      obtain ⟨j, hj, rfl⟩ := h
      have := ih j hj
      simp only [List.length_cons]
      omega

theorem SharedUids.remove_uids (s : SharedUids) (target : UID)
    (hlen : s.len ≤ s.array.length) :
    (s.remove target).uids = removeUid s.uids target := by
  rw [removeUid_eq_eraseIdx]
  unfold SharedUids.remove
  rcases hidx : s.uids.indexOf? target with _ | i
  · rfl
  · have hi : i < s.uids.length := indexOf?_lt _ _ _ hidx
    have hulen : s.uids.length = s.len := by
      simp [SharedUids.uids, hlen]
    simp only [SharedUids.uids, SharedUids.spliceOut] at hi hulen ⊢
    have h1 : (List.take i s.array ++ List.drop (i + 1) (List.take s.len s.array)).length =
        s.len - 1 := by
      rw [List.length_append, List.length_take, List.length_drop, List.length_take]
      omega
    rw [List.take_left' h1, List.take_take, Nat.min_eq_left (by omega)]

/-- C15. The code breaks the immutability of a submitted action: the export of
`[1, 2, 3]` submits a fetch whose `Uids` are `[1, 2, 3]`; once the `FullMessage`
for UID 1 has been handled the working set is `[2, 3]` and the `Uids` of the
action still in flight read `[2, 3, 3]`. -/
theorem fetch_action_uids_aliased :
    (SharedUids.mk [1, 2, 3] 3).actionUids 3 = [1, 2, 3] ∧
    ((SharedUids.mk [1, 2, 3] 3).remove 1).uids = [2, 3] ∧
    ((SharedUids.mk [1, 2, 3] 3).remove 1).uids = removeUid [1, 2, 3] 1 ∧
    ((SharedUids.mk [1, 2, 3] 3).remove 1).actionUids 3 = [2, 3, 3] ∧
    ((SharedUids.mk [1, 2, 3] 3).remove 1).actionUids 3 ≠
      (SharedUids.mk [1, 2, 3] 3).actionUids 3 := by
  decide

/-! ### The next message after a delete -/

theorem contains_iff (uids : List UID) (uid : UID) : contains uids uid = true ↔ uid ∈ uids := by
  induction uids with
  | nil => simp [contains]
  | cons item rest ih =>
    by_cases h : item = uid
    · simp [contains, h]
    · simp [contains, h, ih, Ne.symm h]

theorem eligible_false_iff (deleted : List UID) (store : MessageStore) (j : Nat) :
    eligible deleted store j = false ↔
      ∀ uid, store.uids.get? j = some uid → uid ∈ deleted ∨ uid ∈ store.Deleted := by
  unfold eligible
  rcases store.uids.get? j with _ | uid
  · simp
  · simp only [Option.some.injEq, forall_eq']
    rw [← contains_iff, ← contains_iff]
    cases contains deleted uid <;> cases contains store.Deleted uid <;> simp

theorem eligible_true (deleted : List UID) (store : MessageStore) (j : Nat)
    (h : eligible deleted store j = true) :
    ∃ uid, store.uids.get? j = some uid ∧ uid ∉ deleted ∧ uid ∉ store.Deleted := by
  unfold eligible at h
  rcases hget : store.uids.get? j with _ | uid
  · rw [hget] at h; cases h
  · rw [hget] at h
    refine ⟨uid, rfl, ?_, ?_⟩
    · rw [← contains_iff]; intro hc; simp [hc] at h
    · rw [← contains_iff]; intro hc; simp [hc] at h

theorem eligible_cursor (deleted : List UID) (store : MessageStore) (i j : Nat) :
    eligible deleted { store with cursor := some i } j = eligible deleted store j := rfl

theorem firstFrom_some (ok : Nat → Bool) :
    ∀ (n c i : Nat), firstFrom ok c n = some i →
      c ≤ i ∧ i < c + n ∧ ok i = true ∧ ∀ j, c ≤ j → j < i → ok j = false := by
  intro n
  induction n with
  | zero => intro c i h; simp [firstFrom] at h
  | succ n ih =>
    intro c i h
    unfold firstFrom at h
    by_cases hok : ok c = true
    · rw [if_pos hok] at h
      simp only [Option.some.injEq] at h
      subst h
      exact ⟨le_refl _, by omega, hok, fun j h1 h2 => by omega⟩
    · rw [if_neg hok] at h
      obtain ⟨h1, h2, h3, h4⟩ := ih (c + 1) i h
      refine ⟨by omega, by omega, h3, fun j hj1 hj2 => ?_⟩
      by_cases hjc : j = c
      · subst hjc; simpa using hok
      · exact h4 j (by omega) hj2

theorem firstFrom_none (ok : Nat → Bool) :
    ∀ (n c : Nat), firstFrom ok c n = none → ∀ j, c ≤ j → j < c + n → ok j = false := by
  intro n
  induction n with
  | zero => intro c _ j h1 h2; omega
  | succ n ih =>
    intro c h j h1 h2
    unfold firstFrom at h
    by_cases hok : ok c = true
    · rw [if_pos hok] at h; cases h
    · rw [if_neg hok] at h
      by_cases hjc : j = c
      · subst hjc; simpa using hok
      · exact ih (c + 1) h j (by omega) (by omega)

theorem lastDownFrom_some (ok : Nat → Bool) :
    ∀ (c i : Nat), lastDownFrom ok c = some i →
      i ≤ c ∧ ok i = true ∧ ∀ j, i < j → j ≤ c → ok j = false := by
  intro c
  induction c with
  | zero =>
    intro i h
    unfold lastDownFrom at h
    by_cases hok : ok 0 = true
    · rw [if_pos hok] at h
      simp only [Option.some.injEq] at h
      subst h
      exact ⟨le_refl _, hok, fun j h1 h2 => by omega⟩
    · rw [if_neg hok] at h; cases h
  | succ c ih =>
    intro i h
    unfold lastDownFrom at h
    by_cases hok : ok (c + 1) = true
    · rw [if_pos hok] at h
      simp only [Option.some.injEq] at h
      subst h
      exact ⟨le_refl _, hok, fun j h1 h2 => by omega⟩
    · rw [if_neg hok] at h
      obtain ⟨h1, h2, h3⟩ := ih i h
      refine ⟨by omega, h2, fun j hj1 hj2 => ?_⟩
      by_cases hjc : j = c + 1
      · subst hjc; simpa using hok
      · exact h3 j hj1 (by omega)

theorem lastDownFrom_none (ok : Nat → Bool) :
    ∀ c : Nat, lastDownFrom ok c = none → ∀ j, j ≤ c → ok j = false := by
  intro c
  induction c with
  | zero =>
    intro h j hj
    unfold lastDownFrom at h
    by_cases hok : ok 0 = true
    · rw [if_pos hok] at h; cases h
    · have : j = 0 := by omega
      subst this; simpa using hok
  | succ c ih =>
    intro h j hj
    unfold lastDownFrom at h
    by_cases hok : ok (c + 1) = true
    · rw [if_pos hok] at h; cases h
    · rw [if_neg hok] at h
      by_cases hjc : j = c + 1
      · subst hjc; simpa using hok
      · exact ih h j (by omega)

theorem Selected_at (store : MessageStore) (c : Nat) (uid : UID)
    (hc : store.cursor = some c) (hget : store.uids.get? c = some uid) :
    store.Selected = some ⟨c, uid⟩ := by
  simp only [MessageStore.Selected, hc, hget, Option.map_some']

theorem withCursor_self (store : MessageStore) (c : Nat) (hc : store.cursor = some c) :
    { store with cursor := some c } = store := by
  cases store
  simp only at hc
  subst hc
  rfl

theorem scanLoop_step (deleted : List UID) (stepFn : MessageStore → MessageStore)
    (fuel : Nat) (previous : Option MessageRef) (store : MessageStore) (c : Nat) (uid : UID)
    (hc : store.cursor = some c) (hget : store.uids.get? c = some uid) :
    scanLoop deleted stepFn (fuel + 1) previous store =
      if eligible deleted store c = true then some (some ⟨c, uid⟩, store)
      else if previous = some ⟨c, uid⟩ then some (none, store)
      else scanLoop deleted stepFn fuel (some ⟨c, uid⟩) (stepFn store) := by
  rw [scanLoop, Selected_at store c uid hc hget]
  simp only [eligible, hget]

theorem scan_forward (deleted : List UID) :
    ∀ (n c fuel : Nat) (previous : Option MessageRef) (store : MessageStore),
      store.cursor = some c → c + n = store.uids.length → 0 < n → n + 1 ≤ fuel →
      (∀ uid, previous ≠ some ⟨c, uid⟩) →
      scanLoop deleted MessageStore.Next fuel previous store =
        match firstFrom (eligible deleted store) c n with
        | some i =>
          some (({ store with cursor := some i } : MessageStore).Selected,
            { store with cursor := some i })
        | none => some (none, { store with cursor := some (store.uids.length - 1) }) := by
  intro n
  induction n with
  | zero => intro c fuel previous store _ _ h; omega
  | succ n ih =>
    intro c fuel previous store hc hlen _ hfuel hprev
    obtain ⟨fuel, rfl⟩ : ∃ f, fuel = f + 1 := ⟨fuel - 1, by omega⟩
    have hlt : c < store.uids.length := by omega
    obtain ⟨uid, hget⟩ : ∃ uid, store.uids.get? c = some uid :=
      ⟨store.uids.get ⟨c, hlt⟩, List.get?_eq_get hlt⟩
    rw [scanLoop_step deleted _ fuel previous store c uid hc hget]
    unfold firstFrom
    by_cases hok : eligible deleted store c = true
    · rw [if_pos hok, if_pos hok]
      simp only [withCursor_self store c hc, Selected_at store c uid hc hget]
    · rw [if_neg hok, if_neg hok, if_neg (hprev uid)]
      by_cases hn : n = 0
      · subst hn
        have hnext : store.Next = store := by
          simp [MessageStore.Next, hc]
          omega
        obtain ⟨fuel, rfl⟩ : ∃ f, fuel = f + 1 := ⟨fuel - 1, by omega⟩
        rw [hnext, scanLoop_step deleted _ fuel _ store c uid hc hget, if_neg hok]
        simp only [if_true, firstFrom]
        have hlast : store.uids.length - 1 = c := by omega
        rw [hlast, withCursor_self store c hc]
      · have hnext : store.Next = { store with cursor := some (c + 1) } := by
          simp [MessageStore.Next, hc]
          omega
        rw [hnext]
        have := ih (c + 1) fuel (some ⟨c, uid⟩) { store with cursor := some (c + 1) } rfl
          (by simp only; omega) (by omega) (by omega)
          (by intro uid' h; simp only [Option.some.injEq, MessageRef.mk.injEq] at h; omega)
        rw [this]
        rfl

theorem scan_backward (deleted : List UID) :
    ∀ (c fuel : Nat) (previous : Option MessageRef) (store : MessageStore),
      store.cursor = some c → c < store.uids.length → c + 2 ≤ fuel →
      (∀ uid, previous ≠ some ⟨c, uid⟩) →
      scanLoop deleted MessageStore.Prev fuel previous store =
        match lastDownFrom (eligible deleted store) c with
        | some i =>
          some (({ store with cursor := some i } : MessageStore).Selected,
            { store with cursor := some i })
        | none => some (none, { store with cursor := some 0 }) := by
  intro c
  induction c with
  | zero =>
    intro fuel previous store hc hlt hfuel hprev
    obtain ⟨fuel, rfl⟩ : ∃ f, fuel = f + 2 := ⟨fuel - 2, by omega⟩
    obtain ⟨uid, hget⟩ : ∃ uid, store.uids.get? 0 = some uid :=
      ⟨store.uids.get ⟨0, hlt⟩, List.get?_eq_get hlt⟩
    rw [scanLoop_step deleted _ (fuel + 1) previous store 0 uid hc hget]
    unfold lastDownFrom
    by_cases hok : eligible deleted store 0 = true
    · rw [if_pos hok, if_pos hok]
      simp only [withCursor_self store 0 hc, Selected_at store 0 uid hc hget]
    · rw [if_neg hok, if_neg hok, if_neg (hprev uid)]
      have hstep : store.Prev = store := by
        simp only [MessageStore.Prev, hc]
        exact withCursor_self store 0 hc
      rw [hstep, scanLoop_step deleted _ fuel _ store 0 uid hc hget, if_neg hok]
      simp only [if_true]
      rw [withCursor_self store 0 hc]
  | succ c ih =>
    intro fuel previous store hc hlt hfuel hprev
    obtain ⟨fuel, rfl⟩ : ∃ f, fuel = f + 1 := ⟨fuel - 1, by omega⟩
    obtain ⟨uid, hget⟩ : ∃ uid, store.uids.get? (c + 1) = some uid :=
      ⟨store.uids.get ⟨c + 1, hlt⟩, List.get?_eq_get hlt⟩
    rw [scanLoop_step deleted _ fuel previous store (c + 1) uid hc hget]
    unfold lastDownFrom
    by_cases hok : eligible deleted store (c + 1) = true
    · rw [if_pos hok, if_pos hok]
      simp only [withCursor_self store (c + 1) hc, Selected_at store (c + 1) uid hc hget]
    · rw [if_neg hok, if_neg hok, if_neg (hprev uid)]
      have hstep : store.Prev = { store with cursor := some c } := by
        simp [MessageStore.Prev, hc]
      rw [hstep]
      have := ih fuel (some ⟨c + 1, uid⟩) { store with cursor := some c } rfl
        (by simp only; omega) (by omega)
        (by intro uid' h; simp only [Option.some.injEq, MessageRef.mk.injEq] at h; omega)
      rw [this]
      rfl

theorem eligible_false_of_ge (deleted : List UID) (store : MessageStore) (j : Nat)
    (h : store.uids.length ≤ j) : eligible deleted store j = false := by
  unfold eligible
  rw [List.get?_eq_none.2 h]

theorem findNextNonDeleted_total (deleted : List UID) (store : MessageStore) (c : Nat)
    (hc : store.cursor = some c) (hlt : c < store.uids.length) :
    ∃ res store', findNextNonDeleted deleted store = some (res, store') ∧
      NextNonDeletedSpec deleted store c res store' := by
  have hfwd := scan_forward deleted (store.uids.length - c) c (store.uids.length + 1) none
    store hc (by omega) (by omega) (by omega) (fun _ h => by cases h)
  rcases hff : firstFrom (eligible deleted store) c (store.uids.length - c) with _ | i
  · -- nothing from the cursor on: the backward loop runs from the last message
    rw [hff] at hfwd
    have hnone := firstFrom_none _ _ _ hff
    have hbwd := scan_backward deleted (store.uids.length - 1) (store.uids.length + 1) none
      { store with cursor := some (store.uids.length - 1) } rfl (by simp only; omega)
      (by omega) (fun _ h => by cases h)
    have hafter : ∀ j, c ≤ j → eligible deleted store j = false := by
      intro j hj
      by_cases hjl : j < store.uids.length
      · exact hnone j hj (by omega)
      · exact eligible_false_of_ge deleted store j (by omega)
    rcases hld : lastDownFrom (eligible deleted store) (store.uids.length - 1) with _ | i
    · have hld' : lastDownFrom
          (eligible deleted { store with cursor := some (store.uids.length - 1) })
          (store.uids.length - 1) = none := hld
      rw [hld'] at hbwd
      refine ⟨none, { store with cursor := some 0 }, ?_, rfl, rfl, ?_, ?_⟩
      · simp only [findNextNonDeleted, hfwd, hbwd]
      · intro m hm; cases hm
      · intro _ j uid hget
        have hall := lastDownFrom_none _ _ hld
        have : eligible deleted store j = false := by
          by_cases hjl : j < store.uids.length
          · exact hall j (by omega)
          · exact eligible_false_of_ge deleted store j (by omega)
        exact (eligible_false_iff deleted store j).1 this uid hget
    · have hld' : lastDownFrom
          (eligible deleted { store with cursor := some (store.uids.length - 1) })
          (store.uids.length - 1) = some i := hld
      rw [hld'] at hbwd
      obtain ⟨hile, hok, hbetween⟩ := lastDownFrom_some _ _ _ hld
      obtain ⟨uid, hget, hnd, hnp⟩ := eligible_true deleted store i hok
      have hsel : ({ store with cursor := some i } : MessageStore).Selected = some ⟨i, uid⟩ :=
        Selected_at _ i uid rfl hget
      have hic : i < c := by
        by_contra hge
        have := hafter i (by omega)
        rw [this] at hok
        cases hok
      refine ⟨some ⟨i, uid⟩, { store with cursor := some i }, ?_, rfl, rfl, ?_, ?_⟩
      · simp only [findNextNonDeleted, hfwd, hbwd, hsel]
      · intro m hm
        simp only [Option.some.injEq] at hm
        subst hm
        refine ⟨hsel, hget, hnd, hnp, Or.inr ⟨hic, ?_, ?_⟩⟩
        · intro j uid' hj hget'
          exact (eligible_false_iff deleted store j).1 (hafter j hj) uid' hget'
        · intro j uid' hj1 hj2 hget'
          exact (eligible_false_iff deleted store j).1 (hbetween j hj1 (by omega)) uid' hget'
      · intro h; cases h
  · rw [hff] at hfwd
    obtain ⟨hci, hilt, hok, hbefore⟩ := firstFrom_some _ _ _ _ hff
    obtain ⟨uid, hget, hnd, hnp⟩ := eligible_true deleted store i hok
    have hsel : ({ store with cursor := some i } : MessageStore).Selected = some ⟨i, uid⟩ :=
      Selected_at _ i uid rfl hget
    refine ⟨some ⟨i, uid⟩, { store with cursor := some i }, ?_, rfl, rfl, ?_, ?_⟩
    · simp only [findNextNonDeleted, hfwd, hsel]
    · intro m hm
      simp only [Option.some.injEq] at hm
      subst hm
      refine ⟨hsel, hget, hnd, hnp, Or.inl ⟨hci, ?_⟩⟩
      intro j uid' hj1 hj2 hget'
      exact (eligible_false_iff deleted store j).1 (hbefore j hj1 hj2) uid' hget'
    · intro h; cases h

/-- C17. Over a store with the cursor on a message, `findNextNonDeleted`
terminates and returns the first message at or after the cursor that is neither
in `deleted` nor pending deletion; if there is none, the nearest such message
before the cursor; and `nil` if the store has no such message. A returned
message is never in `deleted` nor in `store.Deleted`, and the cursor is left on
it. -/
theorem findNextNonDeleted_spec (deleted : List UID) (store : MessageStore) (c : Nat)
    (hc : store.cursor = some c) (hlt : c < store.uids.length) :
    ∃ res store', findNextNonDeleted deleted store = some (res, store') ∧
      store'.uids = store.uids ∧ store'.Deleted = store.Deleted ∧
      (∀ m, res = some m →
        store'.Selected = some m ∧ store.uids.get? m.slot = some m.Uid ∧
        m.Uid ∉ deleted ∧ m.Uid ∉ store.Deleted ∧
        ((c ≤ m.slot ∧
            ∀ j uid, c ≤ j → j < m.slot → store.uids.get? j = some uid →
              uid ∈ deleted ∨ uid ∈ store.Deleted) ∨
          (m.slot < c ∧
            (∀ j uid, c ≤ j → store.uids.get? j = some uid →
              uid ∈ deleted ∨ uid ∈ store.Deleted) ∧
            ∀ j uid, m.slot < j → j < c → store.uids.get? j = some uid →
              uid ∈ deleted ∨ uid ∈ store.Deleted))) ∧
      (res = none →
        ∀ j uid, store.uids.get? j = some uid → uid ∈ deleted ∨ uid ∈ store.Deleted) := by
  obtain ⟨res, store', hrun, hspec⟩ := findNextNonDeleted_total deleted store c hc hlt
  exact ⟨res, store', hrun, hspec⟩

/-- Witness of C17: in the store `[1, 2, 3]` with the cursor on message 2,
deleting 2 gives message 3 (forward), deleting 2 and 3 gives message 1
(backward), and deleting 2 and 3 while 1 is pending deletion gives `nil`. -/
theorem findNextNonDeleted_spec_witness :
    findNextNonDeleted [2] ⟨[1, 2, 3], some 1, []⟩ =
      some (some ⟨2, 3⟩, ⟨[1, 2, 3], some 2, []⟩) ∧
    findNextNonDeleted [2, 3] ⟨[1, 2, 3], some 1, []⟩ =
      some (some ⟨0, 1⟩, ⟨[1, 2, 3], some 0, []⟩) ∧
    findNextNonDeleted [2, 3] ⟨[1, 2, 3], some 1, [1]⟩ =
      some (none, ⟨[1, 2, 3], some 0, [1]⟩) ∧
    ∃ res store', findNextNonDeleted [2] ⟨[1, 2, 3], some 1, []⟩ = some (res, store') ∧
      store'.uids = [1, 2, 3] ∧ store'.Deleted = [] ∧
      (∀ m, res = some m →
        store'.Selected = some m ∧ [1, 2, 3].get? m.slot = some m.Uid ∧
        m.Uid ∉ [2] ∧ m.Uid ∉ ([] : List UID) ∧
        ((1 ≤ m.slot ∧
            ∀ j uid, 1 ≤ j → j < m.slot → [1, 2, 3].get? j = some uid →
              uid ∈ [2] ∨ uid ∈ ([] : List UID)) ∨
          (m.slot < 1 ∧
            (∀ j uid, 1 ≤ j → [1, 2, 3].get? j = some uid →
              uid ∈ [2] ∨ uid ∈ ([] : List UID)) ∧
            ∀ j uid, m.slot < j → j < 1 → [1, 2, 3].get? j = some uid →
              uid ∈ [2] ∨ uid ∈ ([] : List UID)))) ∧
      (res = none →
        ∀ j uid, [1, 2, 3].get? j = some uid → uid ∈ [2] ∨ uid ∈ ([] : List UID)) :=
  ⟨by decide, by decide, by decide,
    findNextNonDeleted_spec [2] ⟨[1, 2, 3], some 1, []⟩ 1 rfl (by decide)⟩

/-! ### The rollback of a delete -/

theorem indexOf?_get (W : List UID) (target : UID) (h : target ∈ W) :
    ∃ i, W.indexOf? target = some i ∧ W.get? i = some target := by
  induction W with
  | nil => cases h
  | cons uid rest ih =>
    by_cases hu : uid = target
    · exact ⟨0, by simp [List.indexOf?, hu], by simp [hu]⟩
    · have hmem : target ∈ rest := by
        rcases List.mem_cons.1 h with h' | h'
        · exact absurd h'.symm hu
        · exact h'
      obtain ⟨i, hi, hget⟩ := ih hmem
      have hbeq : (uid == target) = false := by simpa using hu
      refine ⟨i + 1, ?_, by simpa using hget⟩
      simp only [List.indexOf?] at hi
      simp only [List.indexOf?, List.findIdx?_cons, hbeq, Bool.false_eq_true, if_false,
        List.findIdx?_succ, hi, Option.map_some']

theorem Select_selected (store : MessageStore) (uid : UID) (h : uid ∈ store.uids) :
    (store.Select uid).Selected.map (fun m => m.Uid) = some uid := by
  obtain ⟨i, hi, hget⟩ := indexOf?_get store.uids uid h
  have hsel : (store.Select uid).Selected = some ⟨i, uid⟩ :=
    Selected_at _ i uid hi hget
  rw [hsel]
  rfl

theorem deleteExecute_rollback (env : DeleteEnv) (store : MessageStore) (uids : List UID)
    (c : Nat) (msg : Terminal) (hargc : env.argc = 1) (hstore : env.store = .ok store)
    (huids : env.uids = .ok uids) (hacct : env.account = .ok ())
    (hc : store.cursor = some c) (hlt : c < store.uids.length) (hmsg : msg ≠ .Done) :
    ∃ store' effects, deleteExecute env msg = some (.completed store' effects) ∧
      store'.Selected.map (fun m => m.Uid) = store.Selected.map (fun m => m.Uid) ∧
      DeleteEffect.Remark ∈ effects ∧ store'.uids = store.uids := by
  obtain ⟨next, store1, hrun, hu1, -, -, -⟩ := findNextNonDeleted_total uids store c hc hlt
  obtain ⟨uid, hget⟩ : ∃ uid, store.uids.get? c = some uid :=
    ⟨store.uids.get ⟨c, hlt⟩, List.get?_eq_get hlt⟩
  have hsel : store.Selected = some ⟨c, uid⟩ := Selected_at store c uid hc hget
  have hmem : uid ∈ store.uids := List.get?_mem hget
  have hexec : deleteExecute env msg =
      some (deleteCallback env ((store1.markDeleted uids).onDeleteTerminal uids msg)
        (some ⟨c, uid⟩) next [DeleteEffect.ClearVisualMark] msg) := by
    simp [deleteExecute, hargc, hstore, huids, hacct, hrun, hsel]
  rw [hexec, hsel]
  cases msg with
  | Done => exact absurd rfl hmsg
  | Error e =>
    refine ⟨_, _, rfl, ?_, by simp, ?_⟩
    · exact Select_selected _ uid (by
        simpa [MessageStore.onDeleteTerminal, MessageStore.markDeleted, hu1] using hmem)
    · simp [MessageStore.Select, MessageStore.onDeleteTerminal, MessageStore.markDeleted, hu1]
  | Unsupported =>
    refine ⟨_, _, rfl, ?_, by simp, ?_⟩
    · exact Select_selected _ uid (by
        simpa [MessageStore.onDeleteTerminal, MessageStore.markDeleted, hu1] using hmem)
    · simp [MessageStore.Select, MessageStore.onDeleteTerminal, MessageStore.markDeleted, hu1]

/-- C16. The rollback of a delete fails on a store without a selected message:
deleting the marked message 2 while `store.Selected()` is `nil`, the callback
panics on `sel.Uid` when the action ends with `Error` or `Unsupported`, after
`marker.Remark()`. When a message is selected the rollback does what the claim
says: the marks are re-applied and the selected UID is the one selected before
the command. -/
theorem delete_rollback_selection :
    deleteExecute markedWithoutSelection (.Error "connection reset") =
      some (.panicked [DeleteEffect.ClearVisualMark, DeleteEffect.Remark]) ∧
    deleteExecute markedWithoutSelection .Unsupported =
      some (.panicked [DeleteEffect.ClearVisualMark, DeleteEffect.Remark]) ∧
    deleteExecute deleteSelected (.Error "connection reset") =
      some (.completed ⟨[1, 2, 3], some 1, []⟩
        [DeleteEffect.ClearVisualMark, DeleteEffect.Remark,
          DeleteEffect.PushError "connection reset"]) ∧
    ∀ (env : DeleteEnv) (store : MessageStore) (uids : List UID) (c : Nat) (msg : Terminal),
      env.argc = 1 → env.store = .ok store → env.uids = .ok uids → env.account = .ok () →
      store.cursor = some c → c < store.uids.length → msg ≠ .Done →
      ∃ store' effects, deleteExecute env msg = some (.completed store' effects) ∧
        store'.Selected.map (fun m => m.Uid) = store.Selected.map (fun m => m.Uid) ∧
        DeleteEffect.Remark ∈ effects ∧ store'.uids = store.uids :=
  ⟨by decide, by decide, by decide,
    fun env store uids c msg h1 h2 h3 h4 h5 h6 h7 =>
      deleteExecute_rollback env store uids c msg h1 h2 h3 h4 h5 h6 h7⟩

/-! ### The directory filters -/

theorem filterInclude_eq (R : Regexp) (folder : GoString) (exclude : Bool)
    (filters : List GoString) :
    filterInclude R folder exclude filters =
      ((filters.any fun f => folderMatches R folder f) != exclude) := by
  induction filters with
  | nil => cases exclude <;> rfl
  | cons f rest ih =>
    by_cases h : folderMatches R folder f = true
    · simp only [filterInclude, h, if_true, List.any_cons, Bool.true_or]
      cases exclude <;> rfl
    · simp only [Bool.not_eq_true] at h
      simp only [filterInclude, h, Bool.false_eq_true, if_false, List.any_cons, Bool.false_or, ih]

theorem foldl_append_filter (p : GoString → Bool) (orig acc : List GoString) :
    orig.foldl (fun dest folder => if p folder then dest ++ [folder] else dest) acc =
      acc ++ orig.filter p := by
  induction orig generalizing acc with
  | nil => simp
  | cons folder rest ih =>
    rw [List.foldl_cons, ih]
    by_cases h : p folder = true
    · simp [h]
    · simp [h]

theorem FilterDirs_eq_filter (R : Regexp) (orig filters : List GoString) (exclude : Bool)
    (h : filters ≠ []) :
    FilterDirs R orig filters exclude =
      orig.filter fun folder => (filters.any fun f => folderMatches R folder f) != exclude := by
  unfold FilterDirs
  have hlen : ¬ filters.length = 0 := fun h0 => h (List.eq_nil_of_length_eq_zero h0)
  rw [if_neg hlen, foldl_append_filter, List.nil_append]
  apply List.filter_congr
  intro folder _
  exact filterInclude_eq R folder exclude filters

/-- C20. `FilterDirs` returns `orig` for empty filters; for non-empty filters it
returns, in the order of `orig`, the folders that match at least one filter when
`exclude` is false and the folders that match no filter when `exclude` is true,
so that the two results split `orig`; and a filter that is not a regular
expression matches a folder exactly when it is non-empty and equal to it. -/
theorem FilterDirs_spec (R : Regexp) :
    (∀ (orig : List GoString) (exclude : Bool), FilterDirs R orig [] exclude = orig) ∧
    (∀ orig filters : List GoString, filters ≠ [] →
      FilterDirs R orig filters false =
        orig.filter (fun folder => filters.any fun f => folderMatches R folder f) ∧
      FilterDirs R orig filters true =
        orig.filter (fun folder => !filters.any fun f => folderMatches R folder f) ∧
      (FilterDirs R orig filters false).Sublist orig ∧
      (FilterDirs R orig filters true).Sublist orig ∧
      (FilterDirs R orig filters false ++ FilterDirs R orig filters true).Perm orig ∧
      ∀ folder, folder ∈ orig →
        (folder ∈ FilterDirs R orig filters false ↔ folder ∉ FilterDirs R orig filters true)) ∧
    (∀ (folder pattern : GoString), pattern.head? ≠ some '~' →
      (folderMatches R folder pattern = true ↔ pattern ≠ [] ∧ pattern = folder)) := by
  refine ⟨fun orig exclude => rfl, fun orig filters hne => ?_, fun folder pattern hp => ?_⟩
  · have hinc : FilterDirs R orig filters false =
        orig.filter (fun folder => filters.any fun f => folderMatches R folder f) := by
      rw [FilterDirs_eq_filter R orig filters false hne]
      apply List.filter_congr
      intro folder _
      cases (filters.any fun f => folderMatches R folder f) <;> rfl
    have hexc : FilterDirs R orig filters true =
        orig.filter (fun folder => !filters.any fun f => folderMatches R folder f) := by
      rw [FilterDirs_eq_filter R orig filters true hne]
      apply List.filter_congr
      intro folder _
      cases (filters.any fun f => folderMatches R folder f) <;> rfl
    refine ⟨hinc, hexc, ?_, ?_, ?_, ?_⟩
    · rw [hinc]; exact List.filter_sublist _
    · rw [hexc]; exact List.filter_sublist _
    · rw [hinc, hexc]
      exact List.filter_append_perm _ orig
    · intro folder hmem
      rw [hinc, hexc]
      simp only [List.mem_filter, hmem, true_and, Bool.not_eq_true']
      cases (filters.any fun f => folderMatches R folder f) <;> simp
  · cases pattern with
    | nil => simp [folderMatches]
    | cons c expr =>
      have hc : c ≠ '~' := by
        intro h
        apply hp
        simp [h]
      simp [folderMatches, hc]

/-- Witness of C20: with the filters `INBOX` and `~ra`, the folders `INBOX`
and `Drafts` are included and `Sent` is what the exclusion keeps. -/
theorem FilterDirs_spec_witness :
    FilterDirs substringRegexp ["INBOX".toList, "Sent".toList, "Drafts".toList]
      ["INBOX".toList, "~ra".toList] false = ["INBOX".toList, "Drafts".toList] ∧
    FilterDirs substringRegexp ["INBOX".toList, "Sent".toList, "Drafts".toList]
      ["INBOX".toList, "~ra".toList] true = ["Sent".toList] ∧
    (FilterDirs substringRegexp ["INBOX".toList, "Sent".toList, "Drafts".toList]
      ["INBOX".toList, "~ra".toList] false ++
      FilterDirs substringRegexp ["INBOX".toList, "Sent".toList, "Drafts".toList]
        ["INBOX".toList, "~ra".toList] true).Perm
      ["INBOX".toList, "Sent".toList, "Drafts".toList] :=
  ⟨by decide, by decide,
    (((FilterDirs_spec substringRegexp).2.1
      ["INBOX".toList, "Sent".toList, "Drafts".toList] ["INBOX".toList, "~ra".toList]
      (by decide)).2.2.2.2).1⟩

/-! ### Debounced selection -/

theorem Select_elapse (E : DirlistEnv) (d : DirectoryList) (name : GoString) (gap : Nat) :
    ((d.Select E name).elapse gap).posted =
        (if d.delayFor E name ≤ gap then d.posted ++ [name] else d.posted) ∧
      ((d.Select E name).elapse gap).selected = d.selected ∧
      ((d.Select E name).elapse gap).selecting = name ∧
      ((d.Select E name).elapse gap).dirs = d.dirs ∧
      (d.delayFor E name ≤ gap → ((d.Select E name).elapse gap).waiting = none) := by
  by_cases h : d.delayFor E name ≤ gap
  · have h' : d.now + d.delayFor E name ≤ d.now + gap := by omega
    simp [DirectoryList.Select, DirectoryList.elapse, h, h']
  · have h' : ¬ d.now + d.delayFor E name ≤ d.now + gap := by omega
    simp [DirectoryList.Select, DirectoryList.elapse, h, h']

theorem delayFor_congr (E : DirlistEnv) (d d' : DirectoryList) (name : GoString)
    (h : d'.selected = d.selected) : d'.delayFor E name = d.delayFor E name := by
  simp [DirectoryList.delayFor, h]

theorem selects_within (E : DirlistEnv) :
    ∀ (calls : List (GoString × Nat)) (d : DirectoryList),
      (∀ call ∈ calls, call.2 < d.delayFor E call.1) →
      (d.selects E calls).posted = d.posted ∧ (d.selects E calls).selected = d.selected := by
  intro calls
  induction calls with
  | nil => intro d _; exact ⟨rfl, rfl⟩
  | cons call rest ih =>
    intro d h
    obtain ⟨name, gap⟩ := call
    have hgap : gap < d.delayFor E name := h (name, gap) (List.mem_cons_self _ _)
    obtain ⟨hp, hs, -, -, -⟩ := Select_elapse E d name gap
    rw [if_neg (by omega)] at hp
    have hrest := ih ((d.Select E name).elapse gap) (by
      intro c hc
      rw [delayFor_congr E d _ c.1 hs]
      exact h c (List.mem_cons_of_mem _ hc))
    simp only [DirectoryList.selects]
    exact ⟨hrest.1.trans hp, hrest.2.trans hs⟩

theorem selects_append (E : DirlistEnv) :
    ∀ (xs ys : List (GoString × Nat)) (d : DirectoryList),
      d.selects E (xs ++ ys) = (d.selects E xs).selects E ys := by
  intro xs
  induction xs with
  | nil => intro ys d; rfl
  | cons call rest ih =>
    intro ys d
    obtain ⟨name, gap⟩ := call
    simp only [List.cons_append, DirectoryList.selects]
    exact ih ys _

theorem selects_last (E : DirlistEnv) (d : DirectoryList) (calls : List (GoString × Nat))
    (last : GoString) (gap : Nat) (h : ∀ call ∈ calls, call.2 < d.delayFor E call.1) :
    (d.selects E (calls ++ [(last, gap)])).posted =
      if d.delayFor E last ≤ gap then d.posted ++ [last] else d.posted := by
  obtain ⟨hp, hs⟩ := selects_within E calls d h
  rw [selects_append]
  simp only [DirectoryList.selects]
  obtain ⟨hp', -, -, -, -⟩ := Select_elapse E (d.selects E calls) last gap
  rw [hp', delayFor_congr E d _ last hs, hp]

/-- C18. Debounced selection: of a series of `Select` calls each made before
the delay of the call before it has elapsed, only the last one posts an
`OpenDirectory` action, once its own delay has elapsed, and no action names an
earlier call; so `Select(a)` followed within the delay of `a` by `Select(b)`
posts exactly one action, for `b`. -/
theorem select_debounced (E : DirlistEnv) (d : DirectoryList) :
    (∀ (calls : List (GoString × Nat)) (last : GoString) (gap : Nat),
      (∀ call ∈ calls, call.2 < d.delayFor E call.1) →
      (d.selects E (calls ++ [(last, gap)])).posted =
        if d.delayFor E last ≤ gap then d.posted ++ [last] else d.posted) ∧
    (∀ (a b : GoString) (dt gap : Nat), dt < d.delayFor E a → d.delayFor E b ≤ gap →
      ((((d.Select E a).elapse dt).Select E b).elapse gap).posted = d.posted ++ [b] ∧
      ((d.Select E a).elapse dt).posted = d.posted) := by
  refine ⟨fun calls last gap h => selects_last E d calls last gap h, ?_⟩
  intro a b dt gap hdt hgap
  have h := selects_last E d [(a, dt)] b gap (by
    intro call hc
    rw [List.mem_singleton.1 hc]
    exact hdt)
  rw [if_pos hgap] at h
  refine ⟨h, ?_⟩
  obtain ⟨hp, -, -, -, -⟩ := Select_elapse E d a dt
  rw [hp, if_neg (by omega)]

/-- Witness of C18: with a delay of 200 ms, `Select("INBOX")` followed after
50 ms by `Select("Drafts")` posts one `OpenDirectory`, for `Drafts`. -/
theorem select_debounced_witness :
    (sampleDirlist.selects sampleDirlistEnv
      [("INBOX".toList, 50000000), ("Drafts".toList, 200000000)]).posted =
        ["Drafts".toList] ∧
    ((((sampleDirlist.Select sampleDirlistEnv "INBOX".toList).elapse 50000000).Select
      sampleDirlistEnv "Drafts".toList).elapse 200000000).posted =
        sampleDirlist.posted ++ ["Drafts".toList] ∧
    ((sampleDirlist.Select sampleDirlistEnv "INBOX".toList).elapse 50000000).posted =
      sampleDirlist.posted :=
  ⟨by decide,
    (select_debounced sampleDirlistEnv sampleDirlist).2 "INBOX".toList "Drafts".toList
      50000000 200000000 (by decide) (by decide)⟩

/-! ### The callback of `OpenDirectory` -/

theorem sortDirsByFoldersSortConfig_selected (E : DirlistEnv) (d : DirectoryList) :
    (d.sortDirsByFoldersSortConfig E).selected = d.selected ∧
      (d.sortDirsByFoldersSortConfig E).selecting = d.selecting := by
  unfold DirectoryList.sortDirsByFoldersSortConfig
  split <;> exact ⟨rfl, rfl⟩

theorem onOpenDirectory_done_selected (E : DirlistEnv) (d : DirectoryList) :
    (d.onOpenDirectory E .Done).selected = d.selecting ∧
      (d.onOpenDirectory E .Done).selecting = d.selecting := by
  simp only [DirectoryList.onOpenDirectory]
  refine ⟨?_, ?_⟩
  · rw [(sortDirsByFoldersSortConfig_selected E _).1]
    split <;> split <;> rfl
  · rw [(sortDirsByFoldersSortConfig_selected E _).2]
    split <;> split <;> rfl

/-- C19. When the `OpenDirectory` action ends with `Error`, `selected` and
`selecting` are cleared to the empty string and the visible list is left as it
was; when it ends with `Done`, `selected` becomes the value of `selecting`,
which is the opened name when nothing happened between the `Select` call, the
posting of its action and the `Done`. -/
theorem onOpenDirectory_spec (E : DirlistEnv) (d : DirectoryList) :
    (∀ e, (d.onOpenDirectory E (.Error e)).selected = [] ∧
      (d.onOpenDirectory E (.Error e)).selecting = [] ∧
      (d.onOpenDirectory E (.Error e)).dirs = d.dirs) ∧
    (d.onOpenDirectory E .Done).selected = d.selecting ∧
    (∀ (name : GoString) (gap : Nat), d.delayFor E name ≤ gap →
      ((d.Select E name).elapse gap).posted = d.posted ++ [name] ∧
      (((d.Select E name).elapse gap).onOpenDirectory E .Done).selected = name) := by
  refine ⟨fun e => ⟨rfl, rfl, rfl⟩, (onOpenDirectory_done_selected E d).1, ?_⟩
  intro name gap hgap
  obtain ⟨hp, -, hsel, -, -⟩ := Select_elapse E d name gap
  rw [if_pos hgap] at hp
  exact ⟨hp, by rw [(onOpenDirectory_done_selected E _).1, hsel]⟩

/-- Witness of C19: from the sample list at rest on `INBOX`, `Select("Sent")`
posts its action after 200 ms; on `Done` the selected directory is `Sent`, on
`Error` both names are empty and the list is unchanged. -/
theorem onOpenDirectory_spec_witness :
    (((sampleDirlist.Select sampleDirlistEnv "Sent".toList).elapse 200000000).onOpenDirectory
      sampleDirlistEnv .Done).selected = "Sent".toList ∧
    (((sampleDirlist.Select sampleDirlistEnv "Sent".toList).elapse 200000000).onOpenDirectory
      sampleDirlistEnv (.Error "no such directory")).selected = [] ∧
    (((sampleDirlist.Select sampleDirlistEnv "Sent".toList).elapse 200000000).onOpenDirectory
      sampleDirlistEnv (.Error "no such directory")).dirs =
      ["INBOX".toList, "Drafts".toList, "Sent".toList] :=
  ⟨((onOpenDirectory_spec sampleDirlistEnv sampleDirlist).2.2 "Sent".toList 200000000
      (by decide)).2,
    by decide, by decide⟩

/-! ### The header is loaded before it is used -/

theorem matchDate_no_panic (header : Option MessageInfo) (c : searchCriteria)
    (parts : MsgParts) (h : parts &&& DATE > 0 → ∃ mi, header = some mi) :
    matchDate header c parts ≠ .panic := by
  unfold matchDate
  by_cases hd : parts &&& DATE > 0
  · obtain ⟨mi, hmi⟩ := h hd
    rw [if_pos hd, hmi]
    simp only []
    rcases mi.RFC822Headers.Date with e | date
    · simp
    · simp only []
      split_ifs <;> simp
  · rw [if_neg hd]; simp

theorem matchHeader_no_panic (U : Unicode) (header : Option MessageInfo) (hdr : MIMEHeader)
    (h : hdr ≠ [] → ∃ mi, header = some mi) : matchHeader U header hdr ≠ .panic := by
  by_cases hh : hdr = []
  · rw [hh]; simp [matchHeader]
  · obtain ⟨mi, hmi⟩ := h hh
    rw [hmi, matchHeader_some]; simp

/-- C26. `searchKey` never dereferences an unloaded header when it is called
with `parts = getRequiredParts c`: a non-empty `c.Header` sets the `HEADER`
bit, the date check runs only under the `DATE` bit, and whenever the message is
found and all its reads succeed the header has been loaded if the header-term
loop has a field to look up or the date check runs, so that neither of them
takes the nil-pointer branch; the call as a whole never panics, whatever the
backend answers. -/
theorem searchKey_header_loaded (L : Lib) (w : Worker) (key : UID) (c : searchCriteria) :
    (c.Header ≠ [] → getRequiredParts c &&& HEADER > 0) ∧
    (getRequiredParts c &&& DATE = 0 →
      ∀ header, matchDate header c (getRequiredParts c) = .ok true) ∧
    (∀ m l, w.Message key = .ok m → (loadParts L m (getRequiredParts c)).2 = .ok l →
      ((c.Header ≠ [] ∨ getRequiredParts c &&& DATE > 0) → ∃ mi, l.header = some mi) ∧
      matchHeader L.unicode l.header c.Header ≠ .panic ∧
      matchDate l.header c (getRequiredParts c) ≠ .panic) ∧
    (searchKey L w key c (getRequiredParts c)).2 ≠ .panic := by
  obtain ⟨bH, -, -, -, -, -⟩ := getRequiredParts_bits c
  simp only [← Nat.pos_iff_ne_zero] at bH
  refine ⟨bH.2, ?_, ?_, searchKey_no_panic L w key c⟩
  · intro hz header
    unfold matchDate
    rw [if_neg (by rw [hz]; exact Nat.lt_irrefl 0)]
  · intro m l _ hl
    have hheader : (c.Header ≠ [] ∨ getRequiredParts c &&& DATE > 0) →
        ∃ mi, l.header = some mi := fun h =>
      loadParts_header L m _ l hl (h.imp bH.2 id)
    exact ⟨hheader, matchHeader_no_panic _ _ _ fun h => hheader (Or.inl h),
      matchDate_no_panic _ _ _ fun h => hheader (Or.inr h)⟩

/-! ### The open directory in the visible list -/

theorem hasSelected_iff (dirs : List GoString) (selected : GoString) :
    hasSelected dirs selected = true ↔ selected ∈ dirs := by
  induction dirs with
  | nil => simp [hasSelected]
  | cons d rest ih =>
    by_cases h : d = selected
    · simp [hasSelected, h]
    · have h' : ¬ selected = d := fun e => h e.symm
      simp [hasSelected, h, h', ih]

theorem mem_sortSlice (less : GoString → GoString → Bool) (dirs : List GoString)
    (x : GoString) : x ∈ sortSlice less dirs ↔ x ∈ dirs :=
  (List.perm_insertionSort _ dirs).mem_iff

theorem sortDirsByFoldersSortConfig_mem (E : DirlistEnv) (d : DirectoryList) (x : GoString) :
    x ∈ (d.sortDirsByFoldersSortConfig E).dirs ↔ x ∈ d.dirs := by
  unfold DirectoryList.sortDirsByFoldersSortConfig
  split
  · rfl
  · exact mem_sortSlice _ _ _

theorem onOpenDirectory_done_mem (E : DirlistEnv) (d : DirectoryList)
    (h : d.selecting ≠ []) : d.selecting ∈ (d.onOpenDirectory E .Done).dirs := by
  simp only [DirectoryList.onOpenDirectory]
  rw [sortDirsByFoldersSortConfig_mem]
  have key : d.selecting ∈
      (if (!hasSelected
            (DirectoryList.filterDirsByFoldersConfig E { d with selected := d.selecting }).dirs
            (DirectoryList.filterDirsByFoldersConfig E
              { d with selected := d.selecting }).selected &&
          decide ((DirectoryList.filterDirsByFoldersConfig E
            { d with selected := d.selecting }).selected ≠ [])) = true then
        { DirectoryList.filterDirsByFoldersConfig E { d with selected := d.selecting } with
          dirs := (DirectoryList.filterDirsByFoldersConfig E
              { d with selected := d.selecting }).dirs ++
            [(DirectoryList.filterDirsByFoldersConfig E
              { d with selected := d.selecting }).selected] }
      else DirectoryList.filterDirsByFoldersConfig E { d with selected := d.selecting }).dirs := by
    have hs : (DirectoryList.filterDirsByFoldersConfig E
        { d with selected := d.selecting }).selected = d.selecting := rfl
    by_cases hh : hasSelected
        (DirectoryList.filterDirsByFoldersConfig E { d with selected := d.selecting }).dirs
        d.selecting = true
    · rw [if_neg (by simp [hs, hh])]
      exact (hasSelected_iff _ _).1 hh
    · rw [if_pos (by simp [hs, hh, h])]
      simp [hs]
  split
  · exact (mem_sortSlice _ _ _).2 key
  · exact key

theorem FilterDirs_mem (R : Regexp) (orig filters : List GoString) (exclude : Bool)
    (x : GoString) (h : x ∈ FilterDirs R orig filters exclude) :
    x ∈ orig ∧ (filters ≠ [] → filterInclude R x exclude filters = true) := by
  by_cases hf : filters = []
  · subst hf
    exact ⟨h, fun hne => absurd rfl hne⟩
  · rw [FilterDirs_eq_filter R orig filters exclude hf, List.mem_filter] at h
    exact ⟨h.1, fun _ => by rw [filterInclude_eq]; exact h.2⟩

/-- C21. The `Done` callback of `Select` leaves the selected directory in the
visible list whenever it is non-empty, for every filter and sort configuration.
The `Done` callback of `UpdateList` does not: it keeps `selected` and rebuilds
`dirs` as the filtered and sorted listing alone, so that every visible folder
passes the inclusion and the exclusion filter. With `folders = INBOX` and
`Archive` opened by `Select`, the visible list is `INBOX, Archive` before the
listing is refreshed and `INBOX` after it, while `Selected()` is still
`Archive`. -/
theorem updateList_drops_selected :
    (∀ (E : DirlistEnv) (d : DirectoryList),
      (d.onOpenDirectory E .Done).selected ≠ [] →
        (d.onOpenDirectory E .Done).selected ∈ (d.onOpenDirectory E .Done).dirs) ∧
    (∀ (E : DirlistEnv) (Update : List GoString → List GoString)
      (st : DirectoryList × List GoString),
      (DirectoryList.onListDirectories E Update st .Done).1.selected = st.1.selected ∧
      ∀ x ∈ (DirectoryList.onListDirectories E Update st .Done).1.dirs,
        (E.acctConf.Folders ≠ [] →
          filterInclude E.regexp x false E.acctConf.Folders = true) ∧
        (E.acctConf.FoldersExclude ≠ [] →
          filterInclude E.regexp x true E.acctConf.FoldersExclude = true)) ∧
    (selectingArchive.onOpenDirectory inboxOnlyEnv .Done).selected = "Archive".toList ∧
    (selectingArchive.onOpenDirectory inboxOnlyEnv .Done).dirs =
      ["INBOX".toList, "Archive".toList] ∧
    ((selectingArchive.onOpenDirectory inboxOnlyEnv .Done).UpdateList inboxOnlyEnv id
      [.Directory "INBOX".toList, .Directory "Archive".toList, .Done]).selected =
        "Archive".toList ∧
    ((selectingArchive.onOpenDirectory inboxOnlyEnv .Done).UpdateList inboxOnlyEnv id
      [.Directory "INBOX".toList, .Directory "Archive".toList, .Done]).dirs =
        ["INBOX".toList] := by
  refine ⟨?_, ?_, by decide, by decide, by decide, by decide⟩
  · intro E d h
    rw [(onOpenDirectory_done_selected E d).1] at h ⊢
    exact onOpenDirectory_done_mem E d h
  · intro E Update st
    simp only [DirectoryList.onListDirectories]
    refine ⟨(sortDirsByFoldersSortConfig_selected E _).1, ?_⟩
    intro x hx
    rw [sortDirsByFoldersSortConfig_mem] at hx
    simp only [DirectoryList.filterDirsByFoldersConfig] at hx
    obtain ⟨h1, h2⟩ := FilterDirs_mem _ _ _ _ _ hx
    exact ⟨(FilterDirs_mem _ _ _ _ _ h1).2, h2⟩

/-! ### The configured folder order -/

theorem findStringFrom_spec (str : GoString) (slice : List GoString) (i : Nat) :
    findStringFrom str slice i =
      if str ∈ slice then ((i + slice.indexOf str : Nat) : Int) else -1 := by
  induction slice generalizing i with
  | nil => simp [findStringFrom]
  | cons s rest ih =>
    by_cases h : str = s
    · subst h
      simp [findStringFrom, List.indexOf_cons]
    · have h' : (s == str) = false := by
        rw [beq_eq_false_iff_ne]
        exact fun e => h e.symm
      rw [findStringFrom, if_neg h, ih, List.indexOf_cons, h', cond_false]
      by_cases hm : str ∈ rest
      · rw [if_pos hm, if_pos (List.mem_cons_of_mem _ hm)]
        congr 1
        omega
      · rw [if_neg hm, if_neg (by simp [h, hm])]

theorem findString_spec (slice : List GoString) (str : GoString) :
    findString slice str = if str ∈ slice then ((slice.indexOf str : Nat) : Int) else -1 := by
  unfold findString
  rw [findStringFrom_spec]
  simp

theorem foldersSortLess_eq (foldersSort : List GoString) (a b : GoString) :
    foldersSortLess foldersSort a b =
      if a ∈ foldersSort then
        (if b ∈ foldersSort then decide (foldersSort.indexOf a < foldersSort.indexOf b)
          else true)
      else (if b ∈ foldersSort then false else stringLess a b) := by
  unfold foldersSortLess
  simp only [findString_spec]
  by_cases ha : a ∈ foldersSort <;> by_cases hb : b ∈ foldersSort <;> simp [ha, hb]

theorem stringLess_asymm : ∀ a b : GoString, stringLess a b = true → stringLess b a = false
  | [], [], h => by simp [stringLess] at h
  | [], _ :: _, _ => by simp [stringLess]
  | _ :: _, [], h => by simp [stringLess] at h
  | x :: a, y :: b, h => by
    simp only [stringLess] at h ⊢
    by_cases h1 : x.toNat < y.toNat
    · have h2 : ¬ y.toNat < x.toNat := by omega
      simp [h1, h2]
    · by_cases h2 : y.toNat < x.toNat
      · simp [h1, h2] at h
      · simp only [h1, h2, if_false] at h ⊢
        exact stringLess_asymm a b h

theorem stringLess_trans_le : ∀ a b c : GoString,
    stringLess b a = false → stringLess c b = false → stringLess c a = false
  | [], _, [], _, _ => by simp [stringLess]
  | [], _, _ :: _, _, _ => by simp [stringLess]
  | _ :: _, [], _, h1, _ => by simp [stringLess] at h1
  | _ :: _, _ :: _, [], _, h2 => by simp [stringLess] at h2
  | x :: a, y :: b, z :: c, h1, h2 => by
    simp only [stringLess] at h1 h2 ⊢
    by_cases hyx : y.toNat < x.toNat
    · simp [hyx] at h1
    · by_cases hzy : z.toNat < y.toNat
      · simp [hzy] at h2
      · simp only [hyx, hzy, if_false] at h1 h2
        by_cases hxy : x.toNat < y.toNat
        · have hzx : ¬ z.toNat < x.toNat := by omega
          have hxz : x.toNat < z.toNat := by omega
          simp [hzx, hxz]
        · by_cases hyz : y.toNat < z.toNat
          · have hzx : ¬ z.toNat < x.toNat := by omega
            have hxz : x.toNat < z.toNat := by omega
            simp [hzx, hxz]
          · have hzx : ¬ z.toNat < x.toNat := by omega
            have hxz : ¬ x.toNat < z.toNat := by omega
            simp only [hxy, hyz, if_false] at h1 h2
            simp only [hzx, hxz, if_false]
            exact stringLess_trans_le a b c h1 h2

theorem foldersSortLess_total (foldersSort : List GoString) (a b : GoString) :
    foldersSortLess foldersSort b a = false ∨ foldersSortLess foldersSort a b = false := by
  rw [foldersSortLess_eq, foldersSortLess_eq]
  by_cases ha : a ∈ foldersSort <;> by_cases hb : b ∈ foldersSort
  · simp only [ha, hb, if_true, decide_eq_false_iff_not]
    omega
  · simp [ha, hb]
  · simp [ha, hb]
  · simp only [ha, hb, if_false]
    rcases hab : stringLess a b with _ | _
    · exact Or.inr rfl
    · exact Or.inl (stringLess_asymm a b hab)

theorem foldersSortLess_trans (foldersSort : List GoString) (a b c : GoString)
    (h1 : foldersSortLess foldersSort b a = false)
    (h2 : foldersSortLess foldersSort c b = false) :
    foldersSortLess foldersSort c a = false := by
  rw [foldersSortLess_eq] at h1 h2 ⊢
  by_cases ha : a ∈ foldersSort <;> by_cases hb : b ∈ foldersSort <;>
    by_cases hc : c ∈ foldersSort <;>
    simp only [ha, hb, hc, if_true, if_false, decide_eq_false_iff_not] at h1 h2 ⊢ <;>
    first
    | omega
    | exact stringLess_trans_le a b c h1 h2
    | exact Bool.noConfusion h1
    | exact Bool.noConfusion h2

theorem sortSlice_foldersSortLess_sorted (foldersSort dirs : List GoString) :
    (sortSlice (foldersSortLess foldersSort) dirs).Pairwise
      fun a b => foldersSortLess foldersSort b a = false := by
  haveI : IsTotal GoString (fun a b => foldersSortLess foldersSort b a = false) :=
    ⟨fun a b => foldersSortLess_total foldersSort a b⟩
  haveI : IsTrans GoString (fun a b => foldersSortLess foldersSort b a = false) :=
    ⟨fun a b c h1 h2 => foldersSortLess_trans foldersSort a b c h1 h2⟩
  exact List.sorted_insertionSort _ dirs

theorem pairwise_split (p : GoString → Bool) (l : List GoString)
    (h : l.Pairwise fun a b => p b = true → p a = true) :
    l = l.filter p ++ l.filter fun a => !p a := by
  induction l with
  | nil => rfl
  | cons a t ih =>
    rw [List.pairwise_cons] at h
    by_cases hp : p a = true
    · rw [List.filter_cons_of_pos hp, List.filter_cons_of_neg (by simp [hp]), List.cons_append,
        ← ih h.2]
    · have hnone : ∀ b ∈ t, ¬ p b = true := fun b hb hpb => hp (h.1 b hb hpb)
      have h1 : t.filter p = [] := List.filter_eq_nil_iff.2 hnone
      have h2 : (t.filter fun a => !p a) = t :=
        List.filter_eq_self.2 fun b hb => by simpa using hnone b hb
      rw [List.filter_cons_of_neg hp, List.filter_cons_of_pos (by simpa using hp), h1, h2,
        List.nil_append]

/-- C22. `sortDirsByFoldersSortConfig` leaves the directory list as it is when
folder sorting is disabled. When it is enabled only `dirs` changes: the new
`dirs` is a permutation of the old one, it is the folders listed in
`FoldersSort` followed by the folders that are not, a listed folder never
comes after a listed folder whose first position in `FoldersSort` is smaller,
and an unlisted folder never comes after an unlisted folder that is smaller
as a string. -/
theorem sortDirsByFoldersSortConfig_spec (E : DirlistEnv) (d : DirectoryList) :
    (E.acctConf.EnableFoldersSort = false → d.sortDirsByFoldersSortConfig E = d) ∧
    (E.acctConf.EnableFoldersSort = true →
      { d.sortDirsByFoldersSortConfig E with dirs := d.dirs } = d ∧
      (d.sortDirsByFoldersSortConfig E).dirs.Perm d.dirs ∧
      (d.sortDirsByFoldersSortConfig E).dirs =
        (d.sortDirsByFoldersSortConfig E).dirs.filter
            (fun a => decide (a ∈ E.acctConf.FoldersSort)) ++
          (d.sortDirsByFoldersSortConfig E).dirs.filter
            (fun a => !decide (a ∈ E.acctConf.FoldersSort)) ∧
      (d.sortDirsByFoldersSortConfig E).dirs.Pairwise (fun a b =>
        (b ∈ E.acctConf.FoldersSort → a ∈ E.acctConf.FoldersSort) ∧
        (a ∈ E.acctConf.FoldersSort → b ∈ E.acctConf.FoldersSort →
          E.acctConf.FoldersSort.indexOf a ≤ E.acctConf.FoldersSort.indexOf b) ∧
        (a ∉ E.acctConf.FoldersSort → b ∉ E.acctConf.FoldersSort →
          stringLess b a = false))) := by
  refine ⟨fun h => ?_, fun h => ?_⟩
  · simp [DirectoryList.sortDirsByFoldersSortConfig, h]
  · have hd : d.sortDirsByFoldersSortConfig E =
        { d with dirs := sortSlice (foldersSortLess E.acctConf.FoldersSort) d.dirs } := by
      simp [DirectoryList.sortDirsByFoldersSortConfig, h]
    have hpw : (sortSlice (foldersSortLess E.acctConf.FoldersSort) d.dirs).Pairwise (fun a b =>
        (b ∈ E.acctConf.FoldersSort → a ∈ E.acctConf.FoldersSort) ∧
        (a ∈ E.acctConf.FoldersSort → b ∈ E.acctConf.FoldersSort →
          E.acctConf.FoldersSort.indexOf a ≤ E.acctConf.FoldersSort.indexOf b) ∧
        (a ∉ E.acctConf.FoldersSort → b ∉ E.acctConf.FoldersSort →
          stringLess b a = false)) := by
      refine (sortSlice_foldersSortLess_sorted E.acctConf.FoldersSort d.dirs).imp ?_
      intro a b hab
      rw [foldersSortLess_eq] at hab
      by_cases ha : a ∈ E.acctConf.FoldersSort <;> by_cases hb : b ∈ E.acctConf.FoldersSort <;>
        simp only [ha, hb, if_true, if_false, decide_eq_false_iff_not] at hab
      · exact ⟨fun _ => ha, fun _ _ => by omega, fun h => absurd ha h⟩
      · exact ⟨fun h => absurd h hb, fun _ h => absurd h hb, fun h => absurd ha h⟩
      · exact Bool.noConfusion hab
      · exact ⟨fun h => absurd h hb, fun h => absurd h ha, fun _ _ => hab⟩
    rw [hd]
    refine ⟨rfl, List.perm_insertionSort _ _, ?_, hpw⟩
    exact pairwise_split (fun a => decide (a ∈ E.acctConf.FoldersSort)) _
      (hpw.imp fun h hb => by simpa using h.1 (by simpa using hb))

theorem sortDirsByFoldersSortConfig_example :
    ({ sampleDirlist with
        dirs := ["Sent".toList, "Zeta".toList, "Archive".toList, "INBOX".toList]
      }.sortDirsByFoldersSortConfig sortedDirlistEnv).dirs =
      ["INBOX".toList, "Sent".toList, "Archive".toList, "Zeta".toList] := by
  decide

theorem stringLess_antisymm : ∀ a b : GoString,
    stringLess a b = false → stringLess b a = false → a = b
  | [], [], _, _ => rfl
  | [], _ :: _, h, _ => by simp [stringLess] at h
  | _ :: _, [], _, h => by simp [stringLess] at h
  | x :: a, y :: b, h1, h2 => by
    simp only [stringLess] at h1 h2
    by_cases hxy : x.toNat < y.toNat
    · simp [hxy] at h1
    · by_cases hyx : y.toNat < x.toNat
      · simp [hyx] at h2
      · simp only [hxy, hyx, if_false] at h1 h2
        have hc : x = y := Char.ext (UInt32.ext (by
          show x.toNat = y.toNat
          omega))
        rw [hc, stringLess_antisymm a b h1 h2]

theorem indexOf_eq_imp (l : List GoString) (a b : GoString) (ha : a ∈ l) (hb : b ∈ l)
    (h : l.indexOf a = l.indexOf b) : a = b := by
  induction l with
  | nil => simp at ha
  | cons s rest ih =>
    rw [List.indexOf_cons, List.indexOf_cons] at h
    by_cases hsa : s = a
    · by_cases hsb : s = b
      · rw [← hsa, ← hsb]
      · have hsb' : (s == b) = false := by rw [beq_eq_false_iff_ne]; exact hsb
        have hsa' : (s == a) = true := by rw [beq_iff_eq]; exact hsa
        rw [hsa', hsb', cond_true, cond_false] at h
        omega
    · have hsa' : (s == a) = false := by rw [beq_eq_false_iff_ne]; exact hsa
      by_cases hsb : s = b
      · have hsb' : (s == b) = true := by rw [beq_iff_eq]; exact hsb
        rw [hsa', hsb', cond_true, cond_false] at h
        omega
      · have hsb' : (s == b) = false := by rw [beq_eq_false_iff_ne]; exact hsb
        simp only [hsa', hsb', cond_false, add_left_inj] at h
        have ha' : a ∈ rest := by
          rcases List.mem_cons.1 ha with e | e
          · exact absurd e.symm hsa
          · exact e
        have hb' : b ∈ rest := by
          rcases List.mem_cons.1 hb with e | e
          · exact absurd e.symm hsb
          · exact e
        exact ih ha' hb' h

theorem foldersSortLess_antisymm (foldersSort : List GoString) (a b : GoString)
    (h1 : foldersSortLess foldersSort b a = false)
    (h2 : foldersSortLess foldersSort a b = false) : a = b := by
  rw [foldersSortLess_eq] at h1 h2
  by_cases ha : a ∈ foldersSort <;> by_cases hb : b ∈ foldersSort <;>
    simp only [ha, hb, if_true, if_false, decide_eq_false_iff_not] at h1 h2
  · exact indexOf_eq_imp foldersSort a b ha hb (by omega)
  · exact Bool.noConfusion h2
  · exact Bool.noConfusion h1
  · exact stringLess_antisymm a b h2 h1

theorem sortSlice_foldersSortLess_unique (foldersSort dirs sorted : List GoString)
    (hperm : sorted.Perm dirs)
    (hsorted : sorted.Pairwise fun a b => foldersSortLess foldersSort b a = false) :
    sorted = sortSlice (foldersSortLess foldersSort) dirs := by
  haveI : IsAntisymm GoString (fun a b => foldersSortLess foldersSort b a = false) :=
    ⟨fun a b h1 h2 => foldersSortLess_antisymm foldersSort a b h1 h2⟩
  exact List.eq_of_perm_of_sorted (hperm.trans (List.perm_insertionSort _ dirs).symm) hsorted
    (sortSlice_foldersSortLess_sorted foldersSort dirs)

/-! ### The split size -/

theorem splitFinish_size (acct : SplitAccount) (cmd : GoString) (n : Int) (call : SplitCall)
    (h : splitFinish acct cmd n = .ok (some call)) :
    0 ≤ call.size ∧ (call = .Split call.size ∨ call = .Vsplit call.size) := by
  have hn : (0 : Int) ≤
      (if (if n = acct.SplitSize then 0 else n) < 0 then 1
        else (if n = acct.SplitSize then 0 else n)) := by
    split_ifs <;> omega
  have hdef : splitFinish acct cmd n =
      (fun m : Int =>
        if cmd = "split".toList then Result.ok (some (SplitCall.Split m))
        else if cmd = "vsplit".toList then Result.ok (some (SplitCall.Vsplit m))
        else Result.ok none)
      (if (if n = acct.SplitSize then 0 else n) < 0 then 1
        else (if n = acct.SplitSize then 0 else n)) := rfl
  rw [hdef] at h
  generalize (if (if n = acct.SplitSize then 0 else n) < 0 then 1
        else (if n = acct.SplitSize then 0 else n)) = m at h hn
  simp only [] at h
  by_cases h1 : cmd = "split".toList
  · rw [if_pos h1] at h
    simp only [Result.ok.injEq, Option.some.injEq] at h
    subst h
    exact ⟨hn, Or.inl rfl⟩
  · rw [if_neg h1] at h
    by_cases h2 : cmd = "vsplit".toList
    · rw [if_pos h2] at h
      simp only [Result.ok.injEq, Option.some.injEq] at h
      subst h
      exact ⟨hn, Or.inr rfl⟩
    · rw [if_neg h2] at h
      simp at h

/-- C23. `Split.Execute` hands a size that is not negative to `Split` and to
`Vsplit`, whatever the arguments and the account. The relative forms return
before the guard of lines 63-66: with an argument `+n` or `-n` the size handed
to `SetSplitSize` is the current split size plus the parsed number as it
stands, so `split -5` on an account whose split size is 2 calls
`SetSplitSize(-3)`. -/
theorem split_delta_negative :
    (∀ (Atoi : GoString → Option Int) (acct : Option SplitAccount) (args : List GoString)
      (n : Int),
      (splitExecute Atoi acct args = .ok (some (.Split n)) ∨
        splitExecute Atoi acct args = .ok (some (.Vsplit n))) → 0 ≤ n) ∧
    (∀ (Atoi : GoString → Option Int) (acct : SplitAccount) (cmd arg : GoString) (n : Int),
      ("+".toList.isPrefixOf arg = true ∨ "-".toList.isPrefixOf arg = true) →
      Atoi arg = some n →
      splitExecute Atoi (some acct) [cmd, arg] =
        .ok (some (.SetSplitSize (wrapInt64 (acct.SplitSize + n))))) ∧
    strconvAtoi "-5".toList = some (-5) ∧
    splitExecute strconvAtoi (some ⟨2, 40, 80⟩) ["split".toList, "-5".toList] =
      .ok (some (.SetSplitSize (-3))) ∧
    splitExecute strconvAtoi (some ⟨2, 40, 80⟩) ["split".toList, "5".toList] =
      .ok (some (.Split 5)) := by
  refine ⟨?_, ?_, by decide, by decide, by decide⟩
  · intro Atoi acct args n h
    have key : ∀ call, splitExecute Atoi acct args = .ok (some call) →
        (call = .Split call.size ∨ call = .Vsplit call.size) → 0 ≤ call.size := by
      intro call hc hkind
      unfold splitExecute at hc
      split_ifs at hc
      rcases acct with _ | acct
      · simp at hc
      · rcases args with _ | ⟨cmd, rest⟩
        · simp at hc
        · rcases rest with _ | ⟨arg, rest⟩
          · exact (splitFinish_size acct cmd _ call hc).1
          · simp only [] at hc
            rcases hA : Atoi arg with _ | v
            · rw [hA] at hc; simp at hc
            · rw [hA] at hc
              simp only [] at hc
              split_ifs at hc
              · simp only [Result.ok.injEq, Option.some.injEq] at hc
                subst hc
                rcases hkind with hk | hk <;> simp at hk
              · exact (splitFinish_size acct cmd _ call hc).1
    rcases h with h | h
    · exact key _ h (Or.inl rfl)
    · exact key _ h (Or.inr rfl)
  · intro Atoi acct cmd arg n hpre hA
    have hd : ("+".toList.isPrefixOf arg || "-".toList.isPrefixOf arg) = true := by
      rcases hpre with h | h
      · rw [h]; rfl
      · rw [h]; exact Bool.or_true _
    simp only [splitExecute, List.length_cons, List.length_nil, hA]
    rw [if_neg (by omega), if_pos hd]

/-! ### Contextual UI configuration -/

theorem sameSettings_refl {T : UiLib} (x : UIConfig T) : sameSettings x x :=
  ⟨rfl, rfl, rfl, rfl⟩

theorem sameSettings_trans {T : UiLib} {x y z : UIConfig T} (h1 : sameSettings x y)
    (h2 : sameSettings y z) : sameSettings x z :=
  ⟨h1.1.trans h2.1, h1.2.1.trans h2.2.1, h1.2.2.1.trans h2.2.2.1, h1.2.2.2.trans h2.2.2.2⟩

theorem contextualSpec_congr {T : UiLib} {x y : UIConfig T} (h : sameSettings x y)
    (ctxType : uiContextType) (value : GoString) :
    contextualSpec x ctxType value = contextualSpec y ctxType value := by
  obtain ⟨f1, s1, u1, n1, c1⟩ := x
  obtain ⟨f2, s2, u2, n2, c2⟩ := y
  obtain ⟨h1, h2, h3, h4⟩ := h
  simp only at h1 h2 h3 h4
  subst h1 h2 h3 h4
  rfl

theorem Resolves_mono {T : UiLib} {H H' : UiHeap T} (hext : H.Extends H') (a : UiAddr)
    {b b' : UIConfig T} (hbb : sameSettings b' b) (ctxType : uiContextType) (value : GoString)
    (r : UiAddr) (h : Resolves H a b ctxType value r) : Resolves H' a b' ctxType value r := by
  unfold Resolves at h ⊢
  rw [contextualSpec_congr hbb]
  rcases hs : contextualSpec b ctxType value with _ | merged
  · rw [hs] at h; exact h
  · rw [hs] at h
    obtain ⟨cfg, hcfg, hsame⟩ := h
    obtain ⟨cfg', hcfg', hsame'⟩ := hext r cfg hcfg
    exact ⟨cfg', hcfg', sameSettings_trans hsame' hsame⟩

theorem Extends_refl {T : UiLib} (H : UiHeap T) : H.Extends H :=
  fun _ cfg h => ⟨cfg, h, sameSettings_refl cfg⟩

theorem Extends_trans {T : UiLib} {H1 H2 H3 : UiHeap T} (h12 : H1.Extends H2)
    (h23 : H2.Extends H3) : H1.Extends H3 := by
  intro r cfg h
  obtain ⟨cfg2, h2, s2⟩ := h12 r cfg h
  obtain ⟨cfg3, h3, s3⟩ := h23 r cfg2 h2
  exact ⟨cfg3, h3, sameSettings_trans s3 s2⟩

theorem alloc_cell_old {T : UiLib} (H : UiHeap T) (hfresh : H.Fresh) (ui : UIConfig T)
    (r : UiAddr) (cfg : UIConfig T) (h : H.cell r = some cfg) :
    (H.alloc ui).1.cell r = some cfg := by
  have hne : r ≠ H.next := by
    intro e
    rw [e, hfresh H.next (Nat.le_refl _)] at h
    cases h
  simp [UiHeap.alloc, hne, h]

theorem alloc_cell_new {T : UiLib} (H : UiHeap T) (ui : UIConfig T) :
    (H.alloc ui).1.cell (H.alloc ui).2 = some ui := by
  simp [UiHeap.alloc]

theorem alloc_cell_cases {T : UiLib} (H : UiHeap T) (ui : UIConfig T) (r : UiAddr)
    (cfg : UIConfig T) (h : (H.alloc ui).1.cell r = some cfg) :
    (r = H.next ∧ cfg = ui) ∨ (r ≠ H.next ∧ H.cell r = some cfg) := by
  by_cases hr : r = H.next
  · left
    simp only [UiHeap.alloc, hr, if_true, Option.some.injEq] at h
    exact ⟨hr, h.symm⟩
  · right
    simp only [UiHeap.alloc, hr, if_false] at h
    exact ⟨hr, h⟩

theorem alloc_fresh {T : UiLib} (H : UiHeap T) (hfresh : H.Fresh) (ui : UIConfig T) :
    (H.alloc ui).1.Fresh := by
  intro r hr
  have hr' : H.next + 1 ≤ r := hr
  have h1 : r ≠ H.next := Nat.ne_of_gt hr'
  have h2 : H.next ≤ r := Nat.le_of_succ_le hr'
  simp [UiHeap.alloc, h1, hfresh r h2]

theorem alloc_extends {T : UiLib} (H : UiHeap T) (hfresh : H.Fresh) (ui : UIConfig T) :
    H.Extends (H.alloc ui).1 :=
  fun r cfg h => ⟨cfg, alloc_cell_old H hfresh ui r cfg h, sameSettings_refl cfg⟩

theorem setCache_cell_other {T : UiLib} (H : UiHeap T) (base : UiAddr) (key : uiContextKey)
    (c r : UiAddr) (h : r ≠ base) : (H.setCache base key c).cell r = H.cell r := by
  simp [UiHeap.setCache, h]

theorem setCache_cell_base {T : UiLib} (H : UiHeap T) (base : UiAddr) (key : uiContextKey)
    (c : UiAddr) (b : UIConfig T) (h : H.cell base = some b) :
    (H.setCache base key c).cell base =
      some { b with
        contextualCache :=
          b.contextualCache.map fun cache k => if k = key then some c else cache k } := by
  simp [UiHeap.setCache, h]

theorem setCache_extends {T : UiLib} (H : UiHeap T) (base : UiAddr) (key : uiContextKey)
    (c : UiAddr) : H.Extends (H.setCache base key c) := by
  intro r cfg h
  by_cases hr : r = base
  · subst hr
    exact ⟨_, setCache_cell_base H r key c cfg h, ⟨rfl, rfl, rfl, rfl⟩⟩
  · exact ⟨cfg, by rw [setCache_cell_other H base key c r hr, h], sameSettings_refl cfg⟩

theorem setCache_fresh {T : UiLib} (H : UiHeap T) (hfresh : H.Fresh) (base : UiAddr)
    (key : uiContextKey) (c : UiAddr) : (H.setCache base key c).Fresh := by
  intro r hr
  have hr' : H.next ≤ r := hr
  by_cases h : r = base
  · subst h
    simp [UiHeap.setCache, hfresh r hr']
  · rw [setCache_cell_other H base key c r h]
    exact hfresh r hr'

theorem contextualSpec_none_of_counts {T : UiLib} (b : UIConfig T) (hwf : b.WellFormed)
    (ctxType : uiContextType) (value : GoString) (h : b.contextualCounts ctxType = 0) :
    contextualSpec b ctxType value = none := by
  have hlen := hwf.1 ctxType
  rw [h] at hlen
  have hnil : (b.contextualUis.filter fun contextualUi =>
      decide (contextualUi.ContextType = ctxType)) = [] := by
    apply List.eq_nil_of_length_eq_zero
    omega
  unfold contextualSpec
  rw [if_pos]
  rw [List.all_eq_true]
  intro cu hcu
  rw [List.filter_eq_nil_iff] at hnil
  simpa using hnil cu hcu

theorem contextualSpec_of_matching {T : UiLib} (b : UIConfig T) (ctxType : uiContextType)
    (value : GoString) :
    contextualSpec b ctxType value = (matchingContext b ctxType value).map (mergedConfig b) := by
  unfold contextualSpec
  split
  · rename_i hall
    rw [List.all_eq_true] at hall
    rcases hm : matchingContext b ctxType value with _ | cu
    · rfl
    · exfalso
      unfold matchingContext at hm
      have hmem := List.mem_of_find?_eq_some hm
      have hp := List.find?_some hm
      have := hall cu hmem
      simp only [Bool.and_eq_true, decide_eq_true_eq] at hp
      simp [hp.1] at this
  · rfl

theorem contextualSpec_none_of_unregistered {T : UiLib} (b : UIConfig T)
    (ctxType : uiContextType) (value : GoString)
    (h : ∀ cu ∈ b.contextualUis, cu.ContextType ≠ ctxType) :
    contextualSpec b ctxType value = none := by
  unfold contextualSpec
  rw [if_pos]
  rw [List.all_eq_true]
  intro cu hcu
  simpa using h cu hcu

theorem counts_zero_of_unregistered {T : UiLib} (b : UIConfig T) (hwf : b.WellFormed)
    (ctxType : uiContextType)
    (h : ∀ cu ∈ b.contextualUis, cu.ContextType ≠ ctxType) :
    b.contextualCounts ctxType = 0 := by
  rw [hwf.1 ctxType]
  have hnil : (b.contextualUis.filter fun contextualUi =>
      decide (contextualUi.ContextType = ctxType)) = [] := by
    rw [List.filter_eq_nil_iff]
    intro cu hcu
    simpa using h cu hcu
  rw [hnil]
  rfl

theorem mergedConfig_wellFormed {T : UiLib} (b : UIConfig T) (hwf : b.WellFormed)
    (cu : UiConfigContext T) : (mergedConfig b cu).WellFormed :=
  ⟨hwf.1, fun _ _ => by simp [mergedConfig]⟩

theorem alloc_inv {T : UiLib} (H : UiHeap T) (hinv : H.Inv) (ui : UIConfig T)
    (hwf : ui.WellFormed) (hcache : ui.contextualCache = some fun _ => none) :
    (H.alloc ui).1.Inv := by
  obtain ⟨hfresh, hcoh, hall⟩ := hinv
  refine ⟨alloc_fresh H hfresh ui, ?_, ?_⟩
  · intro a0 b0 cache key c h0 hc hk
    rcases alloc_cell_cases H ui a0 b0 h0 with ⟨-, hnew⟩ | ⟨-, hold⟩
    · rw [hnew, hcache] at hc
      simp only [Option.some.injEq] at hc
      rw [← hc] at hk
      cases hk
    · exact Resolves_mono (alloc_extends H hfresh ui) a0 (sameSettings_refl b0) _ _ c
        (hcoh a0 b0 cache key c hold hc hk)
  · intro a0 b0 h0
    rcases alloc_cell_cases H ui a0 b0 h0 with ⟨-, hnew⟩ | ⟨-, hold⟩
    · rw [hnew]; exact hwf
    · exact hall a0 b0 hold

theorem mergeContextual_spec {T : UiLib} (H : UiHeap T) (hinv : H.Inv) (a : UiAddr)
    (b : UIConfig T) (hb : H.cell a = some b) (ctxType : uiContextType) (value : GoString) :
    ∃ H1 r, mergeContextual H a ctxType value = .ok (H1, r) ∧
      Resolves H1 a b ctxType value r ∧ H.Extends H1 ∧ H1.Inv ∧
      (∀ a' cfg, H.cell a' = some cfg → H1.cell a' = some cfg) ∧
      (contextualSpec b ctxType value = none → H1 = H ∧ r = a) := by
  unfold mergeContextual
  rw [hb]
  simp only []
  have hspec := contextualSpec_of_matching b ctxType value
  rcases hm : matchingContext b ctxType value with _ | cu
  · rw [hm] at hspec
    refine ⟨H, a, rfl, ?_, Extends_refl H, hinv, fun _ _ h => h, fun _ => ⟨rfl, rfl⟩⟩
    unfold Resolves
    rw [hspec]
    rfl
  · rw [hm] at hspec
    refine ⟨(H.alloc (mergedConfig b cu)).1, (H.alloc (mergedConfig b cu)).2, rfl, ?_,
      alloc_extends H hinv.1 _, alloc_inv H hinv _ (mergedConfig_wellFormed b (hinv.2.2 a b hb) cu) rfl,
      fun a' cfg h => alloc_cell_old H hinv.1 _ a' cfg h, ?_⟩
    · unfold Resolves
      rw [hspec]
      exact ⟨mergedConfig b cu, alloc_cell_new H _, sameSettings_refl _⟩
    · intro h
      rw [hspec] at h
      cases h

theorem setCache_inv {T : UiLib} (H : UiHeap T) (hinv : H.Inv) (a : UiAddr) (b : UIConfig T)
    (hb : H.cell a = some b) (key : uiContextKey) (c : UiAddr)
    (hres : Resolves H a b key.ctxType key.value c) : (H.setCache a key c).Inv := by
  obtain ⟨hfresh, hcoh, hall⟩ := hinv
  refine ⟨setCache_fresh H hfresh a key c, ?_, ?_⟩
  · intro a0 b0 cache0 key0 c0 h0 hc hk
    by_cases ha : a0 = a
    · subst ha
      rw [setCache_cell_base H a0 key c b hb] at h0
      simp only [Option.some.injEq] at h0
      subst h0
      have hsame : sameSettings
          { b with
            contextualCache :=
              b.contextualCache.map fun cache k => if k = key then some c else cache k } b :=
        ⟨rfl, rfl, rfl, rfl⟩
      simp only [Option.map_eq_some'] at hc
      obtain ⟨cache, hcache, hc⟩ := hc
      subst hc
      simp only at hk
      by_cases hkey : key0 = key
      · rw [if_pos hkey] at hk
        simp only [Option.some.injEq] at hk
        subst hk
        rw [hkey]
        exact Resolves_mono (setCache_extends H a0 key c) a0 hsame _ _ c hres
      · rw [if_neg hkey] at hk
        exact Resolves_mono (setCache_extends H a0 key c) a0 hsame _ _ c0
          (hcoh a0 b cache key0 c0 hb hcache hk)
    · rw [setCache_cell_other H a key c a0 ha] at h0
      exact Resolves_mono (setCache_extends H a key c) a0 (sameSettings_refl b0) _ _ c0
        (hcoh a0 b0 cache0 key0 c0 h0 hc hk)
  · intro a0 b0 h0
    by_cases ha : a0 = a
    · subst ha
      rw [setCache_cell_base H a0 key c b hb] at h0
      simp only [Option.some.injEq] at h0
      subst h0
      have hwf := hall a0 b hb
      refine ⟨hwf.1, fun t ht => ?_⟩
      have := hwf.2 t ht
      rcases hcache : b.contextualCache with _ | cache
      · exact absurd hcache this
      · simp
    · rw [setCache_cell_other H a key c a0 ha] at h0
      exact hall a0 b0 h0

theorem contextual_core {T : UiLib} (H : UiHeap T) (hinv : H.Inv) (a : UiAddr)
    (b : UIConfig T) (hb : H.cell a = some b) (ctxType : uiContextType) (value : GoString)
    (useCache : Bool) :
    ∃ H' r b', contextual H a ctxType value useCache = .ok (H', r) ∧
      Resolves H' a b ctxType value r ∧
      (b.contextualCounts ctxType = 0 → r = a ∧ H' = H) ∧
      H'.cell a = some b' ∧ sameSettings b' b ∧
      (useCache = false → b' = b) ∧
      (∀ cache, b.contextualCache = some cache →
        ∃ cache', b'.contextualCache = some cache' ∧
          (∀ k, k ≠ ⟨ctxType, value⟩ → cache' k = cache k) ∧
          (cache' ⟨ctxType, value⟩ = cache ⟨ctxType, value⟩ ∨
            (cache ⟨ctxType, value⟩ = none ∧ cache' ⟨ctxType, value⟩ = some r))) ∧
      (∀ a' cfg, a' ≠ a → H.cell a' = some cfg → H'.cell a' = some cfg) ∧
      H'.Inv := by
  have hwf := hinv.2.2 a b hb
  unfold contextual
  rw [hb]
  simp only []
  by_cases hz : b.contextualCounts ctxType = 0
  · rw [if_pos hz]
    refine ⟨H, a, b, rfl, ?_, fun _ => ⟨rfl, rfl⟩, hb, sameSettings_refl b, fun _ => rfl,
      fun cache hc => ⟨cache, hc, fun _ _ => rfl, Or.inl rfl⟩, fun _ _ _ h => h, hinv⟩
    unfold Resolves
    rw [contextualSpec_none_of_counts b hwf ctxType value hz]
  · rw [if_neg hz]
    obtain ⟨H1, r, hmerge, hres, hext, hinv1, hkeep, -⟩ :=
      mergeContextual_spec H hinv a b hb ctxType value
    cases useCache with
    | false =>
      simp only [Bool.not_false, if_true]
      exact ⟨H1, r, b, hmerge, hres, fun h => absurd h hz, hkeep a b hb, sameSettings_refl b,
        fun _ => rfl, fun cache hc => ⟨cache, hc, fun _ _ => rfl, Or.inl rfl⟩,
        fun a' cfg _ h => hkeep a' cfg h, hinv1⟩
    | true =>
      simp only [Bool.not_true, Bool.false_eq_true, if_false]
      rcases hcache : b.contextualCache with _ | cache
      · exact absurd hcache (hwf.2 ctxType hz)
      · simp only [Option.some_bind]
        rcases hfound : cache ⟨ctxType, value⟩ with _ | c
        · simp only [hmerge]
          have hres2 : Resolves (H1.setCache a ⟨ctxType, value⟩ r) a b ctxType value r :=
            Resolves_mono (setCache_extends H1 a _ r) a (sameSettings_refl b) _ _ r hres
          refine ⟨H1.setCache a ⟨ctxType, value⟩ r, r, _, rfl, hres2, fun h => absurd h hz,
            setCache_cell_base H1 a _ r b (hkeep a b hb), ⟨rfl, rfl, rfl, rfl⟩,
            fun h => Bool.noConfusion h, ?_, ?_,
            setCache_inv H1 hinv1 a b (hkeep a b hb) ⟨ctxType, value⟩ r hres⟩
          · intro cache0 hc0
            simp only [Option.some.injEq] at hc0
            subst hc0
            refine ⟨fun k => if k = ⟨ctxType, value⟩ then some r else cache k, ?_, ?_, ?_⟩
            · simp [hcache]
            · intro k hk
              exact if_neg hk
            · right
              exact ⟨hfound, if_pos rfl⟩
          · intro a' cfg ha' h
            rw [setCache_cell_other H1 a _ r a' ha']
            exact hkeep a' cfg h
        · simp only []
          refine ⟨H, c, b, rfl, hinv.2.1 a b cache ⟨ctxType, value⟩ c hb hcache hfound,
            fun h => absurd h hz, hb, sameSettings_refl b, fun h => Bool.noConfusion h, ?_,
            fun _ _ _ h => h, hinv⟩
          intro cache0 hc0
          simp only [Option.some.injEq] at hc0
          subst hc0
          exact ⟨cache, hcache, fun _ _ => rfl, Or.inl rfl⟩

theorem sampleUiHeap_inv : sampleUiHeap.Inv := by
  have hcell : ∀ a b, sampleUiHeap.cell a = some b → b = sampleUiConfig := by
    intro a b h
    by_cases ha : a = 0
    · simp only [sampleUiHeap, ha, if_true, Option.some.injEq] at h
      exact h.symm
    · simp [sampleUiHeap, ha] at h
  refine ⟨?_, ?_, ?_⟩
  · intro a ha
    have h1 : 1 ≤ a := ha
    have h0 : a ≠ 0 := Nat.ne_of_gt h1
    simp [sampleUiHeap, h0]
  · intro a b cache key c h hc hk
    rw [hcell a b h] at hc
    simp only [sampleUiConfig, Option.some.injEq] at hc
    rw [← hc] at hk
    cases hk
  · intro a b h
    rw [hcell a b h]
    refine ⟨fun t => ?_, fun _ _ => by simp [sampleUiConfig]⟩
    cases t <;> rfl

/-- C24. In a state where the counts follow the registered contextual
configurations and no cached entry is stale, `contextual` returns, with or
without the cache, a resolution of the base in the words of the claim: the base
itself when no contextual configuration of the type is registered (and then
nothing changes), and otherwise a configuration with the settings of the
uncached `mergeContextual`, which resolves the base in the same way. The call
changes nothing of the base but its cache, nothing at all without the cache,
and with the cache at most the entry of its key, which then holds the result.
No other configuration changes, and the state after the call is again one in
which no cached entry is stale. `ForSubject` leaves the base as it is;
`ForAccount` and `ForFolder` leave every entry of another key as it is. -/
theorem contextual_refines (T : UiLib) (H : UiHeap T) (a : UiAddr) (b : UIConfig T)
    (ctxType : uiContextType) (value : GoString) (hinv : H.Inv) (hb : H.cell a = some b) :
    (∀ useCache : Bool, ∃ H' r b',
      contextual H a ctxType value useCache = .ok (H', r) ∧
      Resolves H' a b ctxType value r ∧
      ((∀ cu ∈ b.contextualUis, cu.ContextType ≠ ctxType) → r = a ∧ H' = H) ∧
      H'.cell a = some b' ∧ sameSettings b' b ∧
      (useCache = false → b' = b) ∧
      (∀ cache, b.contextualCache = some cache →
        ∃ cache', b'.contextualCache = some cache' ∧
          (∀ k, k ≠ ⟨ctxType, value⟩ → cache' k = cache k) ∧
          (cache' ⟨ctxType, value⟩ = cache ⟨ctxType, value⟩ ∨
            (cache ⟨ctxType, value⟩ = none ∧ cache' ⟨ctxType, value⟩ = some r))) ∧
      (∀ a' cfg, a' ≠ a → H.cell a' = some cfg → H'.cell a' = some cfg) ∧
      H'.Inv) ∧
    (∃ H'' r', mergeContextual H a ctxType value = .ok (H'', r') ∧
      Resolves H'' a b ctxType value r') ∧
    (∃ H' r, ForSubject H a value = .ok (H', r) ∧ H'.cell a = some b) ∧
    (∀ cache, b.contextualCache = some cache →
      (∃ H' r b' cache', ForAccount H a value = .ok (H', r) ∧ H'.cell a = some b' ∧
        b'.contextualCache = some cache' ∧
        ∀ k, k ≠ ⟨.uiContextAccount, value⟩ → cache' k = cache k) ∧
      (∃ H' r b' cache', ForFolder H a value = .ok (H', r) ∧ H'.cell a = some b' ∧
        b'.contextualCache = some cache' ∧
        ∀ k, k ≠ ⟨.uiContextFolder, value⟩ → cache' k = cache k)) := by
  refine ⟨fun useCache => ?_, ?_, ?_, fun cache hc => ⟨?_, ?_⟩⟩
  · obtain ⟨H', r, b', h1, h2, h3, h4, h5, h6, h7, h8, h9⟩ :=
      contextual_core H hinv a b hb ctxType value useCache
    exact ⟨H', r, b', h1, h2,
      fun hun => h3 (counts_zero_of_unregistered b (hinv.2.2 a b hb) ctxType hun),
      h4, h5, h6, h7, h8, h9⟩
  · obtain ⟨H1, r, hmerge, hres, -, -, -, -⟩ :=
      mergeContextual_spec H hinv a b hb ctxType value
    exact ⟨H1, r, hmerge, hres⟩
  · obtain ⟨H', r, b', h1, -, -, h4, -, h6, -, -, -⟩ :=
      contextual_core H hinv a b hb .uiContextSubject value false
    exact ⟨H', r, h1, by rw [h4, h6 rfl]⟩
  · obtain ⟨H', r, b', h1, -, -, h4, -, -, h7, -, -⟩ :=
      contextual_core H hinv a b hb .uiContextAccount value true
    obtain ⟨cache', hc', hk, -⟩ := h7 cache hc
    exact ⟨H', r, b', cache', h1, h4, hc', hk⟩
  · obtain ⟨H', r, b', h1, -, -, h4, -, -, h7, -, -⟩ :=
      contextual_core H hinv a b hb .uiContextFolder value true
    obtain ⟨cache', hc', hk, -⟩ := h7 cache hc
    exact ⟨H', r, b', cache', h1, h4, hc', hk⟩

/-- Witness of C24: in the sample heap, whose configuration has the section
`[ui:folder=Sent]` and an empty cache, `ForFolder("Sent")` allocates the merged
configuration at address 1 and caches it, a second call returns the cached
pointer and allocates nothing, and the uncached resolution has the same
fields. -/
theorem contextual_refines_witness :
    sampleUiHeap.Inv ∧ sampleUiHeap.cell 0 = some sampleUiConfig ∧
    (∃ H'' r', mergeContextual sampleUiHeap 0 .uiContextFolder "Sent".toList = .ok (H'', r') ∧
      Resolves H'' 0 sampleUiConfig .uiContextFolder "Sent".toList r') ∧
    (∃ H1, ForFolder sampleUiHeap 0 "Sent".toList = .ok (H1, 1) ∧
      (H1.cell 1).map (fun c => c.fields) = some "sent".toList ∧
      H1.next = 2 ∧
      ∃ H2, ForFolder H1 0 "Sent".toList = .ok (H2, 1) ∧ H2.next = 2) ∧
    (∃ H1, ForFolder sampleUiHeap 0 "INBOX".toList = .ok (H1, 0)) ∧
    (∃ H1, ForAccount sampleUiHeap 0 "work".toList = .ok (H1, 0)) :=
  ⟨sampleUiHeap_inv, rfl,
    (contextual_refines sampleUiLib sampleUiHeap 0 sampleUiConfig .uiContextFolder
      "Sent".toList sampleUiHeap_inv rfl).2.1,
    ⟨_, rfl, rfl, rfl, _, rfl, rfl⟩, ⟨_, rfl⟩, ⟨_, rfl⟩⟩

/-! ### Contextual section names -/

theorem stringsIndexFrom_bounds (substr : GoString) (s : GoString) (i : Nat)
    (h : stringsContains s substr = true) :
    (i : Int) ≤ stringsIndexFrom substr s i ∧
      stringsIndexFrom substr s i ≤ ((i + s.length : Nat) : Int) := by
  induction s generalizing i with
  | nil =>
    simp only [stringsContains] at h
    simp [stringsIndexFrom, h]
  | cons c s ih =>
    simp only [stringsContains, Bool.or_eq_true] at h
    by_cases hp : substr.isPrefixOf (c :: s) = true
    · simp only [stringsIndexFrom, hp, if_true, List.length_cons]
      omega
    · have hs : stringsContains s substr = true := h.resolve_left hp
      obtain ⟨h1, h2⟩ := ih (i + 1) hs
      simp only [stringsIndexFrom, hp, if_false, List.length_cons]
      refine ⟨by omega, ?_⟩
      have : i + 1 + s.length = i + (s.length + 1) := by omega
      rw [this] at h2
      exact h2

theorem sectionContextType_no_panic (sectionName : GoString) (index : Int)
    (h3 : 3 ≤ index) (hlen : index ≤ (sectionName.length : Int)) :
    sectionContextType sectionName index ≠ .panic := by
  unfold sectionContextType goSlice
  rw [if_pos ⟨by omega, h3, hlen⟩]
  simp only []
  split_ifs <;> simp

theorem stringsIndex_prefixed (sep : Char) (rest : GoString) (hu : sep ≠ 'u') (hi : sep ≠ 'i')
    (hc : sep ≠ ':') (h : stringsContains ('u' :: 'i' :: ':' :: rest) [sep] = true) :
    3 ≤ stringsIndex ('u' :: 'i' :: ':' :: rest) [sep] ∧
      stringsIndex ('u' :: 'i' :: ':' :: rest) [sep] ≤
        ((('u' :: 'i' :: ':' :: rest).length : Nat) : Int) := by
  have hu' : ¬ sep = 'u' := hu
  have hi' : ¬ sep = 'i' := hi
  have hc' : ¬ sep = ':' := hc
  have hrest : stringsContains rest [sep] = true := by
    simpa [stringsContains, List.isPrefixOf, hu', hi', hc'] using h
  have hidx : stringsIndex ('u' :: 'i' :: ':' :: rest) [sep] = stringsIndexFrom [sep] rest 3 := by
    simp [stringsIndex, stringsIndexFrom, List.isPrefixOf, hu', hi', hc']
  obtain ⟨h1, h2⟩ := stringsIndexFrom_bounds [sep] rest 3 hrest
  rw [hidx]
  refine ⟨by omega, ?_⟩
  simp only [List.length_cons]
  have : 3 + rest.length = rest.length + 1 + 1 + 1 := by omega
  rw [this] at h2
  exact h2

/-- C27. The section-name parsing of `parseUi` is not total on the names that
contain `ui:`: the type is cut out as `sectionName[3:index]`, and the first `~`
or `=` can stand before position 3, so the sections `[~ui:]` and `[a=ui:x]`
make the slice expression panic. On the names that start with `ui:` the slice
is within bounds and the parser yields a context type with its expression or
returns an error. -/
theorem parseUi_section_out_of_range :
    parseUiSection sampleUiSectionEnv "~ui:".toList = .panic ∧
    parseUiSection sampleUiSectionEnv "a=ui:x".toList = .panic ∧
    stringsContains "~ui:".toList "ui:".toList = true ∧
    stringsIndex "~ui:".toList "~".toList = 0 ∧
    goSlice "~ui:".toList 3 0 = .panic ∧
    parseUiSection sampleUiSectionEnv "ui:folder=Sent".toList =
      .ok (some (.uiContextFolder, "Sent".toList)) ∧
    parseUiSection sampleUiSectionEnv "ui:account~^work".toList =
      .ok (some (.uiContextAccount, "^work".toList)) ∧
    (∀ (E : UiSectionEnv) (rest : GoString),
      parseUiSection E ("ui:".toList ++ rest) ≠ .panic) := by
  refine ⟨by decide, by decide, by decide, by decide, by decide, by decide, by decide, ?_⟩
  intro E rest
  show parseUiSection E ('u' :: 'i' :: ':' :: rest) ≠ .panic
  unfold parseUiSection
  split_ifs with h0 h1 h2
  · simp
  · rcases E.parse ('u' :: 'i' :: ':' :: rest) with _ | e
    · simp only []
      rcases E.Compile _ with _ | e
      · simp only []
        obtain ⟨hlo, hhi⟩ := stringsIndex_prefixed '~' rest (by decide) (by decide) (by decide) h1
        have := sectionContextType_no_panic ('u' :: 'i' :: ':' :: rest) _ hlo hhi
        rcases hs : sectionContextType ('u' :: 'i' :: ':' :: rest)
          (stringsIndex ('u' :: 'i' :: ':' :: rest) "~".toList) with t | e | _
        · simp
        · simp
        · exact absurd hs this
      · simp
    · simp
  · rcases E.parse ('u' :: 'i' :: ':' :: rest) with _ | e
    · simp only []
      rcases E.Compile _ with _ | e
      · simp only []
        obtain ⟨hlo, hhi⟩ := stringsIndex_prefixed '=' rest (by decide) (by decide) (by decide) h2
        have := sectionContextType_no_panic ('u' :: 'i' :: ':' :: rest) _ hlo hhi
        rcases hs : sectionContextType ('u' :: 'i' :: ':' :: rest)
          (stringsIndex ('u' :: 'i' :: ':' :: rest) "=".toList) with t | e | _
        · simp
        · simp
        · exact absurd hs this
      · simp
    · simp
  · rcases E.parse ('u' :: 'i' :: ':' :: rest) with _ | e <;> simp

/-! ### The message-view time formats -/

theorem defaultMessageViewFormats_spec (c : UITimeFormats) :
    (defaultMessageViewFormats c).TimestampFormat = c.TimestampFormat ∧
    (defaultMessageViewFormats c).MessageViewTimestampFormat =
      (if c.MessageViewTimestampFormat = [] then c.TimestampFormat
        else c.MessageViewTimestampFormat) ∧
    (defaultMessageViewFormats c).MessageViewThisDayTimeFormat =
      (if c.MessageViewThisDayTimeFormat = [] then c.TimestampFormat
        else c.MessageViewThisDayTimeFormat) ∧
    (defaultMessageViewFormats c).MessageViewThisWeekTimeFormat =
      (if c.MessageViewThisWeekTimeFormat = [] then c.TimestampFormat
        else c.MessageViewThisWeekTimeFormat) ∧
    (defaultMessageViewFormats c).MessageViewThisYearTimeFormat =
      c.MessageViewThisYearTimeFormat := by
  unfold defaultMessageViewFormats
  simp only []
  refine ⟨?_, ?_, ?_, ?_, ?_⟩ <;> split_ifs <;> simp_all

/-- C28. After `UIConfig.parse` succeeds, `MessageViewTimestampFormat`,
`MessageViewThisDayTimeFormat` and `MessageViewThisWeekTimeFormat` equal
`TimestampFormat` when the section left them empty and keep their value
otherwise. `MessageViewThisYearTimeFormat` always keeps its value: the fourth
`if` of lines 309-320 tests `MessageViewThisDayTimeFormat` a second time. So
after an empty `[ui]` section has been parsed over the default configuration,
`MessageViewThisYearTimeFormat` is empty and `TimestampFormat` is not. -/
theorem parse_this_year_format_not_defaulted :
    (∀ (config mapped parsed : UITimeFormats) (section_ : IniSection),
      section_.MapTo config = .ok mapped → UIConfigParse config section_ = .ok parsed →
      parsed.TimestampFormat = mapped.TimestampFormat ∧
      parsed.MessageViewTimestampFormat =
        (if mapped.MessageViewTimestampFormat = [] then parsed.TimestampFormat
          else mapped.MessageViewTimestampFormat) ∧
      parsed.MessageViewThisDayTimeFormat =
        (if mapped.MessageViewThisDayTimeFormat = [] then parsed.TimestampFormat
          else mapped.MessageViewThisDayTimeFormat) ∧
      parsed.MessageViewThisWeekTimeFormat =
        (if mapped.MessageViewThisWeekTimeFormat = [] then parsed.TimestampFormat
          else mapped.MessageViewThisWeekTimeFormat) ∧
      parsed.MessageViewThisYearTimeFormat = mapped.MessageViewThisYearTimeFormat) ∧
    (∃ parsed, UIConfigParse defaultTimeFormats emptyIniSection = .ok parsed ∧
      parsed.MessageViewThisYearTimeFormat = [] ∧
      parsed.TimestampFormat = "2006-01-02 03:04 PM".toList ∧
      parsed.MessageViewThisYearTimeFormat ≠ parsed.TimestampFormat ∧
      parsed.MessageViewThisDayTimeFormat = parsed.TimestampFormat) := by
  refine ⟨?_, ⟨_, rfl, by decide, by decide, by decide, by decide⟩⟩
  intro config mapped parsed section_ hmap hparse
  unfold UIConfigParse at hparse
  rw [hmap] at hparse
  simp only [] at hparse
  rcases hb : section_.bordersAndDelays with _ | e
  · rw [hb] at hparse
    simp only [] at hparse
    rcases hi : section_.indexColumns with _ | e
    · rw [hi] at hparse
      simp only [Except.ok.injEq] at hparse
      subst hparse
      obtain ⟨h0, h1, h2, h3, h4⟩ := defaultMessageViewFormats_spec mapped
      rw [h0]
      exact ⟨rfl, h1, h2, h3, h4⟩
    · rw [hi] at hparse
      cases hparse
  · rw [hb] at hparse
    cases hparse

/-! ### The close protocol of the terminal -/

theorem Close_spec (t : TerminalWidget) (err : Option Err) (h : t.Inv) :
    (t.Close err).Inv ∧ (t.Close err).closed = true ∧
      (t.Close err).destroyed = t.destroyed ∧ (t.Close err).vterm = t.vterm ∧
      (t.closed = true → t.Close err = t) ∧
      (t.OnClose = false → (t.Close err).onCloseCalls = t.onCloseCalls) := by
  obtain ⟨closed, cmd, ctx, destroyed, focus, vterm, running, OnClose, OnEvent, OnStart,
    OnTitle, effects⟩ := t
  obtain ⟨h1, h2, h3, h4⟩ := h
  simp only [TerminalWidget.onCloseCalls] at h1 h2 h3 h4
  cases closed
  · have h2' := h2 rfl
    cases vterm <;> cases OnClose <;> cases ctx <;> cases destroyed <;>
      simp [-List.filter_eq_nil_iff, TerminalWidget.Close, TerminalWidget.Inv,
        TerminalWidget.onCloseCalls, TerminalWidget.emit, List.filter_append,
        TermEffect.isOnClose, h2'] at h3 h4 ⊢
  · simp [-List.filter_eq_nil_iff, TerminalWidget.Close, TerminalWidget.Inv,
      TerminalWidget.onCloseCalls] at h3 h4 ⊢
    exact ⟨h1, h3, h4⟩

theorem Close_effects (t : TerminalWidget) (err : Option Err) :
    t.effects <+: (t.Close err).effects := by
  unfold TerminalWidget.Close
  by_cases hc : t.closed = true
  · rw [if_pos hc]
  · rw [if_neg hc]
    simp only [TerminalWidget.emit]
    split_ifs <;> simp [List.append_assoc]

theorem Close_step (t : TerminalWidget) (err : Option Err) (h : t.Inv) :
    t.Step (t.Close err) := by
  obtain ⟨hinv, hclosed, hdes, hvt, hsame, -⟩ := Close_spec t err h
  refine ⟨hinv, fun hc => ?_, fun hd => ?_, Close_effects t err⟩
  · rw [hsame hc]; exact ⟨hc, rfl⟩
  · rw [hsame (h.2.2.1 hd).1]; exact ⟨hd, rfl⟩

theorem Destroy_step (t : TerminalWidget) (h : t.Inv) :
    t.Step t.Destroy ∧ t.Destroy.closed = true ∧ t.Destroy.destroyed = true ∧
      t.Destroy.vterm = false ∧ t.Destroy.onCloseCalls = t.onCloseCalls := by
  obtain ⟨closed, cmd, ctx, destroyed, focus, vterm, running, OnClose, OnEvent, OnStart,
    OnTitle, effects⟩ := t
  obtain ⟨h1, h2, h3, h4⟩ := h
  simp only [TerminalWidget.onCloseCalls] at h1 h2 h3 h4
  cases destroyed
  · have hv := h4 rfl
    subst hv
    cases closed
    · have h2' := h2 rfl
      cases ctx <;>
        simp [-List.filter_eq_nil_iff, TerminalWidget.Destroy, TerminalWidget.Close,
          TerminalWidget.Step, TerminalWidget.Inv, TerminalWidget.onCloseCalls,
          TerminalWidget.vtermUses, TerminalWidget.emit, List.filter_append,
          TermEffect.isOnClose, TermEffect.isVterm, List.append_assoc, h2']
    · cases ctx <;>
        simp [-List.filter_eq_nil_iff, TerminalWidget.Destroy, TerminalWidget.Close,
          TerminalWidget.Step, TerminalWidget.Inv, TerminalWidget.onCloseCalls,
          TerminalWidget.vtermUses, TerminalWidget.emit, List.filter_append,
          TermEffect.isOnClose, TermEffect.isVterm, List.append_assoc, h1]
  · obtain ⟨hc, hv⟩ := h3 rfl
    subst hc hv
    simp [-List.filter_eq_nil_iff, TerminalWidget.Destroy, TerminalWidget.Step,
      TerminalWidget.Inv, TerminalWidget.onCloseCalls, TerminalWidget.vtermUses, h1]

theorem Draw_step (t : TerminalWidget) (startErr : Option Err) (vis : Bool) (h : t.Inv) :
    ∃ t', t.Draw startErr vis = some t' ∧ t.Step t' := by
  obtain ⟨closed, cmd, ctx, destroyed, focus, vterm, running, OnClose, OnEvent, OnStart,
    OnTitle, effects⟩ := t
  obtain ⟨h1, h2, h3, h4⟩ := h
  simp only [TerminalWidget.onCloseCalls] at h1 h2 h3 h4
  cases destroyed
  · have hv := h4 rfl
    subst hv
    cases closed
    · have h2' := h2 rfl
      cases running <;> cases cmd <;> cases focus <;> cases OnStart <;> cases OnClose <;>
        cases vis <;> cases startErr <;>
        simp [-List.filter_eq_nil_iff, TerminalWidget.Draw, TerminalWidget.draw,
          TerminalWidget.callVterm, TerminalWidget.Close,
          TerminalWidget.Step, TerminalWidget.Inv, TerminalWidget.onCloseCalls,
          TerminalWidget.vtermUses, TerminalWidget.emit, List.filter_append,
          TermEffect.isOnClose, TermEffect.isVterm, List.append_assoc, h2']
    · simp [-List.filter_eq_nil_iff, TerminalWidget.Draw, TerminalWidget.draw,
        TerminalWidget.callVterm, TerminalWidget.Close,
        TerminalWidget.Step, TerminalWidget.Inv, TerminalWidget.onCloseCalls,
        TerminalWidget.vtermUses, TerminalWidget.emit, List.filter_append,
        TermEffect.isOnClose, TermEffect.isVterm, List.append_assoc, h1]
  · obtain ⟨hc, hv⟩ := h3 rfl
    subst hc hv
    simp [-List.filter_eq_nil_iff, TerminalWidget.Draw, TerminalWidget.Step,
      TerminalWidget.Inv, TerminalWidget.onCloseCalls, TerminalWidget.vtermUses, h1]

theorem MouseEvent_step (t : TerminalWidget) (isMouse : Bool) (h : t.Inv) :
    ∃ t', t.MouseEvent isMouse = some t' ∧ t.Step t' := by
  obtain ⟨closed, cmd, ctx, destroyed, focus, vterm, running, OnClose, OnEvent, OnStart,
    OnTitle, effects⟩ := t
  obtain ⟨h1, h2, h3, h4⟩ := h
  simp only [TerminalWidget.onCloseCalls] at h1 h2 h3 h4
  cases destroyed
  · have hv := h4 rfl
    subst hv
    cases closed
    · have h2' := h2 rfl
      cases isMouse <;> cases OnEvent <;>
        simp [-List.filter_eq_nil_iff, TerminalWidget.MouseEvent, TerminalWidget.callVterm,
          TerminalWidget.Step, TerminalWidget.Inv, TerminalWidget.onCloseCalls,
          TerminalWidget.vtermUses, TerminalWidget.emit, List.filter_append,
          TermEffect.isOnClose, TermEffect.isVterm, List.append_assoc, h2']
    · cases isMouse <;> cases OnEvent <;>
        simp [-List.filter_eq_nil_iff, TerminalWidget.MouseEvent, TerminalWidget.callVterm,
          TerminalWidget.Step, TerminalWidget.Inv, TerminalWidget.onCloseCalls,
          TerminalWidget.vtermUses, TerminalWidget.emit, List.filter_append,
          TermEffect.isOnClose, TermEffect.isVterm, List.append_assoc, h1]
  · obtain ⟨hc, hv⟩ := h3 rfl
    subst hc hv
    cases isMouse <;> cases OnEvent <;>
      simp [-List.filter_eq_nil_iff, TerminalWidget.MouseEvent, TerminalWidget.callVterm,
        TerminalWidget.Step, TerminalWidget.Inv, TerminalWidget.onCloseCalls,
        TerminalWidget.vtermUses, TerminalWidget.emit, List.filter_append,
        TermEffect.isOnClose, TermEffect.isVterm, List.append_assoc, h1]

theorem Focus_step (t : TerminalWidget) (focus' : Bool) (h : t.Inv) :
    ∃ t', t.Focus focus' = some t' ∧ t.Step t' := by
  obtain ⟨closed, cmd, ctx, destroyed, focus, vterm, running, OnClose, OnEvent, OnStart,
    OnTitle, effects⟩ := t
  obtain ⟨h1, h2, h3, h4⟩ := h
  simp only [TerminalWidget.onCloseCalls] at h1 h2 h3 h4
  cases destroyed
  · have hv := h4 rfl
    subst hv
    cases closed
    · have h2' := h2 rfl
      cases focus' <;> cases ctx <;>
        simp [-List.filter_eq_nil_iff, TerminalWidget.Focus, TerminalWidget.callVterm,
          TerminalWidget.Step, TerminalWidget.Inv, TerminalWidget.onCloseCalls,
          TerminalWidget.vtermUses, TerminalWidget.emit, List.filter_append,
          TermEffect.isOnClose, TermEffect.isVterm, List.append_assoc, h2']
    · simp [-List.filter_eq_nil_iff, TerminalWidget.Focus,
        TerminalWidget.Step, TerminalWidget.Inv, TerminalWidget.onCloseCalls,
        TerminalWidget.vtermUses, h1]
  · obtain ⟨hc, hv⟩ := h3 rfl
    subst hc hv
    simp [-List.filter_eq_nil_iff, TerminalWidget.Focus,
      TerminalWidget.Step, TerminalWidget.Inv, TerminalWidget.onCloseCalls,
      TerminalWidget.vtermUses, h1]

theorem HandleEvent_step (t : TerminalWidget) (ev : VtermEvent) (h : t.Inv) :
    t.Step (t.HandleEvent ev) := by
  obtain ⟨closed, cmd, ctx, destroyed, focus, vterm, running, OnClose, OnEvent, OnStart,
    OnTitle, effects⟩ := t
  obtain ⟨h1, h2, h3, h4⟩ := h
  simp only [TerminalWidget.onCloseCalls] at h1 h2 h3 h4
  cases destroyed
  · have hv := h4 rfl
    subst hv
    cases closed
    · have h2' := h2 rfl
      cases ev <;> cases OnTitle <;> cases OnClose <;> cases ctx <;>
        simp [-List.filter_eq_nil_iff, TerminalWidget.HandleEvent, TerminalWidget.Close,
          TerminalWidget.Step, TerminalWidget.Inv, TerminalWidget.onCloseCalls,
          TerminalWidget.vtermUses, TerminalWidget.emit, List.filter_append,
          TermEffect.isOnClose, TermEffect.isVterm, List.append_assoc, h2']
    · simp [-List.filter_eq_nil_iff, TerminalWidget.HandleEvent,
        TerminalWidget.Step, TerminalWidget.Inv, TerminalWidget.onCloseCalls,
        TerminalWidget.vtermUses, h1]
  · obtain ⟨hc, hv⟩ := h3 rfl
    subst hc hv
    simp [-List.filter_eq_nil_iff, TerminalWidget.HandleEvent,
      TerminalWidget.Step, TerminalWidget.Inv, TerminalWidget.onCloseCalls,
      TerminalWidget.vtermUses, h1]

theorem Event_step (t : TerminalWidget) (handled : Bool) (h : t.Inv) :
    ∃ t', t.Event handled = some t' ∧ t.Step t' := by
  obtain ⟨closed, cmd, ctx, destroyed, focus, vterm, running, OnClose, OnEvent, OnStart,
    OnTitle, effects⟩ := t
  obtain ⟨h1, h2, h3, h4⟩ := h
  simp only [TerminalWidget.onCloseCalls] at h1 h2 h3 h4
  cases destroyed
  · have hv := h4 rfl
    subst hv
    cases closed
    · have h2' := h2 rfl
      cases handled <;> cases OnEvent <;>
        simp [-List.filter_eq_nil_iff, TerminalWidget.Event, TerminalWidget.callVterm,
          TerminalWidget.Step, TerminalWidget.Inv, TerminalWidget.onCloseCalls,
          TerminalWidget.vtermUses, TerminalWidget.emit, List.filter_append,
          TermEffect.isOnClose, TermEffect.isVterm, List.append_assoc, h2']
    · cases handled <;> cases OnEvent <;>
        simp [-List.filter_eq_nil_iff, TerminalWidget.Event, TerminalWidget.callVterm,
          TerminalWidget.Step, TerminalWidget.Inv, TerminalWidget.onCloseCalls,
          TerminalWidget.vtermUses, TerminalWidget.emit, List.filter_append,
          TermEffect.isOnClose, TermEffect.isVterm, List.append_assoc, h1]
  · obtain ⟨hc, hv⟩ := h3 rfl
    subst hc hv
    cases handled <;> cases OnEvent <;>
      simp [-List.filter_eq_nil_iff, TerminalWidget.Event, TerminalWidget.callVterm,
        TerminalWidget.Step, TerminalWidget.Inv, TerminalWidget.onCloseCalls,
        TerminalWidget.vtermUses, TerminalWidget.emit, List.filter_append,
        TermEffect.isOnClose, TermEffect.isVterm, List.append_assoc, h1]

theorem Step_refl (t : TerminalWidget) (h : t.Inv) : t.Step t :=
  ⟨h, fun hc => ⟨hc, rfl⟩, fun hd => ⟨hd, rfl⟩, List.prefix_refl _⟩

theorem Step_trans {t t' t'' : TerminalWidget} (h1 : t.Step t') (h2 : t'.Step t'') :
    t.Step t'' := by
  refine ⟨h2.1, fun hc => ?_, fun hd => ?_, h1.2.2.2.trans h2.2.2.2⟩
  · obtain ⟨hc', ho⟩ := h1.2.1 hc
    obtain ⟨hc'', ho'⟩ := h2.2.1 hc'
    exact ⟨hc'', ho'.trans ho⟩
  · obtain ⟨hd', hv⟩ := h1.2.2.1 hd
    obtain ⟨hd'', hv'⟩ := h2.2.2.1 hd'
    exact ⟨hd'', hv'.trans hv⟩

theorem call_step (t : TerminalWidget) (c : TermCall) (h : t.Inv) :
    ∃ t', t.call c = some t' ∧ t.Step t' := by
  cases c with
  | Close err => exact ⟨_, rfl, Close_step t err h⟩
  | Destroy => exact ⟨_, rfl, (Destroy_step t h).1⟩
  | Draw startErr vis => exact Draw_step t startErr vis h
  | MouseEvent isMouse => exact MouseEvent_step t isMouse h
  | Focus focus => exact Focus_step t focus h
  | HandleEvent ev => exact ⟨_, rfl, HandleEvent_step t ev h⟩
  | Event handled => exact Event_step t handled h
  | SetOnClose callback =>
    exact ⟨_, rfl, h, fun hc => ⟨hc, rfl⟩, fun hd => ⟨hd, rfl⟩, List.prefix_refl _⟩

theorem calls_step (cs : List TermCall) (t : TerminalWidget) (h : t.Inv) :
    ∃ t', t.calls cs = some t' ∧ t.Step t' := by
  induction cs generalizing t with
  | nil => exact ⟨t, rfl, Step_refl t h⟩
  | cons c rest ih =>
    obtain ⟨t1, h1, hs1⟩ := call_step t c h
    obtain ⟨t2, h2, hs2⟩ := ih t1 hs1.1
    exact ⟨t2, by simp only [TerminalWidget.calls, h1, h2], Step_trans hs1 hs2⟩

theorem calls_append (t : TerminalWidget) (pre post : List TermCall) :
    t.calls (pre ++ post) = (t.calls pre).bind fun t1 => t1.calls post := by
  induction pre generalizing t with
  | nil => rfl
  | cons c rest ih =>
    simp only [List.cons_append, TerminalWidget.calls]
    rcases t.call c with _ | t1
    · rfl
    · exact ih t1

theorem filter_added {p : TermEffect → Bool} {l added : List TermEffect}
    (h : (l ++ added).filter p = l.filter p) : ∀ e ∈ added, p e = false := by
  rw [List.filter_append] at h
  have hnil : added.filter p = [] := by
    have := congrArg List.length h
    simp only [List.length_append] at this
    exact List.eq_nil_of_length_eq_zero (by omega)
  intro e he
  rw [List.filter_eq_nil_iff] at hnil
  simpa using hnil e he

theorem fresh_inv (t0 : TerminalWidget)
    (hdestroyed : t0.destroyed = false) (hvterm : t0.vterm = true) (heffects : t0.effects = []) :
    t0.Inv := by
  refine ⟨?_, fun _ => ?_, fun hd => ?_, fun _ => hvterm⟩
  · simp [TerminalWidget.onCloseCalls, heffects]
  · simp [TerminalWidget.onCloseCalls, heffects]
  · rw [hdestroyed] at hd; cases hd

/-- C25. Start from a terminal that is not destroyed, whose virtual terminal
is set and that has done nothing yet, as `NewTerminal` gives it, with any
callbacks. Every sequence of calls of `Close`, `Destroy`, `Draw`,
`MouseEvent`, `Focus`, `HandleEvent` and `Event`, and of assignments to
`OnClose`, runs without a nil-pointer panic and invokes `OnClose` at most once.
Wherever the sequence has a `Destroy`, that call invokes no `OnClose` and
leaves the terminal closed and destroyed with a `nil` virtual terminal, and
the calls after it invoke no `OnClose` and no method of the virtual
terminal. -/
theorem terminal_close_protocol (t0 : TerminalWidget) (cs : List TermCall)
    (hdestroyed : t0.destroyed = false)
    (hvterm : t0.vterm = true) (heffects : t0.effects = []) :
    ∃ t, t0.calls cs = some t ∧ t.onCloseCalls.length ≤ 1 ∧
      ∀ pre post, cs = pre ++ TermCall.Destroy :: post →
        ∃ t1 t2 byDestroy after, t0.calls pre = some t1 ∧ t1.call .Destroy = some t2 ∧
          t2.calls post = some t ∧
          t2.effects = t1.effects ++ byDestroy ∧
          (∀ e ∈ byDestroy, e.isOnClose = false) ∧
          t2.closed = true ∧ t2.destroyed = true ∧ t2.vterm = false ∧
          t.effects = t2.effects ++ after ∧
          (∀ e ∈ after, e.isOnClose = false ∧ e.isVterm = false) ∧
          t.closed = true ∧ t.destroyed = true ∧ t.vterm = false := by
  have hinv := fresh_inv t0 hdestroyed hvterm heffects
  obtain ⟨t, ht, hstep⟩ := calls_step cs t0 hinv
  refine ⟨t, ht, hstep.1.1, ?_⟩
  intro pre post hcs
  obtain ⟨t1, ht1, hs1⟩ := calls_step pre t0 hinv
  obtain ⟨hsd, hdc, hdd, hdv, hdo⟩ := Destroy_step t1 hs1.1
  obtain ⟨t3, ht3, hs3⟩ := calls_step post t1.Destroy hsd.1
  have ht' : t0.calls cs = some t3 := by
    rw [hcs, calls_append, ht1]
    simp only [Option.some_bind, TerminalWidget.calls, TerminalWidget.call]
    exact ht3
  rw [ht] at ht'
  simp only [Option.some.injEq] at ht'
  subst ht'
  obtain ⟨byDestroy, hby⟩ := hsd.2.2.2
  obtain ⟨after, haf⟩ := hs3.2.2.2
  obtain ⟨hc3, ho3⟩ := hs3.2.1 hdc
  obtain ⟨hd3, hv3⟩ := hs3.2.2.1 hdd
  refine ⟨t1, t1.Destroy, byDestroy, after, ht1, rfl, ht3, hby.symm, ?_, hdc, hdd, hdv,
    haf.symm, ?_, hc3, hd3, (hs3.1.2.2.1 hd3).2⟩
  · apply filter_added (l := t1.effects)
    rw [hby]
    exact hdo
  · intro e he
    constructor
    · apply filter_added (l := t1.Destroy.effects) _ e he
      rw [haf]
      exact ho3
    · apply filter_added (l := t1.Destroy.effects) _ e he
      rw [haf]
      exact hv3

/-- Witness of C25: a terminal with an `OnClose` callback is drawn, closed,
destroyed, and used again; `OnClose` runs once, in the first `Close`, and the
virtual terminal is last used by that `Close`. -/
theorem terminal_close_protocol_witness :
    sampleTerminal.destroyed = false ∧ sampleTerminal.vterm = true ∧
    sampleTerminal.effects = [] ∧
    (sampleTerminal.calls
        [.Draw none true, .Close none, .Destroy, .Close none, .Draw none true, .Event false,
          .Focus true, .MouseEvent true, .HandleEvent .EventClosed]).map
        (fun t => t.effects) =
      some [.vterm .SetView, .vterm .Watch, .vterm .StartWithAttrs, .vterm .Draw,
        .vterm .Unwatch, .vterm .Close, .OnClose none, .HideCursor, .HideCursor] ∧
    ∃ t, sampleTerminal.calls
        [.Draw none true, .Close none, .Destroy, .Close none, .Draw none true, .Event false,
          .Focus true, .MouseEvent true, .HandleEvent .EventClosed] = some t ∧
      t.onCloseCalls.length ≤ 1 :=
  ⟨rfl, rfl, rfl, by decide,
    (terminal_close_protocol sampleTerminal
      [.Draw none true, .Close none, .Destroy, .Close none, .Draw none true, .Event false,
        .Focus true, .MouseEvent true, .HandleEvent .EventClosed] rfl rfl rfl).imp
      fun _ h => ⟨h.1, h.2.1⟩⟩

/-! ### The second count of the export status -/

theorem exportRun_status_store_length :
    ∃ st, exportRun emptyDoneBackend [1, 2] 3 = some (st, .Finished) ∧
      st.log = [ExportEvent.Fetch [1, 2], ExportEvent.PushStatus 0 3] :=
  ⟨_, rfl, by decide⟩

end Aerc
